import Mathlib

/-!
S/PDIF frame encoder of the ZuluSCSI RP2040 audio subsystem.

Shallow embedding of `lib/ZuluSCSI_platform_RP2040/audio.cpp`.

Machine integers are natural numbers with an explicit reduction modulo `2^w`
wherever the C type truncates.  Memory reached through a pointer is a function
from the offset to the value stored there; the sample bytes and the wire
patterns are separate memories (the callers pass distinct static arrays).
-/

namespace ZuluAudio

/-! ## Lookup tables and constants (audio.cpp lines 32-106) -/

/-- Table `snd_parity[256]`: the entries in source order. -/
def snd_parity_table : List Nat :=
  [
   0, 1, 1, 2, 1, 2, 2, 3, 1, 2, 2, 3, 2, 3, 3, 4,
   1, 2, 2, 3, 2, 3, 3, 4, 2, 3, 3, 4, 3, 4, 4, 5,
   1, 2, 2, 3, 2, 3, 3, 4, 2, 3, 3, 4, 3, 4, 4, 5,
   2, 3, 3, 4, 3, 4, 4, 5, 3, 4, 4, 5, 4, 5, 5, 6,
   1, 2, 2, 3, 2, 3, 3, 4, 2, 3, 3, 4, 3, 4, 4, 5,
   2, 3, 3, 4, 3, 4, 4, 5, 3, 4, 4, 5, 4, 5, 5, 6,
   2, 3, 3, 4, 3, 4, 4, 5, 3, 4, 4, 5, 4, 5, 5, 6,
   3, 4, 4, 5, 4, 5, 5, 6, 4, 5, 5, 6, 5, 6, 6, 7,
   1, 2, 2, 3, 2, 3, 3, 4, 2, 3, 3, 4, 3, 4, 4, 5,
   2, 3, 3, 4, 3, 4, 4, 5, 3, 4, 4, 5, 4, 5, 5, 6,
   2, 3, 3, 4, 3, 4, 4, 5, 3, 4, 4, 5, 4, 5, 5, 6,
   3, 4, 4, 5, 4, 5, 5, 6, 4, 5, 5, 6, 5, 6, 6, 7,
   2, 3, 3, 4, 3, 4, 4, 5, 3, 4, 4, 5, 4, 5, 5, 6,
   3, 4, 4, 5, 4, 5, 5, 6, 4, 5, 5, 6, 5, 6, 6, 7,
   3, 4, 4, 5, 4, 5, 5, 6, 4, 5, 5, 6, 5, 6, 6, 7,
   4, 5, 5, 6, 5, 6, 6, 7, 5, 6, 6, 7, 6, 7, 7, 8
  ]

/-- Table `biphase[256]`: the entries in source order. -/
def biphase_table : List Nat :=
  [
   0xCCCC, 0xB333, 0xD333, 0xACCC, 0xCB33, 0xB4CC, 0xD4CC, 0xAB33,
   0xCD33, 0xB2CC, 0xD2CC, 0xAD33, 0xCACC, 0xB533, 0xD533, 0xAACC,
   0xCCB3, 0xB34C, 0xD34C, 0xACB3, 0xCB4C, 0xB4B3, 0xD4B3, 0xAB4C,
   0xCD4C, 0xB2B3, 0xD2B3, 0xAD4C, 0xCAB3, 0xB54C, 0xD54C, 0xAAB3,
   0xCCD3, 0xB32C, 0xD32C, 0xACD3, 0xCB2C, 0xB4D3, 0xD4D3, 0xAB2C,
   0xCD2C, 0xB2D3, 0xD2D3, 0xAD2C, 0xCAD3, 0xB52C, 0xD52C, 0xAAD3,
   0xCCAC, 0xB353, 0xD353, 0xACAC, 0xCB53, 0xB4AC, 0xD4AC, 0xAB53,
   0xCD53, 0xB2AC, 0xD2AC, 0xAD53, 0xCAAC, 0xB553, 0xD553, 0xAAAC,
   0xCCCB, 0xB334, 0xD334, 0xACCB, 0xCB34, 0xB4CB, 0xD4CB, 0xAB34,
   0xCD34, 0xB2CB, 0xD2CB, 0xAD34, 0xCACB, 0xB534, 0xD534, 0xAACB,
   0xCCB4, 0xB34B, 0xD34B, 0xACB4, 0xCB4B, 0xB4B4, 0xD4B4, 0xAB4B,
   0xCD4B, 0xB2B4, 0xD2B4, 0xAD4B, 0xCAB4, 0xB54B, 0xD54B, 0xAAB4,
   0xCCD4, 0xB32B, 0xD32B, 0xACD4, 0xCB2B, 0xB4D4, 0xD4D4, 0xAB2B,
   0xCD2B, 0xB2D4, 0xD2D4, 0xAD2B, 0xCAD4, 0xB52B, 0xD52B, 0xAAD4,
   0xCCAB, 0xB354, 0xD354, 0xACAB, 0xCB54, 0xB4AB, 0xD4AB, 0xAB54,
   0xCD54, 0xB2AB, 0xD2AB, 0xAD54, 0xCAAB, 0xB554, 0xD554, 0xAAAB,
   0xCCCD, 0xB332, 0xD332, 0xACCD, 0xCB32, 0xB4CD, 0xD4CD, 0xAB32,
   0xCD32, 0xB2CD, 0xD2CD, 0xAD32, 0xCACD, 0xB532, 0xD532, 0xAACD,
   0xCCB2, 0xB34D, 0xD34D, 0xACB2, 0xCB4D, 0xB4B2, 0xD4B2, 0xAB4D,
   0xCD4D, 0xB2B2, 0xD2B2, 0xAD4D, 0xCAB2, 0xB54D, 0xD54D, 0xAAB2,
   0xCCD2, 0xB32D, 0xD32D, 0xACD2, 0xCB2D, 0xB4D2, 0xD4D2, 0xAB2D,
   0xCD2D, 0xB2D2, 0xD2D2, 0xAD2D, 0xCAD2, 0xB52D, 0xD52D, 0xAAD2,
   0xCCAD, 0xB352, 0xD352, 0xACAD, 0xCB52, 0xB4AD, 0xD4AD, 0xAB52,
   0xCD52, 0xB2AD, 0xD2AD, 0xAD52, 0xCAAD, 0xB552, 0xD552, 0xAAAD,
   0xCCCA, 0xB335, 0xD335, 0xACCA, 0xCB35, 0xB4CA, 0xD4CA, 0xAB35,
   0xCD35, 0xB2CA, 0xD2CA, 0xAD35, 0xCACA, 0xB535, 0xD535, 0xAACA,
   0xCCB5, 0xB34A, 0xD34A, 0xACB5, 0xCB4A, 0xB4B5, 0xD4B5, 0xAB4A,
   0xCD4A, 0xB2B5, 0xD2B5, 0xAD4A, 0xCAB5, 0xB54A, 0xD54A, 0xAAB5,
   0xCCD5, 0xB32A, 0xD32A, 0xACD5, 0xCB2A, 0xB4D5, 0xD4D5, 0xAB2A,
   0xCD2A, 0xB2D5, 0xD2D5, 0xAD2A, 0xCAD5, 0xB52A, 0xD52A, 0xAAD5,
   0xCCAA, 0xB355, 0xD355, 0xACAA, 0xCB55, 0xB4AA, 0xD4AA, 0xAB55,
   0xCD55, 0xB2AA, 0xD2AA, 0xAD55, 0xCAAA, 0xB555, 0xD555, 0xAAAA
  ]

/-- Read of `snd_parity[i]`. -/
def snd_parity (i : Nat) : Nat := snd_parity_table.getD i 0

/-- Read of `biphase[i]`. -/
def biphase (i : Nat) : Nat := biphase_table.getD i 0

def x_preamble : Nat := 0xE2CC

def y_preamble : Nat := 0xE4CC

def z_preamble : Nat := 0xE8CC

/-! ## Encoder context (audio.cpp lines 131-133) -/

/-- The statics `sfcnt` (`uint16_t`) and `invert` (`uint8_t`). -/
structure EncCtx where
  sfcnt : Nat
  invert : Nat
deriving DecidableEq

/-! ## One pass of the loop of `snd_encode` (audio.cpp lines 148-199) -/

/-- Lines 148-166: the 32-bit sub-frame value `sample` built from the bytes
`b0 = samples[i]` and `b1 = samples[i + 1]`. -/
def subframe (b0 b1 : Nat) : Nat :=
  let sample := (b0 + (b1 <<< 8)) % 2 ^ 32
  let parity := snd_parity (((sample >>> 8) ^^^ sample) % 256)
  let sample := (sample <<< 11) % 2 ^ 32
  let sample1 := if sample &&& 0x04000000 ≠ 0 then sample ||| 0x08000000 else sample
  let parity1 := if sample &&& 0x04000000 ≠ 0 then (parity + 1) % 256 else parity
  if parity1 % 2 ≠ 0 then sample1 ||| 0x80000000 else sample1

/-- Lines 172-178: the preamble chosen from the sub-frame counter. -/
def preamble (sfcnt : Nat) : Nat :=
  if sfcnt = 0 then z_preamble
  else if sfcnt % 2 ≠ 0 then y_preamble
  else x_preamble

/-- The C expression `~wp` stored back into a `uint16_t`. -/
def not16 (wp : Nat) : Nat := (wp ^^^ 0xFFFF) % 0x10000

/-- The statement `if (invert) wp = ~wp;`. -/
def apply_invert (invert wp : Nat) : Nat :=
  if invert ≠ 0 then not16 wp else wp

/-- Lines 198-199: `sfcnt++; if (sfcnt == 384) sfcnt = 0;` on a `uint16_t`. -/
def next_sfcnt (sfcnt : Nat) : Nat :=
  let s := (sfcnt + 1) % 65536
  if s = 384 then 0 else s

/-- What one pass of the loop produces: the four wire patterns in the order
they are stored, and the context afterwards. -/
structure SampleOut where
  w0 : Nat
  w1 : Nat
  w2 : Nat
  w3 : Nat
  ctx : EncCtx
deriving DecidableEq

/-- The four preamble/biphase table values looked up for one sample, before
the inversion step is applied to them (lines 172-178, 183, 188, 193). -/
def table_words (sfcnt b0 b1 : Nat) : List Nat :=
  let sample := subframe b0 b1
  [preamble sfcnt,
   biphase ((sample >>> 8) % 256),
   biphase ((sample >>> 16) % 256),
   biphase ((sample >>> 24) % 256)]

/-- Lines 179-181 (repeated at 184-186, 189-191, 194-196): invert the pattern
when the flag is set, then set the flag to the last bit of the pattern that is
stored.  Returns the stored pattern and the new flag. -/
def emit (invert wp : Nat) : Nat × Nat :=
  let wp := apply_invert invert wp
  (wp, wp &&& 1)

/-- Lines 148-199 without the stores: the patterns and the new context for
the bytes `b0 = samples[i]`, `b1 = samples[i + 1]`. -/
def snd_encode_sample (ctx : EncCtx) (b0 b1 : Nat) : SampleOut :=
  let sample := subframe b0 b1
  let e0 := emit ctx.invert (preamble ctx.sfcnt)
  let e1 := emit e0.2 (biphase ((sample >>> 8) % 256))
  let e2 := emit e1.2 (biphase ((sample >>> 16) % 256))
  let e3 := emit e2.2 (biphase ((sample >>> 24) % 256))
  { w0 := e0.1, w1 := e1.1, w2 := e2.1, w3 := e3.1,
    ctx := { sfcnt := next_sfcnt ctx.sfcnt, invert := e3.2 } }

/-- The patterns of one sample as a list, in storage order. -/
def SampleOut.words (r : SampleOut) : List Nat := [r.w0, r.w1, r.w2, r.w3]

/-! ## The loop of `snd_encode` (audio.cpp lines 145-201) -/

/-- Store `wire_patterns[idx] = w`. -/
def write16 (wire : Nat → Nat) (idx w : Nat) : Nat → Nat :=
  fun j => if j = idx then w else wire j

/-- Locals and statics live during the loop: `i` and `widx` (`uint16_t`),
the destination memory and the encoder context. -/
structure LoopState where
  i : Nat
  widx : Nat
  wire : Nat → Nat
  ctx : EncCtx

/-- One pass of the loop body followed by `i += 2`. -/
def snd_encode_body (samples : Nat → Nat) (st : LoopState) : LoopState :=
  let r := snd_encode_sample st.ctx (samples st.i % 256) (samples (st.i + 1) % 256)
  let wire := write16 st.wire st.widx r.w0
  let widx := (st.widx + 1) % 65536
  let wire := write16 wire widx r.w1
  let widx := (widx + 1) % 65536
  let wire := write16 wire widx r.w2
  let widx := (widx + 1) % 65536
  let wire := write16 wire widx r.w3
  let widx := (widx + 1) % 65536
  { i := (st.i + 2) % 65536, widx := widx, wire := wire, ctx := r.ctx }

/-- The `for` loop: test `i < len`, run the body, repeat.  `none` when the
fuel runs out before the test fails. -/
def snd_encode_loop (samples : Nat → Nat) (len : Nat) : Nat → LoopState → Option LoopState
  | 0, _ => none
  | fuel + 1, st =>
    if st.i < len then snd_encode_loop samples len fuel (snd_encode_body samples st)
    else some st

/-- Fuel that covers every terminating run: `i` takes at most 32768 even values. -/
def snd_encode_fuel : Nat := 32769

/-- The function `snd_encode(samples, wire_patterns, len)`: returns the
destination memory and the context after the call. -/
def snd_encode (samples wire : Nat → Nat) (len : Nat) (ctx : EncCtx) :
    Option ((Nat → Nat) × EncCtx) :=
  (snd_encode_loop samples len snd_encode_fuel
    { i := 0, widx := 0, wire := wire, ctx := ctx }).map fun st => (st.wire, st.ctx)

/-! ## Reading the wire patterns back (receiver side, used to state the properties) -/

/-- Half-bit `k` (0 is transmitted first) of a 16-bit pattern sent MSB first. -/
def halfBit (w k : Nat) : Bool := w.testBit (15 - k)

/-- Bit cell `c` (0..7) of a pattern: it carries a one exactly when its two
half-bits differ. -/
def cellOf (w c : Nat) : Bool := halfBit w (2 * c) != halfBit w (2 * c + 1)

/-- The cell of sub-frame time slot `t` (0..31): slot `t` lies in pattern
`t / 8`, cell `t % 8`. -/
def slotCell (r : SampleOut) (t : Nat) : Bool :=
  cellOf (r.words.getD (t / 8) 0) (t % 8)

/-- The 24 cells of the second, third and fourth pattern, in wire order. -/
def data_cells (r : SampleOut) : List Bool :=
  (List.range 8).map (cellOf r.w1) ++ (List.range 8).map (cellOf r.w2)
    ++ (List.range 8).map (cellOf r.w3)

/-- The 16-bit sample assembled little-endian from two bytes. -/
def sample16 (b0 b1 : Nat) : Nat := b0 + 256 * b1

/-! ## Unfolding the loop pass by pass -/

/-- State on entry to the loop. -/
def loop_init (wire : Nat → Nat) (ctx : EncCtx) : LoopState :=
  { i := 0, widx := 0, wire := wire, ctx := ctx }

/-- State after `k` passes of the loop body. -/
def loop_state (samples wire : Nat → Nat) (ctx : EncCtx) : Nat → LoopState
  | 0 => loop_init wire ctx
  | k + 1 => snd_encode_body samples (loop_state samples wire ctx k)

/-- Context before the `k`-th sample (counting from 0) of a run that reads
the samples in order from offset 0. -/
def ctx_at (samples : Nat → Nat) (ctx : EncCtx) : Nat → EncCtx
  | 0 => ctx
  | k + 1 =>
    (snd_encode_sample (ctx_at samples ctx k) (samples (2 * k) % 256)
      (samples (2 * k + 1) % 256)).ctx

/-- Patterns and context produced for the `k`-th sample of such a run. -/
def out_at (samples : Nat → Nat) (ctx : EncCtx) (k : Nat) : SampleOut :=
  snd_encode_sample (ctx_at samples ctx k) (samples (2 * k) % 256) (samples (2 * k + 1) % 256)

/-- Byte memory holding the list `b` from offset 0 (zero elsewhere). -/
def mem_of (b : List Nat) : Nat → Nat := fun i => b.getD i 0

/-- The first `n` entries of a destination memory. -/
def read_words (wire : Nat → Nat) (n : Nat) : List Nat := (List.range n).map wire

/-- Preamble named by the specification for the `n`-th sample of a stream:
Z at block start, Y for odd positions, X otherwise. -/
def stream_preamble (n : Nat) : Nat :=
  if n % 384 = 0 then 0xE8CC else if n % 384 % 2 = 1 then 0xE4CC else 0xE2CC

/-- Consecutive per-sample steps: the wire patterns in order and the final context. -/
def run_samples : EncCtx → List (Nat × Nat) → List Nat × EncCtx
  | ctx, [] => ([], ctx)
  | ctx, p :: rest =>
    let r := snd_encode_sample ctx p.1 p.2
    let t := run_samples r.ctx rest
    (r.words ++ t.1, t.2)

/-- The table values looked up during consecutive per-sample steps, before inversion. -/
def run_table_words : Nat → List (Nat × Nat) → List Nat
  | _, [] => []
  | sfcnt, p :: rest => table_words sfcnt p.1 p.2 ++ run_table_words (next_sfcnt sfcnt) rest

/-- How many patterns of a list end in a one (least-significant bit set). -/
def count_last_one (ws : List Nat) : Nat := ws.countP fun w => w % 2 = 1

/-- Two's-complement reading of an unsigned value of the given width. -/
def to_signed (bits v : Nat) : Int :=
  if v < 2 ^ (bits - 1) then (v : Int) else (v : Int) - 2 ^ bits

/-- The 24-bit audio field: time slots 4..27, slot 27 most significant. -/
def audio_field (r : SampleOut) : Nat :=
  ((List.range 24).map fun k => (slotCell r (4 + k)).toNat * 2 ^ k).sum

/-- The parity bit P chosen at line 166, as a Boolean. -/
def parity_bit (b0 b1 : Nat) : Bool :=
  decide ((snd_parity ((((sample16 b0 b1) >>> 8) ^^^ (sample16 b0 b1)) % 256)
    + (if (sample16 b0 b1).testBit 15 then 1 else 0)) % 2 = 1)

/-- The 28 cells of time slots 4..31: the four cells in the low byte of the
preamble pattern, then the 24 cells of the three data patterns. -/
def parity_cells (r : SampleOut) : List Bool :=
  [4, 5, 6, 7].map (cellOf r.w0) ++ data_cells r

/-- Number of one-bits among bits 0..15. -/
def ones16 (s : Nat) : Nat :=
  ((List.range 16).map (fun k => (s.testBit k).toNat)).sum

/-- Number of passes the loop makes for a length below 65535. -/
def passes (len : Nat) : Nat := (len + 1) / 2

/-- One store of a pattern as the code performs it: the flag `invert` just
before, the table value looked up, the pattern stored and the flag just after. -/
structure WordStep where
  flag_before : Nat
  table_value : Nat
  written : Nat
  flag_after : Nat
deriving DecidableEq

/-- Passing table values through `emit` one after another: every store starts
from the flag the previous store left behind. -/
def emit_trace : Nat → List Nat → List WordStep
  | _, [] => []
  | invert, t :: ts =>
    { flag_before := invert, table_value := t, written := (emit invert t).1,
      flag_after := (emit invert t).2 } :: emit_trace (emit invert t).2 ts

/-- The four stores of one sample, starting from the flag in the context. -/
def word_steps (ctx : EncCtx) (b0 b1 : Nat) : List WordStep :=
  emit_trace ctx.invert (table_words ctx.sfcnt b0 b1)

/-! ## Buffer pipeline (audio.cpp lines 108-133, 203-242, 323-347) -/

/-- The enum `bufstate` of line 124. -/
inductive bufstate where
  | STALE
  | FILLING
  | READY
deriving DecidableEq

/-- The enum `bufselect` of line 127. -/
inductive bufselect where
  | A
  | B
deriving DecidableEq

/-- Channel number `SOUND_DMA_CHA` (audio.h line 28). -/
def SOUND_DMA_CHA : Nat := 6

/-- Channel number `SOUND_DMA_CHB` (audio.h line 29). -/
def SOUND_DMA_CHB : Nat := 7

/-- Size of each sample buffer in bytes (audio.h line 33). -/
def AUDIO_BUFFER_SIZE : Nat := 8192

/-- Bytes handed to one encode job (audio.cpp line 117). -/
def SAMPLE_CHUNK_SIZE : Nat := 1024

/-- Entries of each wire buffer (audio.cpp line 118). -/
def WIRE_BUFFER_SIZE : Nat := SAMPLE_CHUNK_SIZE * 2

/-- Calls into the DMA hardware, recorded in the order they are made. -/
inductive HwEvent where
  | dma_channel_start (channel : Nat)
  | dma_channel_disable (channel : Nat)
deriving DecidableEq

/-- The statics of audio.cpp: buffer states, selector, cursor, encoder
context, the four buffers, the flag `running`, and the record of hardware calls. -/
structure AudioState where
  abufst : bufstate
  bbufst : bufstate
  sbufsel : bufselect
  sbufpos : Nat
  enc : EncCtx
  sample_buf_a : Nat → Nat
  sample_buf_b : Nat → Nat
  wire_buf_a : Nat → Nat
  wire_buf_b : Nat → Nat
  running : Bool
  hw : List HwEvent

/-- The statics as the initialisers leave them (lines 113-133, 323): both
buffers STALE, selector A, cursor 0, counter 0, flag 0, zeroed arrays. -/
def init_state : AudioState :=
  { abufst := .STALE, bbufst := .STALE, sbufsel := .A, sbufpos := 0,
    enc := { sfcnt := 0, invert := 0 },
    sample_buf_a := fun _ => 0, sample_buf_b := fun _ => 0,
    wire_buf_a := fun _ => 0, wire_buf_b := fun _ => 0,
    running := false, hw := [] }

/-- Lines 207-212 (and 227-232): advance the cursor after a chunk of buffer A;
at the end of the buffer select B, rewind, and mark A stale. -/
def advance_a (s : AudioState) : AudioState :=
  let pos := (s.sbufpos + SAMPLE_CHUNK_SIZE) % 65536
  if pos ≥ AUDIO_BUFFER_SIZE then
    { s with sbufsel := .B, sbufpos := 0, abufst := .STALE }
  else { s with sbufpos := pos }

/-- Lines 215-220 (and 235-240): the same after a chunk of buffer B. -/
def advance_b (s : AudioState) : AudioState :=
  let pos := (s.sbufpos + SAMPLE_CHUNK_SIZE) % 65536
  if pos ≥ AUDIO_BUFFER_SIZE then
    { s with sbufsel := .A, sbufpos := 0, bbufst := .STALE }
  else { s with sbufpos := pos }

/-- The function `snd_process_a` (lines 204-222): encode the next chunk of the
selected sample buffer into wire buffer A.  `none` if `snd_encode` does not
return. -/
def snd_process_a (s : AudioState) : Option AudioState :=
  match s.sbufsel with
  | .A =>
    (snd_encode (fun i => s.sample_buf_a (s.sbufpos + i)) s.wire_buf_a SAMPLE_CHUNK_SIZE
      s.enc).map fun r => advance_a { s with wire_buf_a := r.1, enc := r.2 }
  | .B =>
    (snd_encode (fun i => s.sample_buf_b (s.sbufpos + i)) s.wire_buf_a SAMPLE_CHUNK_SIZE
      s.enc).map fun r => advance_b { s with wire_buf_a := r.1, enc := r.2 }

/-- The function `snd_process_b` (lines 223-242): the same into wire buffer B. -/
def snd_process_b (s : AudioState) : Option AudioState :=
  match s.sbufsel with
  | .A =>
    (snd_encode (fun i => s.sample_buf_a (s.sbufpos + i)) s.wire_buf_b SAMPLE_CHUNK_SIZE
      s.enc).map fun r => advance_a { s with wire_buf_b := r.1, enc := r.2 }
  | .B =>
    (snd_encode (fun i => s.sample_buf_b (s.sbufpos + i)) s.wire_buf_b SAMPLE_CHUNK_SIZE
      s.enc).map fun r => advance_b { s with wire_buf_b := r.1, enc := r.2 }

/-- Lines 325-328 of `audio_buffer`: start channel A once both buffers are ready. -/
def start_if_ready (s : AudioState) : AudioState :=
  if s.running = false ∧ s.abufst = .READY ∧ s.bbufst = .READY then
    { s with hw := s.hw ++ [HwEvent.dma_channel_start SOUND_DMA_CHA], running := true }
  else s

/-- The function `audio_buffer` (lines 324-339).  The pointer it returns is
given as the buffer it points to: `some A` for `sample_buf_a`, `some B` for
`sample_buf_b`, `none` for `NULL`. -/
def audio_buffer (s : AudioState) : AudioState × Option bufselect :=
  let s1 := start_if_ready s
  if s1.abufst = .STALE then ({ s1 with abufst := .FILLING }, some .A)
  else if s1.bbufst = .STALE then ({ s1 with bbufst := .FILLING }, some .B)
  else (s1, none)

/-- The function `audio_buffer_filled` (lines 341-347). -/
def audio_buffer_filled (s : AudioState) : AudioState :=
  if s.abufst = .FILLING then { s with abufst := .READY }
  else if s.bbufst = .FILLING then { s with bbufst := .READY }
  else s

/-- The operations on the pipeline. -/
inductive Op where
  | audio_buffer
  | audio_buffer_filled
  | snd_process_a
  | snd_process_b
deriving DecidableEq

/-- One operation applied to a state. -/
def step (op : Op) (s : AudioState) : Option AudioState :=
  match op with
  | .audio_buffer => some (audio_buffer s).1
  | .audio_buffer_filled => some (audio_buffer_filled s)
  | .snd_process_a => snd_process_a s
  | .snd_process_b => snd_process_b s

/-- A sequence of operations applied in order. -/
def run_ops : List Op → AudioState → Option AudioState
  | [], s => some s
  | op :: ops, s =>
    match step op s with
    | none => none
    | some s1 => run_ops ops s1

/-- Number of the two sample buffers that are in state FILLING. -/
def filling_count (s : AudioState) : Nat :=
  (if s.abufst = .FILLING then 1 else 0) + (if s.bbufst = .FILLING then 1 else 0)

/-- State of the buffer the selector designates. -/
def active_state (s : AudioState) : bufstate :=
  match s.sbufsel with
  | .A => s.abufst
  | .B => s.bbufst

/-- State of the buffer the selector does not designate. -/
def other_state (s : AudioState) : bufstate :=
  match s.sbufsel with
  | .A => s.bbufst
  | .B => s.abufst

/-- State of the sample buffer a selector value designates. -/
def buf_state (s : AudioState) : bufselect → bufstate
  | .A => s.abufst
  | .B => s.bbufst

/-- The two encode jobs. -/
def is_job (op : Op) : Prop := op = .snd_process_a ∨ op = .snd_process_b

/-- The other selector value. -/
def bufselect.flip : bufselect → bufselect
  | .A => .B
  | .B => .A

/-- An operation under the calling discipline of `audio_poll` (lines 350-362),
which calls `audio_buffer` and, when a buffer came back, `audio_buffer_filled`
before it returns.  The flag records that a buffer handed out by
`audio_buffer` still waits for `audio_buffer_filled`; `audio_buffer` is not
called again while it is set (`none`).  Encode jobs may run at any point. -/
def step_polled (op : Op) (p : AudioState × Bool) : Option (AudioState × Bool) :=
  match op with
  | .audio_buffer =>
    if p.2 then none else some ((audio_buffer p.1).1, (audio_buffer p.1).2.isSome)
  | .audio_buffer_filled => some (audio_buffer_filled p.1, false)
  | .snd_process_a => (snd_process_a p.1).map fun s => (s, p.2)
  | .snd_process_b => (snd_process_b p.1).map fun s => (s, p.2)

/-- A sequence of operations under the discipline of `step_polled`. -/
def run_polled : List Op → AudioState × Bool → Option (AudioState × Bool)
  | [], p => some p
  | op :: ops, p =>
    match step_polled op p with
    | none => none
    | some p1 => run_polled ops p1

/-- The state in which transmission has just started: both buffers READY,
selector A, cursor 0, channel A started. -/
def started_state : AudioState :=
  { init_state with
    abufst := .READY, bbufst := .READY, running := true,
    hw := [HwEvent.dma_channel_start SOUND_DMA_CHA] }

/-- Modelled from the spec: `audio_stop`, declared in audio.h line 68 and
defined nowhere in the sources.  The specification: `stop()` "disables both
channels and returns both PCM buffers to Stale". -/
def audio_stop (s : AudioState) : AudioState :=
  { s with
    abufst := .STALE, bbufst := .STALE,
    hw := s.hw ++ [HwEvent.dma_channel_disable SOUND_DMA_CHA,
      HwEvent.dma_channel_disable SOUND_DMA_CHB] }

/-- Modelled from the spec: `audio_play`, declared in audio.h line 63 and
defined nowhere in the sources.  The specification: `start()` "begins playback
from a given PCM source", it "must reach the same initial encoder state
(counter = 0, inversion = 0) as a cold start", and the pipeline context
(counter, flag, selector, cursor) has "lifetime = subsystem active period". -/
def audio_play (s : AudioState) : AudioState :=
  { s with
    enc := init_state.enc, sbufsel := init_state.sbufsel, sbufpos := init_state.sbufpos }

/-! ## Half-bit streams, job output and the interrupt handler (audio.cpp lines 203-242, 261-281) -/

/-- Number of one-bits among bits 0..7. -/
def ones8 (v : Nat) : Nat :=
  ((List.range 8).map (fun k => (v.testBit k).toNat)).sum

/-- Half-bit `q` of the stream a destination memory holds: entry `q / 16`,
sent MSB first. -/
def wire_half (wire : Nat → Nat) (q : Nat) : Bool := halfBit (wire (q / 16)) (q % 16)

/-- Half-bit `q` (0..63) of the four patterns of one sample. -/
def sample_half (r : SampleOut) (q : Nat) : Bool := halfBit (r.words.getD (q / 16) 0) (q % 16)

/-- The sample buffer the selector designates (the source pointer of lines
206, 214, 226, 234 is this buffer plus `sbufpos`). -/
def selected_buf (s : AudioState) : Nat → Nat :=
  match s.sbufsel with
  | .A => s.sample_buf_a
  | .B => s.sample_buf_b

/-- The wire buffer an encode job writes: A for `snd_process_a`, B for
`snd_process_b`. -/
def job_wire_buf (op : Op) (s : AudioState) : Nat → Nat :=
  match op with
  | .snd_process_b => s.wire_buf_b
  | _ => s.wire_buf_a

/-- The bytes of `sample_buf_a` followed by those of `sample_buf_b`. -/
def pcm_stream (s : AudioState) : Nat → Nat :=
  fun i => if i < AUDIO_BUFFER_SIZE then s.sample_buf_a i else s.sample_buf_b (i - AUDIO_BUFFER_SIZE)

/-- The contents of the wire buffer an encode job has just written (nothing
for the other operations). -/
def job_output (op : Op) (s : AudioState) : List Nat :=
  match op with
  | .snd_process_a => read_words s.wire_buf_a WIRE_BUFFER_SIZE
  | .snd_process_b => read_words s.wire_buf_b WIRE_BUFFER_SIZE
  | _ => []

/-- A sequence of operations applied in order, collecting the wire-buffer
contents each encode job leaves behind, in call order. -/
def run_collect : List Op → AudioState → Option (List Nat × AudioState)
  | [], s => some ([], s)
  | op :: ops, s =>
    match step op s with
    | none => none
    | some s1 =>
      match run_collect ops s1 with
      | none => none
      | some r => some (job_output op s1 ++ r.1, r.2)

/-- Calls and register writes `audio_dma_irq` makes (lines 261-281), recorded
in the order it makes them.  `ints0_write v` is the store `dma_hw->ints0 = v`;
`multicore_fifo_push_blocking job` passes the address of an encode job to the
other core; `dma_channel_configure` records the channel, which of the two
configurations and which of the two wire buffers (as read address) are passed,
the transfer count and the trigger flag.  The write address is the SPI data
register in both calls. -/
inductive IrqCall where
  | ints0_write (value : Nat)
  | multicore_fifo_push_blocking (job : Op)
  | dma_channel_configure (channel : Nat) (config : bufselect) (read_addr : bufselect)
      (transfer_count : Nat) (trigger : Bool)
deriving DecidableEq

/-- The function `audio_dma_irq` (lines 261-281).  The register `ints0` is
read once for each test; `ints0_first` and `ints0_second` are the values
those two reads return. -/
def audio_dma_irq (ints0_first ints0_second : Nat) : List IrqCall :=
  if ints0_first &&& (1 <<< SOUND_DMA_CHA) ≠ 0 then
    [IrqCall.ints0_write (1 <<< SOUND_DMA_CHA),
     IrqCall.multicore_fifo_push_blocking Op.snd_process_a,
     IrqCall.dma_channel_configure SOUND_DMA_CHA bufselect.A bufselect.A WIRE_BUFFER_SIZE false]
  else if ints0_second &&& (1 <<< SOUND_DMA_CHB) ≠ 0 then
    [IrqCall.ints0_write (1 <<< SOUND_DMA_CHB),
     IrqCall.multicore_fifo_push_blocking Op.snd_process_b,
     IrqCall.dma_channel_configure SOUND_DMA_CHB bufselect.B bufselect.B WIRE_BUFFER_SIZE false]
  else []

/-- The encode jobs a list of handler calls dispatches, in order. -/
def dispatched : List IrqCall → List Op
  | [] => []
  | IrqCall.multicore_fifo_push_blocking job :: rest => job :: dispatched rest
  | _ :: rest => dispatched rest

/-! ## The producer keeping pace with the consumer (a condition on the order of calls) -/

/-- Number of encode jobs that consume one sample buffer. -/
def CHUNKS_PER_BUFFER : Nat := AUDIO_BUFFER_SIZE / SAMPLE_CHUNK_SIZE

/-- What the order of calls alone shows since the selector last flipped:
`jobs` counts the encode jobs run since then, `poll` how far a refill by
`audio_poll` (lines 350-362) has come: 0 when `audio_buffer` has not been
called since the flip, 1 when it has been called and `audio_buffer_filled`
has not followed yet, 2 when `audio_buffer_filled` has followed.  No field
looks at the buffer states. -/
structure Pace where
  jobs : Nat
  poll : Nat
deriving DecidableEq

/-- At the start of transmission no job has run and no refill is due: both
buffers were filled before the start. -/
def pace_start : Pace := { jobs := 0, poll := 2 }

/-- One call seen by the order of calls.  The fill-side calls advance the
refill; an encode job counts up, and the job that completes a buffer (the
eighth) is admitted only when a refill, `audio_buffer` and then
`audio_buffer_filled`, has been completed since the previous flip (`none`
otherwise). -/
def pace_step (op : Op) (p : Pace) : Option Pace :=
  match op with
  | .audio_buffer => some { p with poll := if p.poll = 0 then 1 else p.poll }
  | .audio_buffer_filled => some { p with poll := if p.poll = 1 then 2 else p.poll }
  | _ =>
    if p.jobs + 1 < CHUNKS_PER_BUFFER then some { p with jobs := p.jobs + 1 }
    else if p.poll = 2 then some { jobs := 0, poll := 0 }
    else none

/-- A sequence of calls seen by the order of calls. -/
def pace_run : List Op → Pace → Option Pace
  | [], p => some p
  | op :: ops, p =>
    match pace_step op p with
    | none => none
    | some p1 => pace_run ops p1

/-- The producer keeps pace along a sequence of calls from the start of
transmission: between any two flips of the selector one refill is completed. -/
def keeps_pace (ops : List Op) : Bool := (pace_run ops pace_start).isSome

/-- The state the order of calls predicts for the buffer the selector does not
designate: STALE until `audio_buffer` is called, FILLING until
`audio_buffer_filled` follows, READY afterwards. -/
def poll_state : Nat → bufstate
  | 0 => .STALE
  | 1 => .FILLING
  | _ => .READY

/-- The pipeline state agrees with what the order of calls shows: the cursor
stands after `jobs` chunks, the selected buffer is READY and the other buffer
is in the state the refill has reached. -/
def pace_agrees (p : Pace) (s : AudioState) : Prop :=
  p.jobs < CHUNKS_PER_BUFFER ∧ p.poll ≤ 2 ∧ s.sbufpos = SAMPLE_CHUNK_SIZE * p.jobs
    ∧ active_state s = .READY ∧ other_state s = poll_state p.poll

/-! ## Properties -/

set_option maxRecDepth 1000000 in
theorem cellOf_biphase : ∀ v < 256, ∀ c < 8, cellOf (biphase v) c = v.testBit c := by decide

set_option maxRecDepth 1000000 in
theorem biphase_lt : ∀ v < 256, biphase v < 65536 := by decide

set_option maxRecDepth 1000000 in
theorem snd_parity_eq : ∀ v < 256, snd_parity v =
    (v.testBit 0).toNat + (v.testBit 1).toNat + (v.testBit 2).toNat + (v.testBit 3).toNat
    + (v.testBit 4).toNat + (v.testBit 5).toNat + (v.testBit 6).toNat + (v.testBit 7).toNat := by
  decide

theorem testBit_not16 (w k : Nat) (hk : k < 16) : (not16 w).testBit k = !w.testBit k := by
  unfold not16
  have h1 : (0x10000 : Nat) = 2 ^ 16 := by norm_num
  have h2 : (0xFFFF : Nat) = 2 ^ 16 - 1 := by norm_num
  rw [h1, h2, Nat.testBit_mod_two_pow, Nat.testBit_xor, Nat.testBit_two_pow_sub_one]
  simp [hk]

theorem cellOf_not16 (w c : Nat) (hc : c < 8) : cellOf (not16 w) c = cellOf w c := by
  unfold cellOf halfBit
  rw [testBit_not16 _ _ (by omega), testBit_not16 _ _ (by omega)]
  cases w.testBit (15 - 2 * c) <;> cases w.testBit (15 - (2 * c + 1)) <;> rfl

theorem cellOf_apply_invert (inv w c : Nat) (hc : c < 8) :
    cellOf (apply_invert inv w) c = cellOf w c := by
  unfold apply_invert
  split
  · exact cellOf_not16 w c hc
  · rfl

theorem and_two_pow_ne_zero (x n : Nat) : (x &&& 2 ^ n ≠ 0) ↔ x.testBit n = true := by
  constructor
  · intro h
    by_contra hb
    apply h
    apply Nat.eq_of_testBit_eq
    intro i
    rw [Nat.testBit_and, Nat.testBit_two_pow, Nat.zero_testBit]
    by_cases hi : n = i
    · subst hi; simp [hb]
    · simp [hi]
  · intro h h0
    have := congrArg (fun y => y.testBit n) h0
    simp [Nat.testBit_and, Nat.testBit_two_pow, h] at this

theorem subframe_eq (b0 b1 : Nat) (h0 : b0 < 256) (h1 : b1 < 256) :
    subframe b0 b1 =
      (let s := sample16 b0 b1 <<< 11
       let s1 := if (sample16 b0 b1).testBit 15 then s ||| 2 ^ 27 else s
       if parity_bit b0 b1 then s1 ||| 2 ^ 31 else s1) := by
  have hs : (b0 + (b1 <<< 8)) % 2 ^ 32 = sample16 b0 b1 := by
    unfold sample16
    rw [Nat.shiftLeft_eq]
    omega
  have hsl : (sample16 b0 b1 <<< 11) % 2 ^ 32 = sample16 b0 b1 <<< 11 := by
    unfold sample16
    rw [Nat.shiftLeft_eq]
    omega
  have hc : (sample16 b0 b1 <<< 11 &&& 0x04000000 ≠ 0) ↔ (sample16 b0 b1).testBit 15 = true := by
    have : (0x04000000 : Nat) = 2 ^ 26 := by norm_num
    rw [this, and_two_pow_ne_zero, Nat.testBit_shiftLeft]
    simp
  have hp : snd_parity ((sample16 b0 b1 >>> 8 ^^^ sample16 b0 b1) % 256) ≤ 8 := by
    have := snd_parity_eq _ (Nat.mod_lt (sample16 b0 b1 >>> 8 ^^^ sample16 b0 b1) (by norm_num : 256 > 0))
    rw [this]
    have hb : ∀ b : Bool, b.toNat ≤ 1 := fun b => by cases b <;> simp
    have := hb (((sample16 b0 b1 >>> 8 ^^^ sample16 b0 b1) % 256).testBit 0)
    have := hb (((sample16 b0 b1 >>> 8 ^^^ sample16 b0 b1) % 256).testBit 1)
    have := hb (((sample16 b0 b1 >>> 8 ^^^ sample16 b0 b1) % 256).testBit 2)
    have := hb (((sample16 b0 b1 >>> 8 ^^^ sample16 b0 b1) % 256).testBit 3)
    have := hb (((sample16 b0 b1 >>> 8 ^^^ sample16 b0 b1) % 256).testBit 4)
    have := hb (((sample16 b0 b1 >>> 8 ^^^ sample16 b0 b1) % 256).testBit 5)
    have := hb (((sample16 b0 b1 >>> 8 ^^^ sample16 b0 b1) % 256).testBit 6)
    have := hb (((sample16 b0 b1 >>> 8 ^^^ sample16 b0 b1) % 256).testBit 7)
    omega
  unfold subframe
  simp only [hs, hsl]
  unfold parity_bit
  have e1 : (0x08000000 : Nat) = 2 ^ 27 := by norm_num
  have e2 : (0x80000000 : Nat) = 2 ^ 31 := by norm_num
  rw [e1, e2]
  by_cases hb : (sample16 b0 b1).testBit 15 = true
  · have hc1 := hc.mpr hb
    rw [if_pos hc1, if_pos hc1, if_pos hb, if_pos hb]
    have e3 : (snd_parity ((sample16 b0 b1 >>> 8 ^^^ sample16 b0 b1) % 256) + 1) % 256
        = snd_parity ((sample16 b0 b1 >>> 8 ^^^ sample16 b0 b1) % 256) + 1 := by omega
    rw [e3]
    by_cases hq : (snd_parity ((sample16 b0 b1 >>> 8 ^^^ sample16 b0 b1) % 256) + 1) % 2 = 1
    · have hq2 : (snd_parity ((sample16 b0 b1 >>> 8 ^^^ sample16 b0 b1) % 256) + 1) % 2 ≠ 0 := by
        omega
      rw [if_pos hq2]
      simp [hq]
    · have hq2 : ¬ ((snd_parity ((sample16 b0 b1 >>> 8 ^^^ sample16 b0 b1) % 256) + 1) % 2 ≠ 0) := by
        omega
      rw [if_neg hq2]
      simp [hq]
  · have hc1 : ¬ (sample16 b0 b1 <<< 11 &&& 0x04000000 ≠ 0) := fun h => hb (hc.mp h)
    rw [if_neg hc1, if_neg hc1, if_neg hb, if_neg hb]
    by_cases hq : (snd_parity ((sample16 b0 b1 >>> 8 ^^^ sample16 b0 b1) % 256)) % 2 = 1
    · have hq2 : (snd_parity ((sample16 b0 b1 >>> 8 ^^^ sample16 b0 b1) % 256)) % 2 ≠ 0 := by
        omega
      rw [if_pos hq2]
      simp [hq]
    · have hq2 : ¬ ((snd_parity ((sample16 b0 b1 >>> 8 ^^^ sample16 b0 b1) % 256)) % 2 ≠ 0) := by
        omega
      rw [if_neg hq2]
      simp [hq]

theorem sample16_lt (b0 b1 : Nat) (h0 : b0 < 256) (h1 : b1 < 256) : sample16 b0 b1 < 2 ^ 16 := by
  unfold sample16; omega

theorem testBit_subframe (b0 b1 t : Nat) (h0 : b0 < 256) (h1 : b1 < 256) :
    (subframe b0 b1).testBit t =
      ((decide (11 ≤ t) && (sample16 b0 b1).testBit (t - 11))
        || ((sample16 b0 b1).testBit 15 && decide (t = 27))
        || (parity_bit b0 b1 && decide (t = 31))) := by
  rw [subframe_eq b0 b1 h0 h1]
  have e27 : Nat.testBit 134217728 t = decide (t = 27) := by
    rw [show (134217728 : Nat) = 2 ^ 27 from by norm_num, Nat.testBit_two_pow]
    simp [eq_comm]
  have e31 : Nat.testBit 2147483648 t = decide (t = 31) := by
    rw [show (2147483648 : Nat) = 2 ^ 31 from by norm_num, Nat.testBit_two_pow]
    simp [eq_comm]
  by_cases hb : (sample16 b0 b1).testBit 15 = true <;> by_cases hp : parity_bit b0 b1 = true <;>
    simp [hb, hp, Nat.testBit_or, Nat.testBit_shiftLeft, e27, e31]

theorem testBit_sample16_high (b0 b1 k : Nat) (h0 : b0 < 256) (h1 : b1 < 256) (hk : 16 ≤ k) :
    (sample16 b0 b1).testBit k = false :=
  Nat.testBit_lt_two_pow (lt_of_lt_of_le (sample16_lt b0 b1 h0 h1)
    (Nat.pow_le_pow_right (by norm_num) hk))

theorem cellOf_table_byte (inv x j c : Nat) (hc : c < 8) :
    cellOf (apply_invert inv (biphase ((x >>> j) % 256))) c = x.testBit (j + c) := by
  rw [cellOf_apply_invert _ _ _ hc, cellOf_biphase _ (Nat.mod_lt _ (by norm_num)) c hc]
  have : (256 : Nat) = 2 ^ 8 := by norm_num
  rw [this, Nat.testBit_mod_two_pow, Nat.testBit_shiftRight]
  simp [hc]

theorem cellOf_w1 (ctx : EncCtx) (b0 b1 c : Nat) (hc : c < 8) :
    cellOf (snd_encode_sample ctx b0 b1).w1 c = (subframe b0 b1).testBit (8 + c) :=
  cellOf_table_byte _ _ 8 c hc

theorem cellOf_w2 (ctx : EncCtx) (b0 b1 c : Nat) (hc : c < 8) :
    cellOf (snd_encode_sample ctx b0 b1).w2 c = (subframe b0 b1).testBit (16 + c) :=
  cellOf_table_byte _ _ 16 c hc

theorem cellOf_w3 (ctx : EncCtx) (b0 b1 c : Nat) (hc : c < 8) :
    cellOf (snd_encode_sample ctx b0 b1).w3 c = (subframe b0 b1).testBit (24 + c) :=
  cellOf_table_byte _ _ 24 c hc

set_option maxRecDepth 100000 in
theorem cellOf_preamble_low (inv sfcnt c : Nat) (hc4 : 4 ≤ c) (hc : c < 8) :
    cellOf (apply_invert inv (preamble sfcnt)) c = false := by
  rw [cellOf_apply_invert _ _ _ hc]
  have h : ∀ c < 8, 4 ≤ c → cellOf z_preamble c = false ∧ cellOf y_preamble c = false
      ∧ cellOf x_preamble c = false := by decide
  obtain ⟨hz, hy, hx⟩ := h c hc hc4
  unfold preamble
  split
  · exact hz
  · split
    · exact hy
    · exact hx

/-- Every slot from 8 to 31 decodes to the matching bit of the sub-frame value. -/
theorem slotCell_eq_testBit (ctx : EncCtx) (b0 b1 t : Nat) (h8 : 8 ≤ t) (h32 : t < 32) :
    slotCell (snd_encode_sample ctx b0 b1) t = (subframe b0 b1).testBit t := by
  unfold slotCell SampleOut.words
  have hlt : t % 8 < 8 := Nat.mod_lt _ (by norm_num)
  have hcases : t / 8 = 1 ∨ t / 8 = 2 ∨ t / 8 = 3 := by omega
  rcases hcases with h | h | h
  · rw [h]
    have : t = 8 + t % 8 := by omega
    rw [show ([(snd_encode_sample ctx b0 b1).w0, (snd_encode_sample ctx b0 b1).w1,
      (snd_encode_sample ctx b0 b1).w2, (snd_encode_sample ctx b0 b1).w3].getD 1 0)
      = (snd_encode_sample ctx b0 b1).w1 from rfl, cellOf_w1 ctx b0 b1 _ hlt, ← this]
  · rw [h]
    have : t = 16 + t % 8 := by omega
    rw [show ([(snd_encode_sample ctx b0 b1).w0, (snd_encode_sample ctx b0 b1).w1,
      (snd_encode_sample ctx b0 b1).w2, (snd_encode_sample ctx b0 b1).w3].getD 2 0)
      = (snd_encode_sample ctx b0 b1).w2 from rfl, cellOf_w2 ctx b0 b1 _ hlt, ← this]
  · rw [h]
    have : t = 24 + t % 8 := by omega
    rw [show ([(snd_encode_sample ctx b0 b1).w0, (snd_encode_sample ctx b0 b1).w1,
      (snd_encode_sample ctx b0 b1).w2, (snd_encode_sample ctx b0 b1).w3].getD 3 0)
      = (snd_encode_sample ctx b0 b1).w3 from rfl, cellOf_w3 ctx b0 b1 _ hlt, ← this]

/-- Slots 4..7 sit in the low byte of the preamble pattern and decode to 0. -/
theorem slotCell_preamble_low (ctx : EncCtx) (b0 b1 t : Nat) (h4 : 4 ≤ t) (h8 : t < 8) :
    slotCell (snd_encode_sample ctx b0 b1) t = false := by
  unfold slotCell SampleOut.words
  have h : t / 8 = 0 := by omega
  have h2 : t % 8 = t := by omega
  rw [h, h2]
  exact cellOf_preamble_low _ _ t h4 h8

/-- Slot by slot description of the decoded sub-frame. -/
theorem slotCell_spec (ctx : EncCtx) (b0 b1 t : Nat) (h0 : b0 < 256) (h1 : b1 < 256)
    (h4 : 4 ≤ t) (h32 : t < 32) :
    slotCell (snd_encode_sample ctx b0 b1) t =
      ((decide (11 ≤ t) && (sample16 b0 b1).testBit (t - 11))
        || ((sample16 b0 b1).testBit 15 && decide (t = 27))
        || (parity_bit b0 b1 && decide (t = 31))) := by
  by_cases h8 : 8 ≤ t
  · rw [slotCell_eq_testBit ctx b0 b1 t h8 h32, testBit_subframe b0 b1 t h0 h1]
  · rw [slotCell_preamble_low ctx b0 b1 t h4 (by omega)]
    have a : ¬ (11 ≤ t) := by omega
    have b : ¬ (t = 27) := by omega
    have c : ¬ (t = 31) := by omega
    simp [a, b, c]

theorem range24 : List.range 24 = [0, 1, 2, 3, 4, 5, 6, 7, 8, 9, 10, 11, 12, 13, 14, 15,
    16, 17, 18, 19, 20, 21, 22, 23] := by decide

theorem slotCell_data (ctx : EncCtx) (b0 b1 k : Nat) (h0 : b0 < 256) (h1 : b1 < 256)
    (hk : k < 16) :
    slotCell (snd_encode_sample ctx b0 b1) (11 + k) = (sample16 b0 b1).testBit k := by
  rw [slotCell_spec ctx b0 b1 (11 + k) h0 h1 (by omega) (by omega)]
  have a : ¬ (11 + k = 27) := by omega
  have b : ¬ (11 + k = 31) := by omega
  simp [a, b]

theorem slotCell_sign (ctx : EncCtx) (b0 b1 : Nat) (h0 : b0 < 256) (h1 : b1 < 256) :
    slotCell (snd_encode_sample ctx b0 b1) 27 = (sample16 b0 b1).testBit 15 := by
  rw [slotCell_spec ctx b0 b1 27 h0 h1 (by norm_num) (by norm_num)]
  have := testBit_sample16_high b0 b1 16 h0 h1 (by norm_num)
  simp [this]

theorem slotCell_zero (ctx : EncCtx) (b0 b1 t : Nat) (h0 : b0 < 256) (h1 : b1 < 256)
    (ht : (4 ≤ t ∧ t ≤ 10) ∨ (28 ≤ t ∧ t ≤ 30)) :
    slotCell (snd_encode_sample ctx b0 b1) t = false := by
  rw [slotCell_spec ctx b0 b1 t h0 h1 (by omega) (by omega)]
  have a : ¬ (t = 27) := by omega
  have b : ¬ (t = 31) := by omega
  rcases ht with h | h
  · have c : ¬ (11 ≤ t) := by omega
    simp [a, b, c]
  · have c := testBit_sample16_high b0 b1 (t - 11) h0 h1 (by omega)
    simp [a, b, c]

theorem apply_invert_lt (inv w : Nat) (hw : w < 65536) : apply_invert inv w < 65536 := by
  unfold apply_invert
  split
  · unfold not16; omega
  · exact hw

theorem preamble_lt (sfcnt : Nat) : preamble sfcnt < 65536 := by
  unfold preamble x_preamble y_preamble z_preamble
  split
  · norm_num
  · split <;> norm_num

theorem words_lt (ctx : EncCtx) (b0 b1 : Nat) :
    ∀ w ∈ (snd_encode_sample ctx b0 b1).words, w < 65536 := by
  intro w hw
  simp only [SampleOut.words, snd_encode_sample, List.mem_cons, List.mem_singleton,
    List.not_mem_nil, or_false] at hw
  rcases hw with h | h | h | h <;> subst h
  · exact apply_invert_lt _ _ (preamble_lt _)
  · exact apply_invert_lt _ _ (biphase_lt _ (Nat.mod_lt _ (by norm_num)))
  · exact apply_invert_lt _ _ (biphase_lt _ (Nat.mod_lt _ (by norm_num)))
  · exact apply_invert_lt _ _ (biphase_lt _ (Nat.mod_lt _ (by norm_num)))

theorem range8 : List.range 8 = [0, 1, 2, 3, 4, 5, 6, 7] := by decide

theorem range16 : List.range 16 = [0, 1, 2, 3, 4, 5, 6, 7, 8, 9, 10, 11, 12, 13, 14, 15] := by
  decide

/-- Claim C1 (round trip of the data bits).  For a sample assembled
little-endian from two bytes, any counter value and any flag value, the four
patterns of one pass are 16-bit values, and reading the second, third and
fourth pattern MSB first as 24 cells, cells 3..18 (time slots 11..26) are
bits 0..15 of the sample, least significant first. -/
theorem data_bits_round_trip (ctx : EncCtx) (b0 b1 : Nat) (h0 : b0 < 256) (h1 : b1 < 256) :
    (∀ w ∈ (snd_encode_sample ctx b0 b1).words, w < 65536)
    ∧ ((data_cells (snd_encode_sample ctx b0 b1)).drop 3).take 16
        = (List.range 16).map (fun k => (sample16 b0 b1).testBit k)
    ∧ ∀ k < 16, slotCell (snd_encode_sample ctx b0 b1) (11 + k) = (sample16 b0 b1).testBit k := by
  have hslot : ∀ k < 16, slotCell (snd_encode_sample ctx b0 b1) (11 + k)
      = (sample16 b0 b1).testBit k := fun k hk => slotCell_data ctx b0 b1 k h0 h1 hk
  refine ⟨words_lt ctx b0 b1, ?_, hslot⟩
  have hw1 : ∀ c < 8, cellOf (snd_encode_sample ctx b0 b1).w1 c
      = slotCell (snd_encode_sample ctx b0 b1) (8 + c) := by
    intro c hc
    rw [slotCell_eq_testBit ctx b0 b1 _ (by omega) (by omega), cellOf_w1 ctx b0 b1 c hc]
  have hw2 : ∀ c < 8, cellOf (snd_encode_sample ctx b0 b1).w2 c
      = slotCell (snd_encode_sample ctx b0 b1) (16 + c) := by
    intro c hc
    rw [slotCell_eq_testBit ctx b0 b1 _ (by omega) (by omega), cellOf_w2 ctx b0 b1 c hc]
  have hw3 : ∀ c < 8, cellOf (snd_encode_sample ctx b0 b1).w3 c
      = slotCell (snd_encode_sample ctx b0 b1) (24 + c) := by
    intro c hc
    rw [slotCell_eq_testBit ctx b0 b1 _ (by omega) (by omega), cellOf_w3 ctx b0 b1 c hc]
  simp only [data_cells, range8, range16, List.map, List.cons_append, List.nil_append,
    List.drop_succ_cons, List.drop_zero, List.take_succ_cons, List.take_zero]
  rw [hw1 3 (by norm_num), hw1 4 (by norm_num), hw1 5 (by norm_num), hw1 6 (by norm_num),
    hw1 7 (by norm_num), hw2 0 (by norm_num), hw2 1 (by norm_num), hw2 2 (by norm_num),
    hw2 3 (by norm_num), hw2 4 (by norm_num), hw2 5 (by norm_num), hw2 6 (by norm_num),
    hw2 7 (by norm_num), hw3 0 (by norm_num), hw3 1 (by norm_num), hw3 2 (by norm_num)]
  rw [← hslot 0 (by norm_num), ← hslot 1 (by norm_num), ← hslot 2 (by norm_num),
    ← hslot 3 (by norm_num), ← hslot 4 (by norm_num), ← hslot 5 (by norm_num),
    ← hslot 6 (by norm_num), ← hslot 7 (by norm_num), ← hslot 8 (by norm_num),
    ← hslot 9 (by norm_num), ← hslot 10 (by norm_num), ← hslot 11 (by norm_num),
    ← hslot 12 (by norm_num), ← hslot 13 (by norm_num), ← hslot 14 (by norm_num),
    ← hslot 15 (by norm_num)]

/-- Instance of C1 at the sample `0x9234` with counter 5 and flag 1. -/
theorem data_bits_round_trip_witness :
    (0x34 < 256 ∧ 0x92 < 256)
    ∧ (∀ w ∈ (snd_encode_sample ⟨5, 1⟩ 0x34 0x92).words, w < 65536)
    ∧ ((data_cells (snd_encode_sample ⟨5, 1⟩ 0x34 0x92)).drop 3).take 16
        = (List.range 16).map (fun k => (sample16 0x34 0x92).testBit k)
    ∧ ∀ k < 16, slotCell (snd_encode_sample ⟨5, 1⟩ 0x34 0x92) (11 + k)
        = (sample16 0x34 0x92).testBit k :=
  ⟨⟨by decide, by decide⟩, data_bits_round_trip ⟨5, 1⟩ 0x34 0x92 (by decide) (by decide)⟩

theorem xor_toNat (a b : Bool) : ∃ q, (a ^^ b).toNat + 2 * q = a.toNat + b.toNat := by
  cases a <;> cases b
  · exact ⟨0, rfl⟩
  · exact ⟨0, rfl⟩
  · exact ⟨0, rfl⟩
  · exact ⟨1, rfl⟩

theorem parity_bit_spec (b0 b1 : Nat) :
    parity_bit b0 b1
      = decide ((ones16 (sample16 b0 b1) + ((sample16 b0 b1).testBit 15).toNat) % 2 = 1) := by
  unfold parity_bit
  rw [snd_parity_eq _ (Nat.mod_lt _ (by norm_num))]
  have e : ∀ i, i < 8 → (((sample16 b0 b1) >>> 8 ^^^ (sample16 b0 b1)) % 256).testBit i
      = ((sample16 b0 b1).testBit (8 + i) ^^ (sample16 b0 b1).testBit i) := by
    intro i hi
    rw [show (256 : Nat) = 2 ^ 8 from by norm_num, Nat.testBit_mod_two_pow, Nat.testBit_xor,
      Nat.testBit_shiftRight]
    simp [hi]
  rw [e 0 (by norm_num), e 1 (by norm_num), e 2 (by norm_num), e 3 (by norm_num),
    e 4 (by norm_num), e 5 (by norm_num), e 6 (by norm_num), e 7 (by norm_num)]
  obtain ⟨q0, hq0⟩ := xor_toNat ((sample16 b0 b1).testBit (8 + 0)) ((sample16 b0 b1).testBit 0)
  obtain ⟨q1, hq1⟩ := xor_toNat ((sample16 b0 b1).testBit (8 + 1)) ((sample16 b0 b1).testBit 1)
  obtain ⟨q2, hq2⟩ := xor_toNat ((sample16 b0 b1).testBit (8 + 2)) ((sample16 b0 b1).testBit 2)
  obtain ⟨q3, hq3⟩ := xor_toNat ((sample16 b0 b1).testBit (8 + 3)) ((sample16 b0 b1).testBit 3)
  obtain ⟨q4, hq4⟩ := xor_toNat ((sample16 b0 b1).testBit (8 + 4)) ((sample16 b0 b1).testBit 4)
  obtain ⟨q5, hq5⟩ := xor_toNat ((sample16 b0 b1).testBit (8 + 5)) ((sample16 b0 b1).testBit 5)
  obtain ⟨q6, hq6⟩ := xor_toNat ((sample16 b0 b1).testBit (8 + 6)) ((sample16 b0 b1).testBit 6)
  obtain ⟨q7, hq7⟩ := xor_toNat ((sample16 b0 b1).testBit (8 + 7)) ((sample16 b0 b1).testBit 7)
  have hite : (if (sample16 b0 b1).testBit 15 = true then 1 else 0)
      = ((sample16 b0 b1).testBit 15).toNat := by
    cases (sample16 b0 b1).testBit 15 <;> rfl
  rw [hite]
  simp only [ones16, range16, List.map, List.sum_cons, List.sum_nil]
  norm_num at hq0 hq1 hq2 hq3 hq4 hq5 hq6 hq7 ⊢
  omega

theorem cellOf_w0_low (ctx : EncCtx) (b0 b1 c : Nat) (h4 : 4 ≤ c) (h8 : c < 8) :
    cellOf (snd_encode_sample ctx b0 b1).w0 c = false :=
  cellOf_preamble_low _ _ c h4 h8

/-- The decoded cells of slots 4..31 written out from the sample bits. -/
theorem parity_cells_eq (ctx : EncCtx) (b0 b1 : Nat) (h0 : b0 < 256) (h1 : b1 < 256) :
    parity_cells (snd_encode_sample ctx b0 b1) =
      [false, false, false, false, false, false, false]
        ++ (List.range 16).map (fun k => (sample16 b0 b1).testBit k)
        ++ [(sample16 b0 b1).testBit 15, false, false, false, parity_bit b0 b1] := by
  have hb : ∀ c < 8, cellOf (snd_encode_sample ctx b0 b1).w1 c =
      ((decide (11 ≤ 8 + c) && (sample16 b0 b1).testBit (8 + c - 11))
        || ((sample16 b0 b1).testBit 15 && decide (8 + c = 27))
        || (parity_bit b0 b1 && decide (8 + c = 31))) := by
    intro c hc
    rw [cellOf_w1 ctx b0 b1 c hc, testBit_subframe b0 b1 _ h0 h1]
  have hc : ∀ c < 8, cellOf (snd_encode_sample ctx b0 b1).w2 c =
      ((decide (11 ≤ 16 + c) && (sample16 b0 b1).testBit (16 + c - 11))
        || ((sample16 b0 b1).testBit 15 && decide (16 + c = 27))
        || (parity_bit b0 b1 && decide (16 + c = 31))) := by
    intro c hc
    rw [cellOf_w2 ctx b0 b1 c hc, testBit_subframe b0 b1 _ h0 h1]
  have hd : ∀ c < 8, cellOf (snd_encode_sample ctx b0 b1).w3 c =
      ((decide (11 ≤ 24 + c) && (sample16 b0 b1).testBit (24 + c - 11))
        || ((sample16 b0 b1).testBit 15 && decide (24 + c = 27))
        || (parity_bit b0 b1 && decide (24 + c = 31))) := by
    intro c hc
    rw [cellOf_w3 ctx b0 b1 c hc, testBit_subframe b0 b1 _ h0 h1]
  have h16 := testBit_sample16_high b0 b1 16 h0 h1 (by norm_num)
  have h17 := testBit_sample16_high b0 b1 17 h0 h1 (by norm_num)
  have h18 := testBit_sample16_high b0 b1 18 h0 h1 (by norm_num)
  have h19 := testBit_sample16_high b0 b1 19 h0 h1 (by norm_num)
  have h20 := testBit_sample16_high b0 b1 20 h0 h1 (by norm_num)
  simp only [parity_cells, data_cells, range8, range16, List.map, List.cons_append,
    List.nil_append]
  rw [cellOf_w0_low ctx b0 b1 4 (by norm_num) (by norm_num),
    cellOf_w0_low ctx b0 b1 5 (by norm_num) (by norm_num),
    cellOf_w0_low ctx b0 b1 6 (by norm_num) (by norm_num),
    cellOf_w0_low ctx b0 b1 7 (by norm_num) (by norm_num),
    hb 0 (by norm_num), hb 1 (by norm_num), hb 2 (by norm_num), hb 3 (by norm_num),
    hb 4 (by norm_num), hb 5 (by norm_num), hb 6 (by norm_num), hb 7 (by norm_num),
    hc 0 (by norm_num), hc 1 (by norm_num), hc 2 (by norm_num), hc 3 (by norm_num),
    hc 4 (by norm_num), hc 5 (by norm_num), hc 6 (by norm_num), hc 7 (by norm_num),
    hd 0 (by norm_num), hd 1 (by norm_num), hd 2 (by norm_num), hd 3 (by norm_num),
    hd 4 (by norm_num), hd 5 (by norm_num), hd 6 (by norm_num), hd 7 (by norm_num)]
  simp [h16, h17, h18, h19, h20]

theorem count_true_cons (b : Bool) (l : List Bool) :
    (b :: l).count true = l.count true + b.toNat := by
  rw [List.count_cons]
  cases b <;> rfl

/-- Claim C2 (even parity).  The 28 cells of time slots 4..31 (four cells in
the low byte of the preamble pattern, then the 24 data cells) hold an even
number of ones; equivalently the parity cell of slot 31 is one exactly when
slots 4..30 hold an odd number of ones. -/
theorem even_parity (ctx : EncCtx) (b0 b1 : Nat) (h0 : b0 < 256) (h1 : b1 < 256) :
    (parity_cells (snd_encode_sample ctx b0 b1)).length = 28
    ∧ ((parity_cells (snd_encode_sample ctx b0 b1)).count true) % 2 = 0
    ∧ (slotCell (snd_encode_sample ctx b0 b1) 31 = true ↔
        (((parity_cells (snd_encode_sample ctx b0 b1)).take 27).count true) % 2 = 1) := by
  have h31 : slotCell (snd_encode_sample ctx b0 b1) 31 = parity_bit b0 b1 := by
    rw [slotCell_spec ctx b0 b1 31 h0 h1 (by norm_num) (by norm_num)]
    have := testBit_sample16_high b0 b1 20 h0 h1 (by norm_num)
    simp [this]
  rw [h31, parity_cells_eq ctx b0 b1 h0 h1]
  have hp := parity_bit_spec b0 b1
  simp only [ones16, range16, List.map, List.sum_cons, List.sum_nil] at hp
  simp only [range16, List.map, List.cons_append, List.nil_append, List.take_succ_cons,
    List.take_zero, count_true_cons, List.count_nil, List.length_cons, List.length_nil]
  refine ⟨trivial, ?_, ?_⟩
  · cases hP : parity_bit b0 b1
    · rw [hP] at hp
      have hp2 := of_decide_eq_false hp.symm
      simp only [Bool.toNat_false]
      omega
    · rw [hP] at hp
      have hp2 := of_decide_eq_true hp.symm
      simp only [Bool.toNat_false, Bool.toNat_true]
      omega
  · cases hP : parity_bit b0 b1
    · rw [hP] at hp
      have hp2 := of_decide_eq_false hp.symm
      simp only [Bool.toNat_false]
      constructor
      · intro h; cases h
      · intro h; omega
    · rw [hP] at hp
      have hp2 := of_decide_eq_true hp.symm
      simp only [Bool.toNat_false]
      constructor
      · intro _; omega
      · intro _; trivial

/-- Instance of C2 at the sample `0x9234` with counter 5 and flag 1. -/
theorem even_parity_witness :
    (0x34 < 256 ∧ 0x92 < 256)
    ∧ (parity_cells (snd_encode_sample ⟨5, 1⟩ 0x34 0x92)).length = 28
    ∧ ((parity_cells (snd_encode_sample ⟨5, 1⟩ 0x34 0x92)).count true) % 2 = 0
    ∧ (slotCell (snd_encode_sample ⟨5, 1⟩ 0x34 0x92) 31 = true ↔
        (((parity_cells (snd_encode_sample ⟨5, 1⟩ 0x34 0x92)).take 27).count true) % 2 = 1) :=
  ⟨⟨by decide, by decide⟩, even_parity ⟨5, 1⟩ 0x34 0x92 (by decide) (by decide)⟩

theorem loop_state_i (samples wire : Nat → Nat) (ctx : EncCtx) (k : Nat) :
    (loop_state samples wire ctx k).i = (2 * k) % 65536 := by
  induction k with
  | zero => rfl
  | succ k ih =>
    show ((loop_state samples wire ctx k).i + 2) % 65536 = _
    rw [ih]; omega

theorem loop_state_widx (samples wire : Nat → Nat) (ctx : EncCtx) (k : Nat) :
    (loop_state samples wire ctx k).widx = (4 * k) % 65536 := by
  induction k with
  | zero => rfl
  | succ k ih =>
    show (((((loop_state samples wire ctx k).widx + 1) % 65536 + 1) % 65536 + 1) % 65536 + 1)
      % 65536 = _
    rw [ih]; omega

theorem loop_state_ctx (samples wire : Nat → Nat) (ctx : EncCtx) (k : Nat) (hk : k ≤ 32768) :
    (loop_state samples wire ctx k).ctx = ctx_at samples ctx k := by
  induction k with
  | zero => rfl
  | succ k ih =>
    have hi := loop_state_i samples wire ctx k
    have hi2 : (loop_state samples wire ctx k).i = 2 * k := by rw [hi]; omega
    show (snd_encode_sample (loop_state samples wire ctx k).ctx
      (samples (loop_state samples wire ctx k).i % 256)
      (samples ((loop_state samples wire ctx k).i + 1) % 256)).ctx = _
    rw [ih (by omega), hi2]
    rfl

/-- The stores of pass `k`: four consecutive entries starting at `4 * k` modulo 65536. -/
theorem loop_state_wire_succ (samples wire : Nat → Nat) (ctx : EncCtx) (k : Nat)
    (hk : k < 32768) (j : Nat) :
    (loop_state samples wire ctx (k + 1)).wire j =
      if j = (4 * k) % 65536 + 3 then (out_at samples ctx k).w3
      else if j = (4 * k) % 65536 + 2 then (out_at samples ctx k).w2
      else if j = (4 * k) % 65536 + 1 then (out_at samples ctx k).w1
      else if j = (4 * k) % 65536 then (out_at samples ctx k).w0
      else (loop_state samples wire ctx k).wire j := by
  have hi := loop_state_i samples wire ctx k
  have hi2 : (loop_state samples wire ctx k).i = 2 * k := by rw [hi]; omega
  have hw := loop_state_widx samples wire ctx k
  have hc := loop_state_ctx samples wire ctx k (by omega)
  have hm : (4 * k) % 65536 + 3 < 65536 := by omega
  show (snd_encode_body samples (loop_state samples wire ctx k)).wire j = _
  unfold snd_encode_body
  simp only [write16, hi2, hw, hc, out_at]
  have e1 : ((4 * k) % 65536 + 1) % 65536 = (4 * k) % 65536 + 1 := by omega
  have e2 : ((4 * k) % 65536 + 1 + 1) % 65536 = (4 * k) % 65536 + 2 := by omega
  have e3 : ((4 * k) % 65536 + 2 + 1) % 65536 = (4 * k) % 65536 + 3 := by omega
  rw [e1, e2, e3]

theorem loop_run (samples wire : Nat → Nat) (ctx : EncCtx) (len : Nat) (hlen : len < 65535) :
    ∀ m k fuel, k + m = passes len → m < fuel →
      snd_encode_loop samples len fuel (loop_state samples wire ctx k)
        = some (loop_state samples wire ctx (passes len)) := by
  intro m
  induction m with
  | zero =>
    intro k fuel hk hf
    obtain ⟨f, rfl⟩ : ∃ f, fuel = f + 1 := ⟨fuel - 1, by omega⟩
    have hi := loop_state_i samples wire ctx k
    unfold passes at hk
    have : ¬ (loop_state samples wire ctx k).i < len := by rw [hi]; omega
    simp only [snd_encode_loop, this, if_false]
    have : k = passes len := by unfold passes; omega
    rw [this]
  | succ m ih =>
    intro k fuel hk hf
    obtain ⟨f, rfl⟩ : ∃ f, fuel = f + 1 := ⟨fuel - 1, by omega⟩
    have hi := loop_state_i samples wire ctx k
    have hk2 := hk
    unfold passes at hk2
    have : (loop_state samples wire ctx k).i < len := by rw [hi]; omega
    simp only [snd_encode_loop, this, if_true]
    exact ih (k + 1) f (by omega) (by omega)

/-- For every length below 65535 the call returns, after `(len + 1) / 2` passes. -/
theorem snd_encode_eq (samples wire : Nat → Nat) (ctx : EncCtx) (len : Nat) (hlen : len < 65535) :
    snd_encode samples wire len ctx
      = some ((loop_state samples wire ctx (passes len)).wire, ctx_at samples ctx (passes len)) := by
  unfold snd_encode
  have h := loop_run samples wire ctx len hlen (passes len) 0 snd_encode_fuel (by omega)
    (by unfold passes snd_encode_fuel; omega)
  have h0 : loop_state samples wire ctx 0 = { i := 0, widx := 0, wire := wire, ctx := ctx } := rfl
  rw [← h0, h]
  simp only [Option.map_some']
  rw [loop_state_ctx samples wire ctx (passes len) (by unfold passes; omega)]

/-- Closed form of the destination while the index has not wrapped. -/
theorem loop_state_wire (samples wire : Nat → Nat) (ctx : EncCtx) (k : Nat) (hk : k ≤ 16384)
    (j : Nat) :
    (loop_state samples wire ctx k).wire j =
      if j < 4 * k then (out_at samples ctx (j / 4)).words.getD (j % 4) 0 else wire j := by
  induction k with
  | zero => simp [loop_state, loop_init]
  | succ k ih =>
    rw [loop_state_wire_succ samples wire ctx k (by omega) j, ih (by omega)]
    have hm : (4 * k) % 65536 = 4 * k := by omega
    rw [hm]
    by_cases h3 : j = 4 * k + 3
    · have a : j / 4 = k := by omega
      have b : j % 4 = 3 := by omega
      have c : j < 4 * (k + 1) := by omega
      rw [if_pos h3, if_pos c, a, b]; rfl
    · rw [if_neg h3]
      by_cases h2 : j = 4 * k + 2
      · have a : j / 4 = k := by omega
        have b : j % 4 = 2 := by omega
        have c : j < 4 * (k + 1) := by omega
        rw [if_pos h2, if_pos c, a, b]; rfl
      · rw [if_neg h2]
        by_cases h1 : j = 4 * k + 1
        · have a : j / 4 = k := by omega
          have b : j % 4 = 1 := by omega
          have c : j < 4 * (k + 1) := by omega
          rw [if_pos h1, if_pos c, a, b]; rfl
        · rw [if_neg h1]
          by_cases h0 : j = 4 * k
          · have a : j / 4 = k := by omega
            have b : j % 4 = 0 := by omega
            have c : j < 4 * (k + 1) := by omega
            rw [if_pos h0, if_pos c, a, b]; rfl
          · rw [if_neg h0]
            by_cases hlt : j < 4 * k
            · have c : j < 4 * (k + 1) := by omega
              rw [if_pos hlt, if_pos c]
            · have c : ¬ j < 4 * (k + 1) := by omega
              rw [if_neg hlt, if_neg c]

theorem next_sfcnt_mod (c : Nat) (hc : c < 384) : next_sfcnt c = (c + 1) % 384 := by
  unfold next_sfcnt
  simp only
  split <;> omega

theorem ctx_at_sfcnt (samples : Nat → Nat) (ctx : EncCtx) (hc : ctx.sfcnt < 384) (k : Nat) :
    (ctx_at samples ctx k).sfcnt = (ctx.sfcnt + k) % 384 := by
  induction k with
  | zero => show ctx.sfcnt = _; omega
  | succ k ih =>
    show next_sfcnt (ctx_at samples ctx k).sfcnt = _
    rw [ih, next_sfcnt_mod _ (Nat.mod_lt _ (by norm_num))]
    omega

theorem preamble_mod (n : Nat) : preamble (n % 384) = stream_preamble n := by
  unfold preamble stream_preamble z_preamble y_preamble x_preamble
  by_cases h0 : n % 384 = 0
  · rw [if_pos h0, if_pos h0]
  · rw [if_neg h0, if_neg h0]
    by_cases h1 : n % 384 % 2 = 1
    · rw [if_pos h1, if_pos (by omega)]
    · rw [if_neg h1, if_neg (by omega)]

theorem not16_eq (w : Nat) (hw : w < 65536) : not16 w = 65535 - w := by
  apply Nat.eq_of_testBit_eq
  intro i
  have h := Nat.testBit_two_pow_sub_succ (show w < 2 ^ 16 from hw) i
  have e : 65535 - w = 2 ^ 16 - (w + 1) := by omega
  rw [e, h]
  unfold not16
  rw [show (0x10000 : Nat) = 2 ^ 16 from by norm_num, show (0xFFFF : Nat) = 2 ^ 16 - 1 from by norm_num,
    Nat.testBit_mod_two_pow, Nat.testBit_xor, Nat.testBit_two_pow_sub_one]
  by_cases hi : i < 16 <;> simp [hi]

/-- Claim C4 (per-word inversion rule).  The four patterns stored for a sample
are the four table values (preamble, then the three biphase entries) passed
through the inversion step in order; a pattern equals its table value when the
flag is 0 just before it and the 16-bit complement `65535 - value` when the
flag is 1; just after each store the flag is the last bit of the pattern as
stored, and the flag left by the fourth store is the flag of the new context. -/
theorem per_word_inversion (ctx : EncCtx) (b0 b1 : Nat) :
    (word_steps ctx b0 b1).map (fun s => s.written) = (snd_encode_sample ctx b0 b1).words
    ∧ (word_steps ctx b0 b1).map (fun s => s.table_value) = table_words ctx.sfcnt b0 b1
    ∧ (word_steps ctx b0 b1).map (fun s => s.flag_before)
        = ctx.invert :: ((word_steps ctx b0 b1).map (fun s => s.flag_after)).take 3
    ∧ ((word_steps ctx b0 b1).map (fun s => s.flag_after)).getD 3 0
        = (snd_encode_sample ctx b0 b1).ctx.invert
    ∧ ∀ s ∈ word_steps ctx b0 b1,
        (s.flag_before = 0 → s.written = s.table_value)
        ∧ (s.flag_before = 1 → s.written = 65535 - s.table_value)
        ∧ s.flag_after = s.written % 2 := by
  have hai : ∀ inv w, w < 65536 →
      ((inv = 0 → (emit inv w).1 = w) ∧ (inv = 1 → (emit inv w).1 = 65535 - w)
        ∧ (emit inv w).2 = (emit inv w).1 % 2) := by
    intro inv w hw
    refine ⟨?_, ?_, ?_⟩
    · intro h
      show apply_invert inv w = w
      unfold apply_invert
      simp [h]
    · intro h
      show apply_invert inv w = 65535 - w
      unfold apply_invert
      simp [h, not16_eq w hw]
    · show apply_invert inv w &&& 1 = apply_invert inv w % 2
      exact Nat.and_one_is_mod _
  have hb : ∀ x, biphase (x % 256) < 65536 := fun x => biphase_lt _ (Nat.mod_lt _ (by norm_num))
  refine ⟨rfl, rfl, rfl, rfl, ?_⟩
  intro s hs
  simp only [word_steps, table_words, emit_trace, List.mem_cons, List.mem_singleton,
    List.not_mem_nil, or_false] at hs
  rcases hs with h | h | h | h <;> subst h
  · exact hai _ _ (preamble_lt _)
  · exact hai _ _ (hb _)
  · exact hai _ _ (hb _)
  · exact hai _ _ (hb _)

theorem ctx_at_congr (s s2 : Nat → Nat) (ctx : EncCtx) (k : Nat)
    (h : ∀ i < 2 * k, s i = s2 i) : ctx_at s ctx k = ctx_at s2 ctx k := by
  induction k with
  | zero => rfl
  | succ k ih =>
    show (snd_encode_sample (ctx_at s ctx k) (s (2 * k) % 256) (s (2 * k + 1) % 256)).ctx
      = (snd_encode_sample (ctx_at s2 ctx k) (s2 (2 * k) % 256) (s2 (2 * k + 1) % 256)).ctx
    rw [ih (fun i hi => h i (by omega)), h (2 * k) (by omega), h (2 * k + 1) (by omega)]

theorem ctx_at_add (s : Nat → Nat) (ctx : EncCtx) (n k : Nat) :
    ctx_at s ctx (n + k) = ctx_at (fun i => s (2 * n + i)) (ctx_at s ctx n) k := by
  induction k with
  | zero => rfl
  | succ k ih =>
    show (snd_encode_sample (ctx_at s ctx (n + k)) (s (2 * (n + k)) % 256)
        (s (2 * (n + k) + 1) % 256)).ctx
      = (snd_encode_sample (ctx_at (fun i => s (2 * n + i)) (ctx_at s ctx n) k)
        (s (2 * n + 2 * k) % 256) (s (2 * n + (2 * k + 1)) % 256)).ctx
    rw [ih]
    have a : 2 * (n + k) = 2 * n + 2 * k := by ring
    rw [a, Nat.add_assoc (2 * n) (2 * k) 1]

theorem out_at_congr (s s2 : Nat → Nat) (ctx : EncCtx) (k : Nat)
    (h : ∀ i < 2 * (k + 1), s i = s2 i) : out_at s ctx k = out_at s2 ctx k := by
  unfold out_at
  rw [ctx_at_congr s s2 ctx k (fun i hi => h i (by omega)), h (2 * k) (by omega),
    h (2 * k + 1) (by omega)]

theorem out_at_add (s : Nat → Nat) (ctx : EncCtx) (n k : Nat) :
    out_at s ctx (n + k) = out_at (fun i => s (2 * n + i)) (ctx_at s ctx n) k := by
  unfold out_at
  rw [ctx_at_add]
  have a : 2 * (n + k) = 2 * n + 2 * k := by ring
  rw [a, Nat.add_assoc (2 * n) (2 * k) 1]

theorem mem_of_append_left (b1 b2 : List Nat) (i : Nat) (h : i < b1.length) :
    mem_of (b1 ++ b2) i = mem_of b1 i := by
  unfold mem_of
  exact List.getD_append b1 b2 0 i h

theorem mem_of_append_right (b1 b2 : List Nat) (i : Nat) :
    mem_of (b1 ++ b2) (b1.length + i) = mem_of b2 i := by
  unfold mem_of
  rw [List.getD_append_right b1 b2 0 (b1.length + i) (by omega)]
  congr 1
  omega

/-- The patterns of an in-range call, read back from the destination. -/
theorem read_words_encode (samples wire : Nat → Nat) (ctx : EncCtx) (n : Nat) (hn : n ≤ 16384) :
    read_words (loop_state samples wire ctx n).wire (4 * n)
      = (List.range (4 * n)).map fun j => (out_at samples ctx (j / 4)).words.getD (j % 4) 0 := by
  unfold read_words
  apply List.map_congr_left
  intro j hj
  rw [loop_state_wire samples wire ctx n hn j, if_pos (List.mem_range.mp hj)]

/-- Claim C5 (stream continuity across calls).  For byte lists of even length
whose combined length is at most 32768 (the destination index is 16 bits
wide), one call on `b1` followed by one call on `b2` that starts from the
context the first call left returns the same patterns, concatenated, and the
same final context as a single call on `b1 ++ b2`. -/
theorem stream_continuity (b1 b2 : List Nat) (wa wb wc : Nat → Nat) (ctx : EncCtx)
    (h1 : b1.length % 2 = 0) (h2 : b2.length % 2 = 0) (hlen : b1.length + b2.length ≤ 32768) :
    ∃ w1 c1 w2 c2 w12 c12,
      snd_encode (mem_of b1) wa b1.length ctx = some (w1, c1)
      ∧ snd_encode (mem_of b2) wb b2.length c1 = some (w2, c2)
      ∧ snd_encode (mem_of (b1 ++ b2)) wc (b1 ++ b2).length ctx = some (w12, c12)
      ∧ read_words w1 (2 * b1.length) ++ read_words w2 (2 * b2.length)
          = read_words w12 (2 * (b1 ++ b2).length)
      ∧ c2 = c12 := by
  obtain ⟨n1, hn1⟩ : ∃ n1, b1.length = 2 * n1 := ⟨b1.length / 2, by omega⟩
  obtain ⟨n2, hn2⟩ : ∃ n2, b2.length = 2 * n2 := ⟨b2.length / 2, by omega⟩
  have hl : (b1 ++ b2).length = 2 * (n1 + n2) := by rw [List.length_append]; omega
  have p1 : passes b1.length = n1 := by unfold passes; omega
  have p2 : passes b2.length = n2 := by unfold passes; omega
  have p12 : passes (b1 ++ b2).length = n1 + n2 := by unfold passes; omega
  have e1 := snd_encode_eq (mem_of b1) wa ctx b1.length (by omega)
  have e2 := snd_encode_eq (mem_of b2) wb (ctx_at (mem_of b1) ctx (passes b1.length)) b2.length
    (by omega)
  have e12 := snd_encode_eq (mem_of (b1 ++ b2)) wc ctx (b1 ++ b2).length (by omega)
  refine ⟨_, _, _, _, _, _, e1, e2, e12, ?_, ?_⟩
  · rw [p1, p2, p12, hn1, hn2, hl]
    have a1 : 2 * (2 * n1) = 4 * n1 := by ring
    have a2 : 2 * (2 * n2) = 4 * n2 := by ring
    have a12 : 2 * (2 * (n1 + n2)) = 4 * (n1 + n2) := by ring
    rw [a1, a2, a12, read_words_encode _ _ _ n1 (by omega), read_words_encode _ _ _ n2 (by omega),
      read_words_encode _ _ _ (n1 + n2) (by omega)]
    have a3 : 4 * (n1 + n2) = 4 * n1 + 4 * n2 := by ring
    rw [a3, List.range_add, List.map_append, List.map_map]
    congr 1
    · apply List.map_congr_left
      intro j hj
      have hj2 := List.mem_range.mp hj
      rw [out_at_congr (mem_of (b1 ++ b2)) (mem_of b1) ctx (j / 4)
        (fun i hi => mem_of_append_left b1 b2 i (by omega))]
    · apply List.map_congr_left
      intro j hj
      show _ = (out_at (mem_of (b1 ++ b2)) ctx ((4 * n1 + j) / 4)).words.getD ((4 * n1 + j) % 4) 0
      have b : (4 * n1 + j) / 4 = n1 + j / 4 := by omega
      have c : (4 * n1 + j) % 4 = j % 4 := by omega
      rw [b, c, out_at_add]
      have hc : ctx_at (mem_of (b1 ++ b2)) ctx n1 = ctx_at (mem_of b1) ctx n1 :=
        ctx_at_congr _ _ ctx n1 (fun i hi => mem_of_append_left b1 b2 i (by omega))
      have hs : (fun i => mem_of (b1 ++ b2) (2 * n1 + i)) = mem_of b2 := by
        funext i
        rw [← hn1]
        exact mem_of_append_right b1 b2 i
      rw [hc, hs]
  · rw [p1, p2, p12, ctx_at_add]
    have hc : ctx_at (mem_of (b1 ++ b2)) ctx n1 = ctx_at (mem_of b1) ctx n1 :=
      ctx_at_congr _ _ ctx n1 (fun i hi => mem_of_append_left b1 b2 i (by omega))
    have hs : (fun i => mem_of (b1 ++ b2) (2 * n1 + i)) = mem_of b2 := by
      funext i
      rw [← hn1]
      exact mem_of_append_right b1 b2 i
    rw [hc, hs]

/-- Instance of C5: one sample, then two samples, across the block boundary. -/
theorem stream_continuity_witness :
    ([0x34, 0x92].length % 2 = 0 ∧ [0x01, 0x80, 0xFF, 0x7F].length % 2 = 0
      ∧ [0x34, 0x92].length + [0x01, 0x80, 0xFF, 0x7F].length ≤ 32768)
    ∧ ∃ w1 c1 w2 c2 w12 c12,
      snd_encode (mem_of [0x34, 0x92]) (fun _ => 0) [0x34, 0x92].length ⟨383, 1⟩ = some (w1, c1)
      ∧ snd_encode (mem_of [0x01, 0x80, 0xFF, 0x7F]) (fun _ => 0)
          [0x01, 0x80, 0xFF, 0x7F].length c1 = some (w2, c2)
      ∧ snd_encode (mem_of ([0x34, 0x92] ++ [0x01, 0x80, 0xFF, 0x7F])) (fun _ => 0)
          ([0x34, 0x92] ++ [0x01, 0x80, 0xFF, 0x7F]).length ⟨383, 1⟩ = some (w12, c12)
      ∧ read_words w1 (2 * [0x34, 0x92].length)
            ++ read_words w2 (2 * [0x01, 0x80, 0xFF, 0x7F].length)
          = read_words w12 (2 * ([0x34, 0x92] ++ [0x01, 0x80, 0xFF, 0x7F]).length)
      ∧ c2 = c12 :=
  ⟨⟨by decide, by decide, by decide⟩,
    stream_continuity [0x34, 0x92] [0x01, 0x80, 0xFF, 0x7F] (fun _ => 0) (fun _ => 0) (fun _ => 0)
      ⟨383, 1⟩ (by decide) (by decide) (by decide)⟩

theorem apply_invert_lsb (inv w : Nat) (hi : inv ≤ 1) (hw : w < 65536) :
    apply_invert inv w &&& 1 = (inv + w) % 2 := by
  rw [Nat.and_one_is_mod]
  unfold apply_invert
  by_cases h : inv = 0
  · simp [h]
  · rw [if_pos h, not16_eq w hw]
    omega

theorem count_last_one_cons (w : Nat) (ws : List Nat) :
    count_last_one (w :: ws) = count_last_one ws + w % 2 := by
  unfold count_last_one
  rw [List.countP_cons]
  by_cases h : w % 2 = 1
  · simp [h]
  · have : w % 2 = 0 := by omega
    simp [this]

theorem count_last_one_append (l1 l2 : List Nat) :
    count_last_one (l1 ++ l2) = count_last_one l1 + count_last_one l2 := by
  unfold count_last_one
  exact List.countP_append _ _ _

theorem emit_flag_le (inv w : Nat) : (emit inv w).2 ≤ 1 := by
  show apply_invert inv w &&& 1 ≤ 1
  rw [Nat.and_one_is_mod]
  omega

theorem emit_flag (inv w : Nat) (hi : inv ≤ 1) (hw : w < 65536) :
    (emit inv w).2 = (inv + w) % 2 :=
  apply_invert_lsb inv w hi hw

theorem sample_invert_parity (ctx : EncCtx) (b0 b1 : Nat) (hi : ctx.invert ≤ 1) :
    (snd_encode_sample ctx b0 b1).ctx.invert
      = (ctx.invert + count_last_one (table_words ctx.sfcnt b0 b1)) % 2 := by
  have hb : ∀ x, biphase (x % 256) < 65536 := fun x => biphase_lt _ (Nat.mod_lt _ (by norm_num))
  simp only [table_words, count_last_one_cons]
  show (emit (emit (emit (emit ctx.invert (preamble ctx.sfcnt)).2
    (biphase ((subframe b0 b1 >>> 8) % 256))).2
    (biphase ((subframe b0 b1 >>> 16) % 256))).2
    (biphase ((subframe b0 b1 >>> 24) % 256))).2 = _
  rw [emit_flag _ _ (emit_flag_le _ _) (hb _), emit_flag _ _ (emit_flag_le _ _) (hb _),
    emit_flag _ _ (emit_flag_le _ _) (hb _), emit_flag _ _ hi (preamble_lt _)]
  have c0 : count_last_one [] = 0 := rfl
  rw [c0]
  omega

theorem run_samples_invert (samples : List (Nat × Nat)) :
    ∀ ctx : EncCtx, ctx.invert ≤ 1 →
      (run_samples ctx samples).2.invert
        = (ctx.invert + count_last_one (run_table_words ctx.sfcnt samples)) % 2 := by
  induction samples with
  | nil =>
    intro ctx hi
    show ctx.invert = (ctx.invert + 0) % 2
    omega
  | cons p rest ih =>
    intro ctx hi
    have hs := sample_invert_parity ctx p.1 p.2 hi
    have hle : (snd_encode_sample ctx p.1 p.2).ctx.invert ≤ 1 := by rw [hs]; omega
    have h := ih (snd_encode_sample ctx p.1 p.2).ctx hle
    show (run_samples (snd_encode_sample ctx p.1 p.2).ctx rest).2.invert = _
    rw [h, hs]
    show _ = (ctx.invert + count_last_one (table_words ctx.sfcnt p.1 p.2
      ++ run_table_words (next_sfcnt ctx.sfcnt) rest)) % 2
    rw [count_last_one_append]
    show (_ + count_last_one (run_table_words (next_sfcnt ctx.sfcnt) rest)) % 2 = _
    omega

theorem run_samples_length (samples : List (Nat × Nat)) :
    ∀ ctx : EncCtx, (run_samples ctx samples).1.length = 4 * samples.length := by
  induction samples with
  | nil => intro ctx; rfl
  | cons p rest ih =>
    intro ctx
    show ((snd_encode_sample ctx p.1 p.2).words
      ++ (run_samples (snd_encode_sample ctx p.1 p.2).ctx rest).1).length = _
    rw [List.length_append, ih]
    simp only [SampleOut.words, List.length_cons, List.length_nil]
    omega

theorem run_table_words_length (samples : List (Nat × Nat)) :
    ∀ sfcnt : Nat, (run_table_words sfcnt samples).length = 4 * samples.length := by
  induction samples with
  | nil => intro c; rfl
  | cons p rest ih =>
    intro c
    show (table_words c p.1 p.2 ++ run_table_words (next_sfcnt c) rest).length = _
    rw [List.length_append, ih]
    simp only [table_words, List.length_cons, List.length_nil]
    omega

/-- Claim C6 fails as stated.  One sample with bytes `0x01, 0x01` from counter
0 and flag 0 is stored as `E8CC CD33 32CC CCCC`: exactly one of the four
patterns ends in a one, yet the flag afterwards is 0. -/
theorem flag_wire_parity_counterexample :
    (run_samples ⟨0, 0⟩ [(1, 1)]).1 = [0xE8CC, 0xCD33, 0x32CC, 0xCCCC]
    ∧ (run_samples ⟨0, 0⟩ [(1, 1)]).2.invert = 0
    ∧ count_last_one (run_samples ⟨0, 0⟩ [(1, 1)]).1 % 2 = 1
    ∧ ¬ ∀ (samples : List (Nat × Nat)) (sfcnt : Nat),
        (∀ p ∈ samples, p.1 < 256 ∧ p.2 < 256) → sfcnt < 384 →
        (run_samples ⟨sfcnt, 0⟩ samples).2.invert
          = count_last_one (run_samples ⟨sfcnt, 0⟩ samples).1 % 2 := by
  have a : (run_samples ⟨0, 0⟩ [(1, 1)]).1 = [0xE8CC, 0xCD33, 0x32CC, 0xCCCC] := by decide
  have b : (run_samples ⟨0, 0⟩ [(1, 1)]).2.invert = 0 := by decide
  have c : count_last_one (run_samples ⟨0, 0⟩ [(1, 1)]).1 % 2 = 1 := by rw [a]; decide
  refine ⟨a, b, c, ?_⟩
  intro h
  have := h [(1, 1)] 0 (by simp) (by norm_num)
  rw [b, c] at this
  exact absurd this (by decide)

/-- Claim C6, amended.  Starting from flag 0, after any number of consecutive
per-sample steps the flag equals the parity of the number of table values
(preamble and biphase entries before the inversion step), among the `4 * N`
looked up, whose last bit is one. -/
theorem flag_table_parity (samples : List (Nat × Nat)) (sfcnt : Nat) :
    (run_samples ⟨sfcnt, 0⟩ samples).1.length = 4 * samples.length
    ∧ (run_table_words sfcnt samples).length = 4 * samples.length
    ∧ (run_samples ⟨sfcnt, 0⟩ samples).2.invert
        = count_last_one (run_table_words sfcnt samples) % 2 := by
  refine ⟨run_samples_length samples _, run_table_words_length samples _, ?_⟩
  have h := run_samples_invert samples ⟨sfcnt, 0⟩ (by norm_num)
  rw [h]
  simp

/-- Claim C7, amended with the bound `len ≤ 32768`.  For an even length of at
most 32768 bytes and a destination of capacity at least `4 * (len / 2)`, the
call returns; the four patterns of sample `k` sit at indices `4k .. 4k + 3`,
all below the capacity, for every `k < len / 2`; and every other entry of the
destination is left as it was. -/
theorem four_words_per_sample (samples wire : Nat → Nat) (ctx : EncCtx) (len cap : Nat)
    (heven : len % 2 = 0) (hlen : len ≤ 32768) (hcap : 4 * (len / 2) ≤ cap) :
    ∃ wire2 ctx2,
      snd_encode samples wire len ctx = some (wire2, ctx2)
      ∧ (∀ k < len / 2,
          4 * k + 3 < cap
          ∧ wire2 (4 * k) = (out_at samples ctx k).w0
          ∧ wire2 (4 * k + 1) = (out_at samples ctx k).w1
          ∧ wire2 (4 * k + 2) = (out_at samples ctx k).w2
          ∧ wire2 (4 * k + 3) = (out_at samples ctx k).w3)
      ∧ ∀ j, 4 * (len / 2) ≤ j → wire2 j = wire j := by
  have he := snd_encode_eq samples wire ctx len (by omega)
  have hp : passes len = len / 2 := by unfold passes; omega
  refine ⟨_, _, he, ?_, ?_⟩
  · intro k hk
    have hw := loop_state_wire samples wire ctx (passes len) (by rw [hp]; omega)
    refine ⟨by omega, ?_, ?_, ?_, ?_⟩
    · rw [hw, if_pos (by rw [hp]; omega)]
      have a : 4 * k / 4 = k := by omega
      have b : 4 * k % 4 = 0 := by omega
      rw [a, b]; rfl
    · rw [hw, if_pos (by rw [hp]; omega)]
      have a : (4 * k + 1) / 4 = k := by omega
      have b : (4 * k + 1) % 4 = 1 := by omega
      rw [a, b]; rfl
    · rw [hw, if_pos (by rw [hp]; omega)]
      have a : (4 * k + 2) / 4 = k := by omega
      have b : (4 * k + 2) % 4 = 2 := by omega
      rw [a, b]; rfl
    · rw [hw, if_pos (by rw [hp]; omega)]
      have a : (4 * k + 3) / 4 = k := by omega
      have b : (4 * k + 3) % 4 = 3 := by omega
      rw [a, b]; rfl
  · intro j hj
    rw [loop_state_wire samples wire ctx (passes len) (by rw [hp]; omega) j,
      if_neg (by rw [hp]; omega)]

/-- Instance of amended C7: two samples into a destination of eight entries. -/
theorem four_words_per_sample_witness :
    (4 % 2 = 0 ∧ 4 ≤ 32768 ∧ 4 * (4 / 2) ≤ 8)
    ∧ ∃ wire2 ctx2,
      snd_encode (mem_of [0x34, 0x92, 0x01, 0x80]) (fun _ => 0) 4 ⟨383, 1⟩ = some (wire2, ctx2)
      ∧ (∀ k < 4 / 2,
          4 * k + 3 < 8
          ∧ wire2 (4 * k) = (out_at (mem_of [0x34, 0x92, 0x01, 0x80]) ⟨383, 1⟩ k).w0
          ∧ wire2 (4 * k + 1) = (out_at (mem_of [0x34, 0x92, 0x01, 0x80]) ⟨383, 1⟩ k).w1
          ∧ wire2 (4 * k + 2) = (out_at (mem_of [0x34, 0x92, 0x01, 0x80]) ⟨383, 1⟩ k).w2
          ∧ wire2 (4 * k + 3) = (out_at (mem_of [0x34, 0x92, 0x01, 0x80]) ⟨383, 1⟩ k).w3)
      ∧ ∀ j, 4 * (4 / 2) ≤ j → wire2 j = (fun _ => 0) j :=
  ⟨⟨by decide, by decide, by decide⟩,
    four_words_per_sample (mem_of [0x34, 0x92, 0x01, 0x80]) (fun _ => 0) ⟨383, 1⟩ 4 8
      (by decide) (by decide) (by decide)⟩

theorem zero_sample_invert (c : Nat) :
    (snd_encode_sample ⟨c, 0⟩ 0 0).ctx.invert = 0 := by
  show apply_invert (apply_invert (apply_invert (apply_invert 0 (preamble c) &&& 1)
    (biphase ((subframe 0 0 >>> 8) % 256)) &&& 1) (biphase ((subframe 0 0 >>> 16) % 256)) &&& 1)
    (biphase ((subframe 0 0 >>> 24) % 256)) &&& 1 = 0
  have hs : subframe 0 0 = 0 := by decide
  rw [hs]
  unfold preamble
  split
  · decide
  · split <;> decide

theorem ctx_at_zero (k : Nat) :
    ctx_at (fun _ => 0) ⟨0, 0⟩ k = ⟨k % 384, 0⟩ := by
  induction k with
  | zero => rfl
  | succ k ih =>
    show (snd_encode_sample (ctx_at (fun _ => 0) ⟨0, 0⟩ k) (0 % 256) (0 % 256)).ctx = _
    rw [ih]
    have h1 := zero_sample_invert (k % 384)
    have h2 : (snd_encode_sample ⟨k % 384, 0⟩ 0 0).ctx.sfcnt = next_sfcnt (k % 384) := rfl
    have h3 := next_sfcnt_mod (k % 384) (Nat.mod_lt _ (by norm_num))
    have h4 : (k % 384 + 1) % 384 = (k + 1) % 384 := by omega
    show (snd_encode_sample ⟨k % 384, 0⟩ 0 0).ctx = _
    cases hr : (snd_encode_sample ⟨k % 384, 0⟩ 0 0).ctx with
    | mk s i =>
      rw [hr] at h1 h2
      simp only at h1 h2
      rw [h1, h2, h3, h4]

theorem out_at_w0 (samples : Nat → Nat) (ctx : EncCtx) (k : Nat) :
    (out_at samples ctx k).w0
      = apply_invert (ctx_at samples ctx k).invert (preamble (ctx_at samples ctx k).sfcnt) := rfl

/-- Claim C7 fails as stated.  With `len = 32770` (zero samples, counter 0,
flag 0) the 16-bit index `widx` wraps after 16384 samples: entry 0 ends up
holding the X preamble of sample 16384 and not the Z preamble stored for
sample 0. -/
theorem four_words_wrap_counterexample :
    (∃ wire2 ctx2,
      snd_encode (fun _ => 0) (fun _ => 0) 32770 ⟨0, 0⟩ = some (wire2, ctx2)
      ∧ wire2 0 = 0xE2CC
      ∧ (out_at (fun _ => 0) ⟨0, 0⟩ 0).w0 = 0xE8CC)
    ∧ ¬ ∀ (samples wire : Nat → Nat) (ctx : EncCtx) (len cap : Nat),
        len % 2 = 0 → len < 65536 → 4 * (len / 2) ≤ cap →
        ∃ wire2 ctx2,
          snd_encode samples wire len ctx = some (wire2, ctx2)
          ∧ (∀ k < len / 2,
              4 * k + 3 < cap
              ∧ wire2 (4 * k) = (out_at samples ctx k).w0
              ∧ wire2 (4 * k + 1) = (out_at samples ctx k).w1
              ∧ wire2 (4 * k + 2) = (out_at samples ctx k).w2
              ∧ wire2 (4 * k + 3) = (out_at samples ctx k).w3)
          ∧ ∀ j, 4 * (len / 2) ≤ j → wire2 j = wire j := by
  have he := snd_encode_eq (fun _ => 0) (fun _ => 0) ⟨0, 0⟩ 32770 (by norm_num)
  have hp : passes 32770 = 16384 + 1 := by decide
  have hw : (loop_state (fun _ => 0) (fun _ => 0) ⟨0, 0⟩ (16384 + 1)).wire 0 = 0xE2CC := by
    rw [loop_state_wire_succ _ _ _ 16384 (by norm_num) 0]
    have hm : 4 * 16384 % 65536 = 0 := by decide
    rw [hm, if_neg (by decide), if_neg (by decide), if_neg (by decide), if_pos rfl]
    rw [out_at_w0, ctx_at_zero]
    norm_num [apply_invert, preamble, x_preamble]
  have h0 : (out_at (fun _ => 0) ⟨0, 0⟩ 0).w0 = 0xE8CC := by decide
  rw [hp] at he
  refine ⟨⟨_, _, he, hw, h0⟩, ?_⟩
  intro h
  obtain ⟨wire2, ctx2, hs, hk, _⟩ := h (fun _ => 0) (fun _ => 0) ⟨0, 0⟩ 32770 65540
    (by decide) (by decide) (by decide)
  rw [he] at hs
  have hw2 : wire2 = (loop_state (fun _ => 0) (fun _ => 0) ⟨0, 0⟩ (16384 + 1)).wire := by
    have := Option.some.inj hs
    exact (congrArg Prod.fst this).symm
  have := (hk 0 (by decide)).2.1
  rw [hw2, hw, h0] at this
  exact absurd this (by decide)

/-- An odd length below 65535 runs exactly as the next even length does. -/
theorem snd_encode_odd (samples wire : Nat → Nat) (ctx : EncCtx) (len : Nat)
    (hodd : len % 2 = 1) (hlen : len < 65535) :
    snd_encode samples wire len ctx = snd_encode samples wire (len + 1) ctx := by
  rw [snd_encode_eq samples wire ctx len hlen, snd_encode_eq samples wire ctx (len + 1) (by omega)]
  have : passes (len + 1) = passes len := by unfold passes; omega
  rw [this]

theorem loop_diverges (samples : Nat → Nat) (fuel : Nat) :
    ∀ st : LoopState, st.i % 2 = 0 → st.i < 65536 →
      snd_encode_loop samples 65535 fuel st = none := by
  induction fuel with
  | zero => intro st _ _; rfl
  | succ f ih =>
    intro st he hlt
    have hi : st.i < 65535 := by omega
    simp only [snd_encode_loop, hi, if_true]
    apply ih
    · show (st.i + 2) % 65536 % 2 = 0
      omega
    · show (st.i + 2) % 65536 < 65536
      omega

/-- With `len = 65535` the counter `i` wraps from 65534 to 0 and the loop never exits. -/
theorem snd_encode_65535 (samples wire : Nat → Nat) (ctx : EncCtx) (fuel : Nat) :
    snd_encode_loop samples 65535 fuel (loop_init wire ctx) = none :=
  loop_diverges samples fuel (loop_init wire ctx) rfl (by show 0 < 65536; norm_num)

theorem loop_state_congr (s s2 wire : Nat → Nat) (ctx : EncCtx) (k : Nat) (hk : k ≤ 32768)
    (h : ∀ i < 2 * k, s2 i = s i) :
    loop_state s2 wire ctx k = loop_state s wire ctx k := by
  induction k with
  | zero => rfl
  | succ k ih =>
    have hi := loop_state_i s wire ctx k
    have hi2 : (loop_state s wire ctx k).i = 2 * k := by rw [hi]; omega
    show snd_encode_body s2 (loop_state s2 wire ctx k) = snd_encode_body s (loop_state s wire ctx k)
    rw [ih (by omega) (fun i hi => h i (by omega))]
    unfold snd_encode_body
    rw [hi2, h (2 * k) (by omega), h (2 * k + 1) (by omega)]

/-- Entries at or beyond `4 * k` are untouched by the first `k` passes. -/
theorem loop_state_wire_beyond (samples wire : Nat → Nat) (ctx : EncCtx) (k : Nat)
    (hk : k ≤ 32768) (j : Nat) (hj : 4 * k ≤ j) :
    (loop_state samples wire ctx k).wire j = wire j := by
  induction k with
  | zero => rfl
  | succ k ih =>
    rw [loop_state_wire_succ samples wire ctx k (by omega) j]
    have hm : 4 * k % 65536 ≤ 4 * k := Nat.mod_le _ _
    rw [if_neg (by omega), if_neg (by omega), if_neg (by omega), if_neg (by omega)]
    exact ih (by omega) (by omega)

/-- Claim C8, amended to even lengths.  For every even 16-bit length the call
returns after exactly `len / 2` passes: the context afterwards is the context
after `len / 2` samples (so the counter has advanced `len / 2` times), no
destination entry at or beyond `4 * (len / 2)` is changed, and bytes at
offsets `len` and above have no influence on the result. -/
theorem even_length_samples (samples wire : Nat → Nat) (ctx : EncCtx) (len : Nat)
    (heven : len % 2 = 0) (hlen : len < 65536) :
    ∃ wire2 ctx2,
      snd_encode samples wire len ctx = some (wire2, ctx2)
      ∧ ctx2 = ctx_at samples ctx (len / 2)
      ∧ (ctx.sfcnt < 384 → ctx2.sfcnt = (ctx.sfcnt + len / 2) % 384)
      ∧ (∀ j, 4 * (len / 2) ≤ j → wire2 j = wire j)
      ∧ ∀ samples2 : Nat → Nat, (∀ i < len, samples2 i = samples i) →
          snd_encode samples2 wire len ctx = some (wire2, ctx2) := by
  have hp : passes len = len / 2 := by unfold passes; omega
  have he := snd_encode_eq samples wire ctx len (by omega)
  rw [hp] at he
  refine ⟨_, _, he, rfl, fun hc => ctx_at_sfcnt samples ctx hc _, ?_, ?_⟩
  · intro j hj
    exact loop_state_wire_beyond samples wire ctx (len / 2) (by omega) j hj
  · intro samples2 h
    have he2 := snd_encode_eq samples2 wire ctx len (by omega)
    rw [hp] at he2
    rw [he2, loop_state_congr samples samples2 wire ctx (len / 2) (by omega)
      (fun i hi => h i (by omega)),
      ctx_at_congr samples2 samples ctx (len / 2) (fun i hi => h i (by omega))]

/-- Instance of amended C8: length 4 over a buffer that holds a fifth byte. -/
theorem even_length_samples_witness :
    (4 % 2 = 0 ∧ 4 < 65536)
    ∧ ∃ wire2 ctx2,
      snd_encode (mem_of [0x34, 0x92, 0x01, 0x80, 0x55]) (fun _ => 0) 4 ⟨383, 1⟩
        = some (wire2, ctx2)
      ∧ ctx2 = ctx_at (mem_of [0x34, 0x92, 0x01, 0x80, 0x55]) ⟨383, 1⟩ (4 / 2)
      ∧ ((⟨383, 1⟩ : EncCtx).sfcnt < 384 →
          ctx2.sfcnt = ((⟨383, 1⟩ : EncCtx).sfcnt + 4 / 2) % 384)
      ∧ (∀ j, 4 * (4 / 2) ≤ j → wire2 j = (fun _ => 0) j)
      ∧ ∀ samples2 : Nat → Nat,
          (∀ i < 4, samples2 i = mem_of [0x34, 0x92, 0x01, 0x80, 0x55] i) →
          snd_encode samples2 (fun _ => 0) 4 ⟨383, 1⟩ = some (wire2, ctx2) :=
  ⟨⟨by decide, by decide⟩,
    even_length_samples (mem_of [0x34, 0x92, 0x01, 0x80, 0x55]) (fun _ => 0) ⟨383, 1⟩ 4
      (by decide) (by decide)⟩

/-- Claim C8 fails as stated.  With `len = 1` the test `i < len` admits one
pass: four patterns are stored, the counter advances to 1, and the byte at
offset 1, beyond the length, changes the patterns. -/
theorem odd_length_counterexample :
    (snd_encode (mem_of [0x00, 0x00]) (fun _ => 0) 1 ⟨0, 0⟩).map
        (fun r => (read_words r.1 5, r.2))
      = some ([0xE8CC, 0xCCCC, 0xCCCC, 0xCCCC, 0], ⟨1, 0⟩)
    ∧ (snd_encode (mem_of [0x00, 0x80]) (fun _ => 0) 1 ⟨0, 0⟩).map
        (fun r => (read_words r.1 5, r.2))
      = some ([0xE8CC, 0xCCCC, 0xCCCC, 0xCACC, 0], ⟨1, 0⟩)
    ∧ ¬ ∀ (samples samples2 wire : Nat → Nat) (ctx : EncCtx) (len : Nat),
        len < 65536 → (∀ i < 2 * (len / 2), samples2 i = samples i) →
        ∃ wire2 ctx2,
          snd_encode samples wire len ctx = some (wire2, ctx2)
          ∧ snd_encode samples2 wire len ctx = some (wire2, ctx2)
          ∧ ctx2 = ctx_at samples ctx (len / 2) := by
  have e1 : snd_encode (mem_of [0x00, 0x00]) (fun _ => 0) 1 ⟨0, 0⟩
      = some ((loop_state (mem_of [0x00, 0x00]) (fun _ => 0) ⟨0, 0⟩ 1).wire,
          ctx_at (mem_of [0x00, 0x00]) ⟨0, 0⟩ 1) :=
    snd_encode_eq _ _ _ 1 (by decide)
  refine ⟨?_, ?_, ?_⟩
  · rw [e1]
    decide
  · rw [snd_encode_eq _ _ _ 1 (by decide)]
    decide
  · intro h
    obtain ⟨wire2, ctx2, hs, _, hc⟩ := h (mem_of [0x00, 0x00]) (mem_of [0x00, 0x00])
      (fun _ => 0) ⟨0, 0⟩ 1 (by decide) (fun _ _ => rfl)
    rw [e1] at hs
    have h2 : ctx_at (mem_of [0x00, 0x00]) ⟨0, 0⟩ 1 = ctx2 :=
      congrArg Prod.snd (Option.some.inj hs)
    rw [hc] at h2
    exact absurd h2 (by decide)

/-- Claim C9 (sign-extended half-scale placement).  The 24-bit audio field of
time slots 4..27, read as a two's-complement number, is the two's-complement
value of the sample times 128; slot 27 equals slot 26, which is bit 15 of the
sample. -/
theorem half_scale_placement (ctx : EncCtx) (b0 b1 : Nat) (h0 : b0 < 256) (h1 : b1 < 256) :
    to_signed 24 (audio_field (snd_encode_sample ctx b0 b1))
        = to_signed 16 (sample16 b0 b1) * 128
    ∧ slotCell (snd_encode_sample ctx b0 b1) 27 = slotCell (snd_encode_sample ctx b0 b1) 26
    ∧ slotCell (snd_encode_sample ctx b0 b1) 26 = (sample16 b0 b1).testBit 15 := by
  have hd := fun k hk => slotCell_data ctx b0 b1 k h0 h1 hk
  have hz := fun t ht => slotCell_zero ctx b0 b1 t h0 h1 ht
  have hs := slotCell_sign ctx b0 b1 h0 h1
  have h26 := hd 15 (by norm_num)
  refine ⟨?_, by rw [hs]; exact h26.symm, h26⟩
  have hlt := sample16_lt b0 b1 h0 h1
  have hf : audio_field (snd_encode_sample ctx b0 b1)
      = sample16 b0 b1 * 128 + (sample16 b0 b1 / 2 ^ 15 % 2) * 2 ^ 23 := by
    simp only [audio_field, range24, List.map, List.sum_cons, List.sum_nil]
    have e : ∀ k < 16, slotCell (snd_encode_sample ctx b0 b1) (4 + (7 + k))
        = (sample16 b0 b1).testBit k := by
      intro k hk
      rw [show 4 + (7 + k) = 11 + k from by omega]
      exact hd k hk
    rw [hz (4 + 0) (by omega), hz (4 + 1) (by omega), hz (4 + 2) (by omega),
      hz (4 + 3) (by omega), hz (4 + 4) (by omega), hz (4 + 5) (by omega),
      hz (4 + 6) (by omega),
      e 0 (by norm_num), e 1 (by norm_num), e 2 (by norm_num), e 3 (by norm_num),
      e 4 (by norm_num), e 5 (by norm_num), e 6 (by norm_num), e 7 (by norm_num),
      e 8 (by norm_num), e 9 (by norm_num), e 10 (by norm_num), e 11 (by norm_num),
      e 12 (by norm_num), e 13 (by norm_num), e 14 (by norm_num), e 15 (by norm_num),
      show 4 + 23 = 27 from rfl, hs]
    simp only [Nat.toNat_testBit, Bool.toNat_false]
    norm_num
    omega
  have hf2 : audio_field (snd_encode_sample ctx b0 b1)
      = if sample16 b0 b1 < 32768 then sample16 b0 b1 * 128
        else sample16 b0 b1 * 128 + 8388608 := by
    rw [hf]
    have hlt2 : sample16 b0 b1 < 65536 := hlt
    have p15 : (2 : Nat) ^ 15 = 32768 := by norm_num
    have p23 : (2 : Nat) ^ 23 = 8388608 := by norm_num
    rw [p15, p23]
    split <;> omega
  rw [hf2]
  unfold to_signed
  have hlt2 : sample16 b0 b1 < 65536 := hlt
  have p23 : (2 : Nat) ^ (24 - 1) = 8388608 := by norm_num
  have p15 : (2 : Nat) ^ (16 - 1) = 32768 := by norm_num
  have q24 : (2 : Int) ^ 24 = 16777216 := by norm_num
  have q16 : (2 : Int) ^ 16 = 65536 := by norm_num
  rw [p23, p15, q24, q16]
  by_cases hneg : sample16 b0 b1 < 32768
  · rw [if_pos hneg, if_pos (by omega), if_pos hneg]
    push_cast
    ring
  · rw [if_neg hneg, if_neg (by omega), if_neg hneg]
    push_cast
    ring

/-- Instance of C9 at the negative sample `0x9234`. -/
theorem half_scale_placement_witness :
    (0x34 < 256 ∧ 0x92 < 256)
    ∧ to_signed 24 (audio_field (snd_encode_sample ⟨5, 1⟩ 0x34 0x92))
        = to_signed 16 (sample16 0x34 0x92) * 128
    ∧ slotCell (snd_encode_sample ⟨5, 1⟩ 0x34 0x92) 27
        = slotCell (snd_encode_sample ⟨5, 1⟩ 0x34 0x92) 26
    ∧ slotCell (snd_encode_sample ⟨5, 1⟩ 0x34 0x92) 26 = (sample16 0x34 0x92).testBit 15 :=
  ⟨⟨by decide, by decide⟩, half_scale_placement ⟨5, 1⟩ 0x34 0x92 (by decide) (by decide)⟩

/-- Claim C10 (framing bits are zero).  Time slots 4..10 and 28..30 always
decode to zero; a slot in 4..31 that decodes to one is in 11..27 or is the
parity slot 31. -/
theorem framing_bits_zero (ctx : EncCtx) (b0 b1 : Nat) (h0 : b0 < 256) (h1 : b1 < 256) :
    (∀ t, (4 ≤ t ∧ t ≤ 10) ∨ (28 ≤ t ∧ t ≤ 30) →
        slotCell (snd_encode_sample ctx b0 b1) t = false)
    ∧ (∀ t, 4 ≤ t → t ≤ 31 → slotCell (snd_encode_sample ctx b0 b1) t = true →
        (11 ≤ t ∧ t ≤ 27) ∨ t = 31) := by
  refine ⟨fun t ht => slotCell_zero ctx b0 b1 t h0 h1 ht, ?_⟩
  intro t h4 h31 ht
  by_contra hn
  have hz := slotCell_zero ctx b0 b1 t h0 h1 (by omega)
  rw [hz] at ht
  exact absurd ht (by decide)

/-- Instance of C10 at the sample `0xFFFF`. -/
theorem framing_bits_zero_witness :
    (0xFF < 256 ∧ 0xFF < 256)
    ∧ (∀ t, (4 ≤ t ∧ t ≤ 10) ∨ (28 ≤ t ∧ t ≤ 30) →
        slotCell (snd_encode_sample ⟨1, 1⟩ 0xFF 0xFF) t = false)
    ∧ (∀ t, 4 ≤ t → t ≤ 31 → slotCell (snd_encode_sample ⟨1, 1⟩ 0xFF 0xFF) t = true →
        (11 ≤ t ∧ t ≤ 27) ∨ t = 31) :=
  ⟨⟨by decide, by decide⟩, framing_bits_zero ⟨1, 1⟩ 0xFF 0xFF (by decide) (by decide)⟩

/-! ## Properties of the buffer pipeline -/

theorem passes_chunk : passes SAMPLE_CHUNK_SIZE = 512 := by decide

/-- An encode job's call of `snd_encode` returns, after 512 passes. -/
theorem snd_encode_chunk (samples wire : Nat → Nat) (ctx : EncCtx) :
    snd_encode samples wire SAMPLE_CHUNK_SIZE ctx
      = some ((loop_state samples wire ctx 512).wire, ctx_at samples ctx 512) := by
  have h := snd_encode_eq samples wire ctx SAMPLE_CHUNK_SIZE (by decide)
  rw [passes_chunk] at h
  exact h

theorem snd_process_a_eq (s : AudioState) :
    snd_process_a s = some (match s.sbufsel with
      | .A => advance_a { s with
          wire_buf_a := (loop_state (fun i => s.sample_buf_a (s.sbufpos + i)) s.wire_buf_a
            s.enc 512).wire,
          enc := ctx_at (fun i => s.sample_buf_a (s.sbufpos + i)) s.enc 512 }
      | .B => advance_b { s with
          wire_buf_a := (loop_state (fun i => s.sample_buf_b (s.sbufpos + i)) s.wire_buf_a
            s.enc 512).wire,
          enc := ctx_at (fun i => s.sample_buf_b (s.sbufpos + i)) s.enc 512 }) := by
  unfold snd_process_a
  cases s.sbufsel <;> simp only [snd_encode_chunk, Option.map_some']

theorem snd_process_b_eq (s : AudioState) :
    snd_process_b s = some (match s.sbufsel with
      | .A => advance_a { s with
          wire_buf_b := (loop_state (fun i => s.sample_buf_a (s.sbufpos + i)) s.wire_buf_b
            s.enc 512).wire,
          enc := ctx_at (fun i => s.sample_buf_a (s.sbufpos + i)) s.enc 512 }
      | .B => advance_b { s with
          wire_buf_b := (loop_state (fun i => s.sample_buf_b (s.sbufpos + i)) s.wire_buf_b
            s.enc 512).wire,
          enc := ctx_at (fun i => s.sample_buf_b (s.sbufpos + i)) s.enc 512 }) := by
  unfold snd_process_b
  cases s.sbufsel <;> simp only [snd_encode_chunk, Option.map_some']

theorem advance_a_wire_a (s : AudioState) : (advance_a s).wire_buf_a = s.wire_buf_a := by
  unfold advance_a
  simp only
  split <;> rfl

theorem advance_b_wire_a (s : AudioState) : (advance_b s).wire_buf_a = s.wire_buf_a := by
  unfold advance_b
  simp only
  split <;> rfl

/-- Claim C11 (zero-input witness).  From counter 0, flag 0, selector A and
cursor 0, with both sample buffers holding only zero bytes, the job
`snd_process_a` returns and leaves `E8CC CCCC CCCC CCCC` in entries 0..3 of
wire buffer A: the Z preamble as it stands, then three patterns of all-zero
cells, parity cell included. -/
theorem zero_input_first_words (s : AudioState) (hctx : s.enc = ⟨0, 0⟩)
    (hsel : s.sbufsel = .A) (_hpos : s.sbufpos = 0)
    (ha : ∀ i, s.sample_buf_a i = 0) (_hb : ∀ i, s.sample_buf_b i = 0) :
    ∃ s2, snd_process_a s = some s2
      ∧ s2.wire_buf_a 0 = 0xE8CC ∧ s2.wire_buf_a 1 = 0xCCCC
      ∧ s2.wire_buf_a 2 = 0xCCCC ∧ s2.wire_buf_a 3 = 0xCCCC := by
  refine ⟨_, snd_process_a_eq s, ?_⟩
  rw [hsel]
  simp only [advance_a_wire_a]
  have hs : (fun i => s.sample_buf_a (s.sbufpos + i)) = fun _ => 0 := by
    funext i; exact ha _
  rw [hs, hctx]
  have hw := loop_state_wire (fun _ => 0) s.wire_buf_a ⟨0, 0⟩ 512 (by norm_num)
  have ho : out_at (fun _ => 0) ⟨0, 0⟩ 0 = snd_encode_sample ⟨0, 0⟩ 0 0 := rfl
  refine ⟨?_, ?_, ?_, ?_⟩
  · rw [hw 0, if_pos (by norm_num), show (0 : Nat) / 4 = 0 from rfl, ho]; decide
  · rw [hw 1, if_pos (by norm_num), show (1 : Nat) / 4 = 0 from rfl, ho]; decide
  · rw [hw 2, if_pos (by norm_num), show (2 : Nat) / 4 = 0 from rfl, ho]; decide
  · rw [hw 3, if_pos (by norm_num), show (3 : Nat) / 4 = 0 from rfl, ho]; decide

/-- Instance of C11 at the statics as initialised. -/
theorem zero_input_first_words_witness :
    (init_state.enc = ⟨0, 0⟩ ∧ init_state.sbufsel = .A ∧ init_state.sbufpos = 0
      ∧ (∀ i, init_state.sample_buf_a i = 0) ∧ (∀ i, init_state.sample_buf_b i = 0))
    ∧ ∃ s2, snd_process_a init_state = some s2
      ∧ s2.wire_buf_a 0 = 0xE8CC ∧ s2.wire_buf_a 1 = 0xCCCC
      ∧ s2.wire_buf_a 2 = 0xCCCC ∧ s2.wire_buf_a 3 = 0xCCCC :=
  ⟨⟨rfl, rfl, rfl, fun _ => rfl, fun _ => rfl⟩,
    zero_input_first_words init_state rfl rfl rfl (fun _ => rfl) (fun _ => rfl)⟩

theorem start_if_ready_abufst (s : AudioState) : (start_if_ready s).abufst = s.abufst := by
  unfold start_if_ready; split <;> rfl

theorem start_if_ready_bbufst (s : AudioState) : (start_if_ready s).bbufst = s.bbufst := by
  unfold start_if_ready; split <;> rfl

theorem audio_buffer_ret (s : AudioState) :
    (audio_buffer s).2 = if s.abufst = .STALE then some .A
      else if s.bbufst = .STALE then some .B else none := by
  unfold audio_buffer
  simp only [start_if_ready_abufst, start_if_ready_bbufst]
  by_cases h1 : s.abufst = .STALE
  · rw [if_pos h1, if_pos h1]
  · rw [if_neg h1, if_neg h1]
    by_cases h2 : s.bbufst = .STALE
    · rw [if_pos h2, if_pos h2]
    · rw [if_neg h2, if_neg h2]

theorem audio_buffer_abufst (s : AudioState) :
    (audio_buffer s).1.abufst = if s.abufst = .STALE then .FILLING else s.abufst := by
  unfold audio_buffer
  simp only [start_if_ready_abufst, start_if_ready_bbufst]
  by_cases h1 : s.abufst = .STALE
  · rw [if_pos h1, if_pos h1]
  · rw [if_neg h1, if_neg h1]
    by_cases h2 : s.bbufst = .STALE
    · rw [if_pos h2]
    · rw [if_neg h2]; exact start_if_ready_abufst s

theorem audio_buffer_bbufst (s : AudioState) :
    (audio_buffer s).1.bbufst = if s.abufst = .STALE then s.bbufst
      else if s.bbufst = .STALE then .FILLING else s.bbufst := by
  unfold audio_buffer
  simp only [start_if_ready_abufst, start_if_ready_bbufst]
  by_cases h1 : s.abufst = .STALE
  · rw [if_pos h1, if_pos h1]
  · rw [if_neg h1, if_neg h1]
    by_cases h2 : s.bbufst = .STALE
    · rw [if_pos h2, if_pos h2]
    · rw [if_neg h2, if_neg h2]; exact start_if_ready_bbufst s

/-- Claim C12 (`audio_buffer` as acquireFillTarget).  If A is STALE the call
returns A and sets it to FILLING; otherwise, if B is STALE, it returns B and
sets it to FILLING; otherwise it returns no buffer and changes neither state.
Hence a returned buffer was STALE at entry and is FILLING afterwards, and the
buffer not returned keeps its state. -/
theorem acquire_fill_target (s : AudioState) :
    (s.abufst = .STALE →
        (audio_buffer s).2 = some .A ∧ (audio_buffer s).1.abufst = .FILLING
        ∧ (audio_buffer s).1.bbufst = s.bbufst)
    ∧ (s.abufst ≠ .STALE → s.bbufst = .STALE →
        (audio_buffer s).2 = some .B ∧ (audio_buffer s).1.bbufst = .FILLING
        ∧ (audio_buffer s).1.abufst = s.abufst)
    ∧ (s.abufst ≠ .STALE → s.bbufst ≠ .STALE →
        (audio_buffer s).2 = none ∧ (audio_buffer s).1.abufst = s.abufst
        ∧ (audio_buffer s).1.bbufst = s.bbufst)
    ∧ (∀ b, (audio_buffer s).2 = some b →
        buf_state s b = .STALE ∧ buf_state (audio_buffer s).1 b = .FILLING
        ∧ buf_state (audio_buffer s).1 b.flip = buf_state s b.flip) := by
  have hr := audio_buffer_ret s
  have ha := audio_buffer_abufst s
  have hb := audio_buffer_bbufst s
  refine ⟨?_, ?_, ?_, ?_⟩
  · intro h
    rw [hr, ha, hb, if_pos h, if_pos h, if_pos h]
    exact ⟨rfl, rfl, rfl⟩
  · intro h1 h2
    rw [hr, ha, hb, if_neg h1, if_neg h1, if_neg h1, if_pos h2, if_pos h2]
    exact ⟨rfl, rfl, rfl⟩
  · intro h1 h2
    rw [hr, ha, hb, if_neg h1, if_neg h1, if_neg h1, if_neg h2, if_neg h2]
    exact ⟨rfl, rfl, rfl⟩
  · intro b hret
    rw [hr] at hret
    by_cases h1 : s.abufst = .STALE
    · rw [if_pos h1] at hret
      cases hret
      show s.abufst = .STALE ∧ (audio_buffer s).1.abufst = .FILLING
        ∧ (audio_buffer s).1.bbufst = s.bbufst
      rw [ha, hb, if_pos h1, if_pos h1]
      exact ⟨h1, rfl, rfl⟩
    · rw [if_neg h1] at hret
      by_cases h2 : s.bbufst = .STALE
      · rw [if_pos h2] at hret
        cases hret
        show s.bbufst = .STALE ∧ (audio_buffer s).1.bbufst = .FILLING
          ∧ (audio_buffer s).1.abufst = s.abufst
        rw [ha, hb, if_neg h1, if_neg h1, if_pos h2]
        exact ⟨h2, rfl, rfl⟩
      · rw [if_neg h2] at hret
        cases hret

/-- Claim C13 (`audio_buffer_filled` as markFilled).  When at least one
buffer is FILLING the call moves one buffer from FILLING to READY and leaves
the other buffer's state as it was; when none is FILLING the state is
unchanged. -/
theorem mark_filled (s : AudioState) :
    (1 ≤ filling_count s →
        ∃ b, buf_state s b = .FILLING
          ∧ buf_state (audio_buffer_filled s) b = .READY
          ∧ buf_state (audio_buffer_filled s) b.flip = buf_state s b.flip)
    ∧ (filling_count s = 0 → audio_buffer_filled s = s) := by
  refine ⟨?_, ?_⟩
  · intro h
    by_cases h1 : s.abufst = .FILLING
    · refine ⟨.A, h1, ?_, ?_⟩
      · unfold audio_buffer_filled; rw [if_pos h1]; rfl
      · unfold audio_buffer_filled; rw [if_pos h1]; rfl
    · have h2 : s.bbufst = .FILLING := by
        unfold filling_count at h
        by_contra hn
        simp [h1, hn] at h
      refine ⟨.B, h2, ?_, ?_⟩
      · unfold audio_buffer_filled; rw [if_neg h1, if_pos h2]; rfl
      · unfold audio_buffer_filled; rw [if_neg h1, if_pos h2]; rfl
  · intro h
    unfold filling_count at h
    have h1 : ¬ s.abufst = .FILLING := by
      intro hn; simp [hn] at h
    have h2 : ¬ s.bbufst = .FILLING := by
      intro hn; simp [hn] at h
    unfold audio_buffer_filled
    rw [if_neg h1, if_neg h2]

theorem advance_a_spec (s : AudioState) :
    (advance_a s).running = s.running ∧ (advance_a s).hw = s.hw
    ∧ (advance_a s).sample_buf_a = s.sample_buf_a ∧ (advance_a s).sample_buf_b = s.sample_buf_b
    ∧ (8192 ≤ (s.sbufpos + 1024) % 65536 →
        (advance_a s).sbufsel = .B ∧ (advance_a s).sbufpos = 0
        ∧ (advance_a s).abufst = .STALE ∧ (advance_a s).bbufst = s.bbufst)
    ∧ (¬ 8192 ≤ (s.sbufpos + 1024) % 65536 →
        (advance_a s).sbufsel = s.sbufsel ∧ (advance_a s).sbufpos = (s.sbufpos + 1024) % 65536
        ∧ (advance_a s).abufst = s.abufst ∧ (advance_a s).bbufst = s.bbufst) := by
  unfold advance_a
  simp only [SAMPLE_CHUNK_SIZE, AUDIO_BUFFER_SIZE, ge_iff_le]
  by_cases h : 8192 ≤ (s.sbufpos + 1024) % 65536
  · rw [if_pos h]
    exact ⟨rfl, rfl, rfl, rfl, fun _ => ⟨rfl, rfl, rfl, rfl⟩, fun hn => absurd h hn⟩
  · rw [if_neg h]
    exact ⟨rfl, rfl, rfl, rfl, fun hn => absurd hn h, fun _ => ⟨rfl, rfl, rfl, rfl⟩⟩

theorem advance_b_spec (s : AudioState) :
    (advance_b s).running = s.running ∧ (advance_b s).hw = s.hw
    ∧ (advance_b s).sample_buf_a = s.sample_buf_a ∧ (advance_b s).sample_buf_b = s.sample_buf_b
    ∧ (8192 ≤ (s.sbufpos + 1024) % 65536 →
        (advance_b s).sbufsel = .A ∧ (advance_b s).sbufpos = 0
        ∧ (advance_b s).bbufst = .STALE ∧ (advance_b s).abufst = s.abufst)
    ∧ (¬ 8192 ≤ (s.sbufpos + 1024) % 65536 →
        (advance_b s).sbufsel = s.sbufsel ∧ (advance_b s).sbufpos = (s.sbufpos + 1024) % 65536
        ∧ (advance_b s).abufst = s.abufst ∧ (advance_b s).bbufst = s.bbufst) := by
  unfold advance_b
  simp only [SAMPLE_CHUNK_SIZE, AUDIO_BUFFER_SIZE, ge_iff_le]
  by_cases h : 8192 ≤ (s.sbufpos + 1024) % 65536
  · rw [if_pos h]
    exact ⟨rfl, rfl, rfl, rfl, fun _ => ⟨rfl, rfl, rfl, rfl⟩, fun hn => absurd h hn⟩
  · rw [if_neg h]
    exact ⟨rfl, rfl, rfl, rfl, fun hn => absurd hn h, fun _ => ⟨rfl, rfl, rfl, rfl⟩⟩

theorem snd_process_a_sel_a (s : AudioState) (h : s.sbufsel = .A) :
    ∃ w e, snd_process_a s = some (advance_a { s with wire_buf_a := w, enc := e }) := by
  unfold snd_process_a
  rw [h]
  simp only [snd_encode_chunk, Option.map_some']
  exact ⟨_, _, rfl⟩

theorem snd_process_a_sel_b (s : AudioState) (h : s.sbufsel = .B) :
    ∃ w e, snd_process_a s = some (advance_b { s with wire_buf_a := w, enc := e }) := by
  unfold snd_process_a
  rw [h]
  simp only [snd_encode_chunk, Option.map_some']
  exact ⟨_, _, rfl⟩

theorem snd_process_b_sel_a (s : AudioState) (h : s.sbufsel = .A) :
    ∃ w e, snd_process_b s = some (advance_a { s with wire_buf_b := w, enc := e }) := by
  unfold snd_process_b
  rw [h]
  simp only [snd_encode_chunk, Option.map_some']
  exact ⟨_, _, rfl⟩

theorem snd_process_b_sel_b (s : AudioState) (h : s.sbufsel = .B) :
    ∃ w e, snd_process_b s = some (advance_b { s with wire_buf_b := w, enc := e }) := by
  unfold snd_process_b
  rw [h]
  simp only [snd_encode_chunk, Option.map_some']
  exact ⟨_, _, rfl⟩

/-- What an encode job does to the selector, the cursor, the buffer states and
the fields it leaves alone. -/
theorem job_step (s : AudioState) (op : Op) (hop : is_job op) :
    ∃ s2, step op s = some s2
      ∧ s2.running = s.running ∧ s2.hw = s.hw
      ∧ s2.sample_buf_a = s.sample_buf_a ∧ s2.sample_buf_b = s.sample_buf_b
      ∧ (8192 ≤ (s.sbufpos + 1024) % 65536 →
          s2.sbufsel = s.sbufsel.flip ∧ s2.sbufpos = 0
          ∧ buf_state s2 s.sbufsel = .STALE
          ∧ buf_state s2 s.sbufsel.flip = buf_state s s.sbufsel.flip)
      ∧ (¬ 8192 ≤ (s.sbufpos + 1024) % 65536 →
          s2.sbufsel = s.sbufsel ∧ s2.sbufpos = (s.sbufpos + 1024) % 65536
          ∧ s2.abufst = s.abufst ∧ s2.bbufst = s.bbufst) := by
  rcases hop with h | h <;> subst h
  · cases hsel : s.sbufsel
    · obtain ⟨w, e, hw⟩ := snd_process_a_sel_a s hsel
      obtain ⟨a, b, c, d, p, q⟩ := advance_a_spec { s with wire_buf_a := w, enc := e }
      exact ⟨_, hw, a, b, c, d, fun h => p h, fun h => by rw [← hsel]; exact q h⟩
    · obtain ⟨w, e, hw⟩ := snd_process_a_sel_b s hsel
      obtain ⟨a, b, c, d, p, q⟩ := advance_b_spec { s with wire_buf_a := w, enc := e }
      exact ⟨_, hw, a, b, c, d, fun h => p h, fun h => by rw [← hsel]; exact q h⟩
  · cases hsel : s.sbufsel
    · obtain ⟨w, e, hw⟩ := snd_process_b_sel_a s hsel
      obtain ⟨a, b, c, d, p, q⟩ := advance_a_spec { s with wire_buf_b := w, enc := e }
      exact ⟨_, hw, a, b, c, d, fun h => p h, fun h => by rw [← hsel]; exact q h⟩
    · obtain ⟨w, e, hw⟩ := snd_process_b_sel_b s hsel
      obtain ⟨a, b, c, d, p, q⟩ := advance_b_spec { s with wire_buf_b := w, enc := e }
      exact ⟨_, hw, a, b, c, d, fun h => p h, fun h => by rw [← hsel]; exact q h⟩

theorem flip_flip (b : bufselect) : b.flip.flip = b := by cases b <;> rfl

theorem flip_ne (b : bufselect) : b.flip ≠ b := by cases b <;> decide

theorem run_jobs (jobs : List Op) :
    ∀ (s : AudioState) (c : Nat), (∀ op ∈ jobs, is_job op) → c < 8 → s.sbufpos = 1024 * c →
      ∃ s2, run_ops jobs s = some s2
        ∧ s2.sbufpos = 1024 * ((c + jobs.length) % 8)
        ∧ s2.sbufsel = (if (c + jobs.length) / 8 % 2 = 0 then s.sbufsel else s.sbufsel.flip) := by
  induction jobs with
  | nil =>
    intro s c _ hc hp
    refine ⟨s, rfl, ?_, ?_⟩
    · rw [hp]; simp only [List.length_nil]; congr 1; omega
    · have : (c + ([] : List Op).length) / 8 % 2 = 0 := by simp only [List.length_nil]; omega
      rw [if_pos this]
  | cons op ops ih =>
    intro s c hall hc hp
    obtain ⟨s1, h1, _, _, _, _, hflip, hstay⟩ := job_step s op (hall op (List.mem_cons_self _ _))
    have hrun : run_ops (op :: ops) s = run_ops ops s1 := by
      simp only [run_ops, h1]
    rw [hrun]
    by_cases h7 : c = 7
    · have hge : 8192 ≤ (s.sbufpos + 1024) % 65536 := by rw [hp]; omega
      obtain ⟨hs, hpos, _, _⟩ := hflip hge
      obtain ⟨s2, h2, hp2, hs2⟩ := ih s1 0 (fun o ho => hall o (List.mem_cons_of_mem _ ho))
        (by norm_num) (by rw [hpos])
      refine ⟨s2, h2, ?_, ?_⟩
      · rw [hp2]; simp only [List.length_cons]; congr 1; omega
      · rw [hs2, hs, flip_flip]
        simp only [List.length_cons]
        by_cases hev : (0 + ops.length) / 8 % 2 = 0
        · rw [if_pos hev, if_neg (by omega)]
        · rw [if_neg hev, if_pos (by omega)]
    · have hlt : ¬ 8192 ≤ (s.sbufpos + 1024) % 65536 := by rw [hp]; omega
      obtain ⟨hs, hpos, _, _⟩ := hstay hlt
      obtain ⟨s2, h2, hp2, hs2⟩ := ih s1 (c + 1) (fun o ho => hall o (List.mem_cons_of_mem _ ho))
        (by omega) (by rw [hpos, hp]; omega)
      refine ⟨s2, h2, ?_, ?_⟩
      · rw [hp2]; simp only [List.length_cons]; congr 2; omega
      · rw [hs2, hs]
        simp only [List.length_cons]
        by_cases hev : (c + 1 + ops.length) / 8 % 2 = 0
        · rw [if_pos hev, if_pos (by omega)]
        · rw [if_neg hev, if_neg (by omega)]

/-- Claim C14 (`snd_process_a` and `snd_process_b` as consumeChunk).  From a
cursor that is a multiple of 1024 below 8192 either job returns; if the
cursor reaches 8192 the selector flips, the cursor is 0, the buffer that was
selected is STALE and the other keeps its state; otherwise selector and buffer
states are unchanged and the cursor has advanced by 1024.  Hence, counted from
cursor 0 and for any choice of job per call, the cursor after `n` calls is
`1024 * (n % 8)`, the selector has flipped `n / 8` times, and call number
`n + 1` flips the selector exactly when `n + 1` is a multiple of 8. -/
theorem consume_chunk :
    (∀ (s : AudioState) (op : Op), is_job op → s.sbufpos % 1024 = 0 → s.sbufpos < 8192 →
      ∃ s2, step op s = some s2
        ∧ (s.sbufpos + 1024 = 8192 →
            s2.sbufsel = s.sbufsel.flip ∧ s2.sbufpos = 0
            ∧ buf_state s2 s.sbufsel = .STALE
            ∧ buf_state s2 s.sbufsel.flip = buf_state s s.sbufsel.flip)
        ∧ (s.sbufpos + 1024 ≠ 8192 →
            s2.sbufsel = s.sbufsel ∧ s2.sbufpos = s.sbufpos + 1024
            ∧ s2.abufst = s.abufst ∧ s2.bbufst = s.bbufst))
    ∧ (∀ (s : AudioState) (jobs : List Op), (∀ op ∈ jobs, is_job op) → s.sbufpos = 0 →
      ∃ s2, run_ops jobs s = some s2
        ∧ s2.sbufpos = 1024 * (jobs.length % 8)
        ∧ s2.sbufsel = (if jobs.length / 8 % 2 = 0 then s.sbufsel else s.sbufsel.flip)
        ∧ ∀ op, is_job op →
            ∃ s3, step op s2 = some s3
              ∧ (s3.sbufsel ≠ s2.sbufsel ↔ (jobs.length + 1) % 8 = 0)) := by
  refine ⟨?_, ?_⟩
  · intro s op hop hm hlt
    obtain ⟨s2, h2, _, _, _, _, hflip, hstay⟩ := job_step s op hop
    refine ⟨s2, h2, ?_, ?_⟩
    · intro h
      exact hflip (by omega)
    · intro h
      obtain ⟨a, b, c, d⟩ := hstay (by omega)
      exact ⟨a, by rw [b]; omega, c, d⟩
  · intro s jobs hall hp
    obtain ⟨s2, h2, hp2, hs2⟩ := run_jobs jobs s 0 hall (by norm_num) (by rw [hp])
    simp only [Nat.zero_add] at hp2 hs2
    refine ⟨s2, h2, hp2, hs2, ?_⟩
    intro op hop
    obtain ⟨s3, h3, _, _, _, _, hflip, hstay⟩ := job_step s2 op hop
    refine ⟨s3, h3, ?_⟩
    by_cases h7 : jobs.length % 8 = 7
    · have hge : 8192 ≤ (s2.sbufpos + 1024) % 65536 := by rw [hp2]; omega
      obtain ⟨hs, _, _, _⟩ := hflip hge
      constructor
      · intro _; omega
      · intro _; rw [hs]; exact flip_ne _
    · have hlt : ¬ 8192 ≤ (s2.sbufpos + 1024) % 65536 := by rw [hp2]; omega
      obtain ⟨hs, _, _, _⟩ := hstay hlt
      constructor
      · intro hne; exact absurd hs hne
      · intro h; omega

theorem audio_buffer_filled_abufst (s : AudioState) :
    (audio_buffer_filled s).abufst = if s.abufst = .FILLING then .READY else s.abufst := by
  unfold audio_buffer_filled
  by_cases h1 : s.abufst = .FILLING
  · rw [if_pos h1, if_pos h1]
  · rw [if_neg h1, if_neg h1]
    by_cases h2 : s.bbufst = .FILLING
    · rw [if_pos h2]
    · rw [if_neg h2]

theorem audio_buffer_filled_bbufst (s : AudioState) :
    (audio_buffer_filled s).bbufst = if s.abufst = .FILLING then s.bbufst
      else if s.bbufst = .FILLING then .READY else s.bbufst := by
  unfold audio_buffer_filled
  by_cases h1 : s.abufst = .FILLING
  · rw [if_pos h1, if_pos h1]
  · rw [if_neg h1, if_neg h1]
    by_cases h2 : s.bbufst = .FILLING
    · rw [if_pos h2, if_pos h2]
    · rw [if_neg h2, if_neg h2]

/-- An encode job never raises the number of buffers that are being filled. -/
theorem job_filling_count (s s2 : AudioState) (op : Op) (hop : is_job op)
    (h : step op s = some s2) : filling_count s2 ≤ filling_count s := by
  obtain ⟨s3, h3, _, _, _, _, hflip, hstay⟩ := job_step s op hop
  rw [h] at h3
  cases Option.some.inj h3
  unfold filling_count
  by_cases hc : 8192 ≤ (s.sbufpos + 1024) % 65536
  · obtain ⟨_, _, hst, hoth⟩ := hflip hc
    cases hsel : s.sbufsel
    · rw [hsel] at hst hoth
      have ha : s2.abufst = .STALE := hst
      have hb : s2.bbufst = s.bbufst := hoth
      rw [ha, hb]
      simp
    · rw [hsel] at hst hoth
      have hb : s2.bbufst = .STALE := hst
      have ha : s2.abufst = s.abufst := hoth
      rw [ha, hb]
      simp
  · obtain ⟨_, _, ha, hb⟩ := hstay hc
    rw [ha, hb]

theorem polled_invariant (ops : List Op) :
    ∀ (s : AudioState) (p : Bool) (s2 : AudioState) (p2 : Bool),
      (p = false → filling_count s = 0) → filling_count s ≤ 1 →
      run_polled ops (s, p) = some (s2, p2) →
      (p2 = false → filling_count s2 = 0) ∧ filling_count s2 ≤ 1 := by
  induction ops with
  | nil =>
    intro s p s2 p2 h0 h1 hr
    simp only [run_polled, Option.some.injEq, Prod.mk.injEq] at hr
    obtain ⟨rfl, rfl⟩ := hr
    exact ⟨h0, h1⟩
  | cons op ops ih =>
    intro s p s2 p2 h0 h1 hr
    cases op with
    | audio_buffer =>
      cases p with
      | true => simp [run_polled, step_polled] at hr
      | false =>
        simp only [run_polled, step_polled, Bool.false_eq_true, if_false] at hr
        have hz := h0 rfl
        have hna : s.abufst ≠ .FILLING := by
          intro hn; unfold filling_count at hz; simp [hn] at hz
        have hnb : s.bbufst ≠ .FILLING := by
          intro hn; unfold filling_count at hz; simp [hn] at hz
        refine ih _ _ s2 p2 ?_ ?_ hr
        · intro hp
          rw [audio_buffer_ret] at hp
          unfold filling_count
          rw [audio_buffer_abufst, audio_buffer_bbufst]
          by_cases ha : s.abufst = .STALE
          · rw [if_pos ha] at hp; simp at hp
          · rw [if_neg ha] at hp
            by_cases hb : s.bbufst = .STALE
            · rw [if_pos hb] at hp; simp at hp
            · rw [if_neg ha, if_neg ha, if_neg hb, if_neg hna, if_neg hnb]
        · unfold filling_count
          rw [audio_buffer_abufst, audio_buffer_bbufst]
          by_cases ha : s.abufst = .STALE
          · rw [if_pos ha, if_pos ha, if_neg hnb]; simp
          · rw [if_neg ha, if_neg ha, if_neg hna]
            by_cases hb : s.bbufst = .STALE
            · rw [if_pos hb]; simp
            · rw [if_neg hb, if_neg hnb]; simp
    | audio_buffer_filled =>
      simp only [run_polled, step_polled] at hr
      have hz : filling_count (audio_buffer_filled s) = 0 := by
        unfold filling_count at h1 ⊢
        rw [audio_buffer_filled_abufst, audio_buffer_filled_bbufst]
        by_cases ha : s.abufst = .FILLING
        · rw [if_pos ha, if_pos ha]
          have hnb : s.bbufst ≠ .FILLING := by
            intro hn; simp [ha, hn] at h1
          simp [hnb]
        · rw [if_neg ha, if_neg ha]
          by_cases hb : s.bbufst = .FILLING
          · rw [if_pos hb]; simp [ha]
          · rw [if_neg hb]; simp [ha, hb]
      exact ih _ _ s2 p2 (fun _ => hz) (by omega) hr
    | snd_process_a =>
      simp only [run_polled, step_polled] at hr
      obtain ⟨s1, h1s, _⟩ := job_step s .snd_process_a (Or.inl rfl)
      have hs1 : snd_process_a s = some s1 := h1s
      rw [hs1] at hr
      simp only [Option.map_some'] at hr
      have hle := job_filling_count s s1 .snd_process_a (Or.inl rfl) h1s
      exact ih _ _ s2 p2 (fun hp => by have := h0 hp; omega) (by omega) hr
    | snd_process_b =>
      simp only [run_polled, step_polled] at hr
      obtain ⟨s1, h1s, _⟩ := job_step s .snd_process_b (Or.inr rfl)
      have hs1 : snd_process_b s = some s1 := h1s
      rw [hs1] at hr
      simp only [Option.map_some'] at hr
      have hle := job_filling_count s s1 .snd_process_b (Or.inr rfl) h1s
      exact ih _ _ s2 p2 (fun hp => by have := h0 hp; omega) (by omega) hr

/-- Claim C15 fails as stated.  Two calls of `audio_buffer` in a row from the
initial state hand out A and then B: both buffers are FILLING. -/
theorem two_filling_counterexample :
    (run_ops [.audio_buffer, .audio_buffer] init_state).map
        (fun s => (s.abufst, s.bbufst)) = some (.FILLING, .FILLING)
    ∧ ¬ ∀ (ops : List Op) (s : AudioState),
        run_ops ops init_state = some s → filling_count s ≤ 1 := by
  refine ⟨by decide, ?_⟩
  intro h
  have h2 := h [.audio_buffer, .audio_buffer] _ rfl
  revert h2
  decide

/-- Claim C15, amended.  In every state reached from the initial state by the
operations `audio_buffer`, `audio_buffer_filled`, `snd_process_a` and
`snd_process_b` in any order in which `audio_buffer` is not called again
before the buffer it handed out has been marked filled (the pairing made by
`audio_poll`), at most one sample buffer is FILLING. -/
theorem at_most_one_filling (ops : List Op) (s : AudioState) (p : Bool)
    (h : run_polled ops (init_state, false) = some (s, p)) :
    filling_count s ≤ 1 :=
  (polled_invariant ops init_state false s p (fun _ => rfl) (by decide) h).2

/-- Instance of amended C15. -/
theorem at_most_one_filling_witness :
    run_polled [.audio_buffer, .audio_buffer_filled, .audio_buffer] (init_state, false)
        = some ((audio_buffer (audio_buffer_filled (audio_buffer init_state).1)).1, true)
    ∧ filling_count (audio_buffer (audio_buffer_filled (audio_buffer init_state).1)).1 ≤ 1 :=
  ⟨rfl, at_most_one_filling [.audio_buffer, .audio_buffer_filled, .audio_buffer] _ true rfl⟩

theorem run_ops_append (l1 l2 : List Op) :
    ∀ s, run_ops (l1 ++ l2) s = (run_ops l1 s).bind (run_ops l2) := by
  induction l1 with
  | nil => intro s; rfl
  | cons op ops ih =>
    intro s
    show run_ops (op :: (ops ++ l2)) s = _
    simp only [run_ops]
    cases step op s with
    | none => rfl
    | some s1 => exact ih s1

/-- Jobs that stay inside the selected buffer change neither the selector nor
a buffer state. -/
theorem run_jobs_inside (jobs : List Op) :
    ∀ (s : AudioState) (c : Nat), (∀ op ∈ jobs, is_job op) → c + jobs.length < 8 →
      s.sbufpos = 1024 * c →
      ∃ s2, run_ops jobs s = some s2
        ∧ s2.sbufpos = 1024 * (c + jobs.length) ∧ s2.sbufsel = s.sbufsel
        ∧ s2.abufst = s.abufst ∧ s2.bbufst = s.bbufst
        ∧ s2.running = s.running ∧ s2.hw = s.hw := by
  induction jobs with
  | nil =>
    intro s c _ _ hp
    exact ⟨s, rfl, by rw [hp]; rfl, rfl, rfl, rfl, rfl, rfl⟩
  | cons op ops ih =>
    intro s c hall hc hp
    simp only [List.length_cons] at hc
    obtain ⟨s1, h1, hr, hh, _, _, _, hstay⟩ := job_step s op (hall op (List.mem_cons_self _ _))
    obtain ⟨hs, hpos, ha, hb⟩ := hstay (by rw [hp]; omega)
    obtain ⟨s2, h2, hp2, hs2, ha2, hb2, hr2, hh2⟩ := ih s1 (c + 1)
      (fun o ho => hall o (List.mem_cons_of_mem _ ho)) (by omega) (by rw [hpos, hp]; omega)
    refine ⟨s2, ?_, ?_, ?_, ?_, ?_, ?_, ?_⟩
    · simp only [run_ops, h1]; exact h2
    · rw [hp2]; simp only [List.length_cons]; congr 1; omega
    · rw [hs2, hs]
    · rw [ha2, ha]
    · rw [hb2, hb]
    · rw [hr2, hr]
    · rw [hh2, hh]

/-- Eight jobs from cursor 0 exhaust the selected buffer: the selector flips,
the cursor is back at 0, the exhausted buffer is STALE whatever it was, and
the other buffer keeps its state. -/
theorem run_eight_jobs (jobs : List Op) (s : AudioState) (hall : ∀ op ∈ jobs, is_job op)
    (hlen : jobs.length = 8) (hp : s.sbufpos = 0) :
    ∃ s2, run_ops jobs s = some s2
      ∧ s2.sbufpos = 0 ∧ s2.sbufsel = s.sbufsel.flip
      ∧ buf_state s2 s.sbufsel = .STALE
      ∧ buf_state s2 s.sbufsel.flip = buf_state s s.sbufsel.flip
      ∧ s2.running = s.running ∧ s2.hw = s.hw := by
  obtain ⟨front, last, rfl⟩ : ∃ front last, jobs = front ++ [last] := by
    have hne : jobs ≠ [] := by intro h; rw [h] at hlen; simp at hlen
    exact ⟨jobs.dropLast, jobs.getLast hne, (List.dropLast_append_getLast hne).symm⟩
  have hfl : front.length = 7 := by
    simp only [List.length_append, List.length_singleton] at hlen; omega
  obtain ⟨s1, h1, hp1, hs1, ha1, hb1, hr1, hh1⟩ := run_jobs_inside front s 0
    (fun o ho => hall o (List.mem_append_left _ ho)) (by omega) (by rw [hp])
  obtain ⟨s2, h2, hr2, hh2, _, _, hflip, _⟩ := job_step s1 last
    (hall last (List.mem_append_right _ (List.mem_singleton_self _)))
  obtain ⟨hs2, hp2, hst, hoth⟩ := hflip (by rw [hp1, hfl])
  refine ⟨s2, ?_, hp2, by rw [hs2, hs1], ?_, ?_, by rw [hr2, hr1], by rw [hh2, hh1]⟩
  · rw [run_ops_append, h1]
    simp only [Option.bind_eq_bind, Option.some_bind, run_ops, h2]
  · rw [← hs1]; exact hst
  · rw [← hs1, hoth]
    cases hsel : s1.sbufsel <;> simp only [bufselect.flip, buf_state, ha1, hb1]

theorem run_ops_cons (op : Op) (ops : List Op) (s : AudioState) :
    run_ops (op :: ops) s = (step op s).bind (run_ops ops) := by
  simp only [run_ops]
  cases step op s <;> rfl

theorem start_if_ready_frame (s : AudioState) :
    (start_if_ready s).sbufsel = s.sbufsel ∧ (start_if_ready s).sbufpos = s.sbufpos
    ∧ (start_if_ready s).enc = s.enc
    ∧ (start_if_ready s).wire_buf_a = s.wire_buf_a
    ∧ (start_if_ready s).wire_buf_b = s.wire_buf_b
    ∧ (start_if_ready s).sample_buf_a = s.sample_buf_a
    ∧ (start_if_ready s).sample_buf_b = s.sample_buf_b := by
  unfold start_if_ready
  split <;> exact ⟨rfl, rfl, rfl, rfl, rfl, rfl, rfl⟩

/-- The fields `audio_buffer` leaves alone. -/
theorem audio_buffer_frame (s : AudioState) :
    (audio_buffer s).1.sbufsel = s.sbufsel ∧ (audio_buffer s).1.sbufpos = s.sbufpos
    ∧ (audio_buffer s).1.enc = s.enc
    ∧ (audio_buffer s).1.wire_buf_a = s.wire_buf_a
    ∧ (audio_buffer s).1.wire_buf_b = s.wire_buf_b
    ∧ (audio_buffer s).1.sample_buf_a = s.sample_buf_a
    ∧ (audio_buffer s).1.sample_buf_b = s.sample_buf_b := by
  have h := start_if_ready_frame s
  unfold audio_buffer
  simp only
  split
  · exact h
  · split
    · exact h
    · exact h

/-- The fields `audio_buffer_filled` leaves alone. -/
theorem audio_buffer_filled_frame (s : AudioState) :
    (audio_buffer_filled s).sbufsel = s.sbufsel ∧ (audio_buffer_filled s).sbufpos = s.sbufpos
    ∧ (audio_buffer_filled s).enc = s.enc
    ∧ (audio_buffer_filled s).wire_buf_a = s.wire_buf_a
    ∧ (audio_buffer_filled s).wire_buf_b = s.wire_buf_b
    ∧ (audio_buffer_filled s).sample_buf_a = s.sample_buf_a
    ∧ (audio_buffer_filled s).sample_buf_b = s.sample_buf_b
    ∧ (audio_buffer_filled s).running = s.running
    ∧ (audio_buffer_filled s).hw = s.hw := by
  unfold audio_buffer_filled
  split
  · exact ⟨rfl, rfl, rfl, rfl, rfl, rfl, rfl, rfl, rfl⟩
  · split <;> exact ⟨rfl, rfl, rfl, rfl, rfl, rfl, rfl, rfl, rfl⟩

theorem buf_state_audio_buffer (s : AudioState) (b : bufselect) :
    buf_state (audio_buffer s).1 b = buf_state s b
    ∨ (buf_state s b = .STALE ∧ buf_state (audio_buffer s).1 b = .FILLING) := by
  cases b
  · show (audio_buffer s).1.abufst = s.abufst
      ∨ (s.abufst = .STALE ∧ (audio_buffer s).1.abufst = .FILLING)
    rw [audio_buffer_abufst]
    by_cases h : s.abufst = .STALE
    · rw [if_pos h]; exact Or.inr ⟨h, rfl⟩
    · rw [if_neg h]; exact Or.inl rfl
  · show (audio_buffer s).1.bbufst = s.bbufst
      ∨ (s.bbufst = .STALE ∧ (audio_buffer s).1.bbufst = .FILLING)
    rw [audio_buffer_bbufst]
    by_cases h : s.abufst = .STALE
    · rw [if_pos h]; exact Or.inl rfl
    · rw [if_neg h]
      by_cases h2 : s.bbufst = .STALE
      · rw [if_pos h2]; exact Or.inr ⟨h2, rfl⟩
      · rw [if_neg h2]; exact Or.inl rfl

theorem buf_state_audio_buffer_filled (s : AudioState) (b : bufselect) :
    buf_state (audio_buffer_filled s) b = buf_state s b
    ∨ (buf_state s b = .FILLING ∧ buf_state (audio_buffer_filled s) b = .READY) := by
  cases b
  · show (audio_buffer_filled s).abufst = s.abufst
      ∨ (s.abufst = .FILLING ∧ (audio_buffer_filled s).abufst = .READY)
    rw [audio_buffer_filled_abufst]
    by_cases h : s.abufst = .FILLING
    · rw [if_pos h]; exact Or.inr ⟨h, rfl⟩
    · rw [if_neg h]; exact Or.inl rfl
  · show (audio_buffer_filled s).bbufst = s.bbufst
      ∨ (s.bbufst = .FILLING ∧ (audio_buffer_filled s).bbufst = .READY)
    rw [audio_buffer_filled_bbufst]
    by_cases h : s.abufst = .FILLING
    · rw [if_pos h]; exact Or.inl rfl
    · rw [if_neg h]
      by_cases h2 : s.bbufst = .FILLING
      · rw [if_pos h2]; exact Or.inr ⟨h2, rfl⟩
      · rw [if_neg h2]; exact Or.inl rfl

theorem buf_state_job (s s2 : AudioState) (op : Op) (hop : is_job op)
    (h : step op s = some s2) (b : bufselect) :
    buf_state s2 b = buf_state s b ∨ buf_state s2 b = .STALE := by
  obtain ⟨s3, h3, _, _, _, _, hflip, hstay⟩ := job_step s op hop
  rw [h] at h3
  cases Option.some.inj h3
  by_cases hc : 8192 ≤ (s.sbufpos + 1024) % 65536
  · obtain ⟨_, _, hst, hoth⟩ := hflip hc
    cases hsel : s.sbufsel <;> rw [hsel] at hst hoth <;> cases b
    · exact Or.inr hst
    · exact Or.inl hoth
    · exact Or.inl hoth
    · exact Or.inr hst
  · obtain ⟨_, _, ha, hb⟩ := hstay hc
    cases b
    · exact Or.inl ha
    · exact Or.inl hb

/-- Claim C16, amended.  For every state and operation, a change of a sample
buffer's state is STALE to FILLING (made by `audio_buffer`), FILLING to READY
(made by `audio_buffer_filled`), or a change to STALE made by an encode job
that exhausts the buffer, whatever state the buffer was in; no buffer goes
directly from STALE to READY or from READY to FILLING. -/
theorem buffer_transitions (s s2 : AudioState) (op : Op) (h : step op s = some s2)
    (b : bufselect) :
    (buf_state s2 b = buf_state s b
      ∨ (op = .audio_buffer ∧ buf_state s b = .STALE ∧ buf_state s2 b = .FILLING)
      ∨ (op = .audio_buffer_filled ∧ buf_state s b = .FILLING ∧ buf_state s2 b = .READY)
      ∨ (is_job op ∧ buf_state s2 b = .STALE))
    ∧ ¬ (buf_state s b = .STALE ∧ buf_state s2 b = .READY)
    ∧ ¬ (buf_state s b = .READY ∧ buf_state s2 b = .FILLING) := by
  have main : buf_state s2 b = buf_state s b
      ∨ (op = .audio_buffer ∧ buf_state s b = .STALE ∧ buf_state s2 b = .FILLING)
      ∨ (op = .audio_buffer_filled ∧ buf_state s b = .FILLING ∧ buf_state s2 b = .READY)
      ∨ (is_job op ∧ buf_state s2 b = .STALE) := by
    cases op with
    | audio_buffer =>
      cases Option.some.inj h
      rcases buf_state_audio_buffer s b with h1 | h1
      · exact Or.inl h1
      · exact Or.inr (Or.inl ⟨rfl, h1⟩)
    | audio_buffer_filled =>
      cases Option.some.inj h
      rcases buf_state_audio_buffer_filled s b with h1 | h1
      · exact Or.inl h1
      · exact Or.inr (Or.inr (Or.inl ⟨rfl, h1⟩))
    | snd_process_a =>
      rcases buf_state_job s s2 _ (Or.inl rfl) h b with h1 | h1
      · exact Or.inl h1
      · exact Or.inr (Or.inr (Or.inr ⟨Or.inl rfl, h1⟩))
    | snd_process_b =>
      rcases buf_state_job s s2 _ (Or.inr rfl) h b with h1 | h1
      · exact Or.inl h1
      · exact Or.inr (Or.inr (Or.inr ⟨Or.inr rfl, h1⟩))
  refine ⟨main, ?_, ?_⟩
  · rintro ⟨h1, h2⟩
    rcases main with m | ⟨_, _, m⟩ | ⟨_, m, _⟩ | ⟨_, m⟩
    · rw [m, h1] at h2; cases h2
    · rw [m] at h2; cases h2
    · rw [m] at h1; cases h1
    · rw [m] at h2; cases h2
  · rintro ⟨h1, h2⟩
    rcases main with m | ⟨_, m, _⟩ | ⟨_, _, m⟩ | ⟨_, m⟩
    · rw [m, h1] at h2; cases h2
    · rw [m] at h1; cases h1
    · rw [m] at h2; cases h2
    · rw [m] at h2; cases h2

/-- Instance of amended C16: the first call of `audio_buffer`. -/
theorem buffer_transitions_witness :
    step .audio_buffer init_state = some (audio_buffer init_state).1
    ∧ (buf_state (audio_buffer init_state).1 .A = buf_state init_state .A
      ∨ (Op.audio_buffer = .audio_buffer ∧ buf_state init_state .A = .STALE
          ∧ buf_state (audio_buffer init_state).1 .A = .FILLING)
      ∨ (Op.audio_buffer = .audio_buffer_filled ∧ buf_state init_state .A = .FILLING
          ∧ buf_state (audio_buffer init_state).1 .A = .READY)
      ∨ (is_job .audio_buffer ∧ buf_state (audio_buffer init_state).1 .A = .STALE))
    ∧ ¬ (buf_state init_state .A = .STALE ∧ buf_state (audio_buffer init_state).1 .A = .READY)
    ∧ ¬ (buf_state init_state .A = .READY
          ∧ buf_state (audio_buffer init_state).1 .A = .FILLING) :=
  ⟨rfl, buffer_transitions init_state (audio_buffer init_state).1 .audio_buffer rfl .A⟩

/-- Claim C16 fails as stated.  After one call of `audio_buffer` from the
initial state buffer A is FILLING; the eighth encode job then exhausts A and
sets it to STALE, a change from FILLING to STALE. -/
theorem filling_to_stale_counterexample :
    (∃ s s2, run_ops (.audio_buffer :: List.replicate 7 .snd_process_a) init_state = some s
      ∧ step .snd_process_a s = some s2
      ∧ buf_state s .A = .FILLING ∧ buf_state s2 .A = .STALE)
    ∧ ¬ ∀ (ops : List Op) (s s2 : AudioState) (op : Op) (b : bufselect),
        run_ops ops init_state = some s → step op s = some s2 →
        buf_state s2 b = buf_state s b
        ∨ (buf_state s b = .STALE ∧ buf_state s2 b = .FILLING)
        ∨ (buf_state s b = .FILLING ∧ buf_state s2 b = .READY)
        ∨ (buf_state s b = .READY ∧ buf_state s2 b = .STALE) := by
  have hjobs : ∀ op ∈ List.replicate 7 Op.snd_process_a, is_job op := by
    intro op hop
    exact Or.inl (List.eq_of_mem_replicate hop)
  obtain ⟨s, hs, hpos, hsel, ha, _, _, _⟩ := run_jobs_inside (List.replicate 7 .snd_process_a)
    (audio_buffer init_state).1 0 hjobs (by simp) rfl
  obtain ⟨s2, h2, _, _, _, _, hflip, _⟩ := job_step s .snd_process_a (Or.inl rfl)
  have hlen : (List.replicate 7 Op.snd_process_a).length = 7 := by simp
  obtain ⟨_, _, hst, _⟩ := hflip (by rw [hpos, hlen])
  have hselA : s.sbufsel = .A := by rw [hsel]; rfl
  rw [hselA] at hst
  have hrun : run_ops (.audio_buffer :: List.replicate 7 .snd_process_a) init_state = some s := by
    have hstep : step .audio_buffer init_state = some (audio_buffer init_state).1 := rfl
    rw [run_ops_cons, hstep, Option.some_bind]
    exact hs
  have hfill : buf_state s .A = .FILLING := by
    show s.abufst = .FILLING
    rw [ha]; rfl
  refine ⟨⟨s, s2, hrun, h2, hfill, hst⟩, ?_⟩
  intro hall
  rcases hall _ s s2 .snd_process_a .A hrun h2 with m | ⟨m, _⟩ | ⟨_, m⟩ | ⟨m, _⟩
  · rw [hst, hfill] at m; cases m
  · rw [hfill] at m; cases m
  · rw [hst] at m; cases m
  · rw [hfill] at m; cases m

theorem active_state_eq (s : AudioState) : active_state s = buf_state s s.sbufsel := by
  unfold active_state buf_state
  cases s.sbufsel <;> rfl

theorem other_state_eq (s : AudioState) : other_state s = buf_state s s.sbufsel.flip := by
  unfold other_state buf_state bufselect.flip
  cases s.sbufsel <;> rfl

/-- Claim C17 fails as stated.  The started state is reached from the initial
state; from it eight jobs exhaust A, `audio_buffer` hands A out for filling,
and eight more jobs exhaust B: the selector designates A again while A is
still FILLING. -/
theorem active_filling_counterexample :
    run_ops [.audio_buffer, .audio_buffer_filled, .audio_buffer, .audio_buffer_filled,
        .audio_buffer] init_state = some started_state
    ∧ (∃ s, run_ops (List.replicate 8 .snd_process_a ++ [.audio_buffer]
          ++ List.replicate 8 .snd_process_b) started_state = some s
        ∧ s.sbufsel = .A ∧ active_state s = .FILLING)
    ∧ ¬ ∀ (s0 s : AudioState) (ops : List Op),
        s0.abufst = .READY → s0.bbufst = .READY → s0.sbufsel = .A → s0.sbufpos = 0 →
        run_ops ops s0 = some s → active_state s ≠ .FILLING := by
  have hja : ∀ op ∈ List.replicate 8 Op.snd_process_a, is_job op :=
    fun op hop => Or.inl (List.eq_of_mem_replicate hop)
  have hjb : ∀ op ∈ List.replicate 8 Op.snd_process_b, is_job op :=
    fun op hop => Or.inr (List.eq_of_mem_replicate hop)
  obtain ⟨s1, h1, hp1, hs1, hst1, _, _, _⟩ := run_eight_jobs _ started_state hja (by simp) rfl
  have hs1B : s1.sbufsel = .B := hs1
  have ha1 : s1.abufst = .STALE := hst1
  obtain ⟨f1, f2, _⟩ := audio_buffer_frame s1
  have ha2 : (audio_buffer s1).1.abufst = .FILLING := by
    rw [audio_buffer_abufst, if_pos ha1]
  obtain ⟨s3, h3, hp3, hs3, hst3, hoth3, _, _⟩ := run_eight_jobs _ (audio_buffer s1).1 hjb
    (by simp) (by rw [f2, hp1])
  rw [f1, hs1B] at hs3 hoth3
  have hrun : run_ops (List.replicate 8 .snd_process_a ++ [.audio_buffer]
      ++ List.replicate 8 .snd_process_b) started_state = some s3 := by
    rw [run_ops_append, run_ops_append, h1]
    simp only [Option.bind_eq_bind, Option.some_bind]
    have hstep : run_ops [.audio_buffer] s1 = some (audio_buffer s1).1 := rfl
    rw [hstep, Option.some_bind]
    exact h3
  have hact : active_state s3 = .FILLING := by
    rw [active_state_eq, hs3]
    show buf_state s3 .A = .FILLING
    have : buf_state s3 .A = buf_state (audio_buffer s1).1 .A := hoth3
    rw [this]
    exact ha2
  refine ⟨rfl, ⟨s3, hrun, hs3, hact⟩, ?_⟩
  intro hall
  exact hall started_state s3 _ rfl rfl rfl rfl hrun hact

theorem start_if_ready_hw (s : AudioState) :
    (start_if_ready s).hw = s.hw ++
        (if s.running = false ∧ s.abufst = .READY ∧ s.bbufst = .READY
          then [HwEvent.dma_channel_start SOUND_DMA_CHA] else [])
    ∧ (start_if_ready s).running =
        (if s.running = false ∧ s.abufst = .READY ∧ s.bbufst = .READY then true
          else s.running) := by
  unfold start_if_ready
  by_cases h : s.running = false ∧ s.abufst = .READY ∧ s.bbufst = .READY
  · rw [if_pos h, if_pos h, if_pos h]
    exact ⟨rfl, rfl⟩
  · rw [if_neg h, if_neg h, if_neg h]
    exact ⟨(List.append_nil _).symm, rfl⟩

theorem audio_buffer_hw (s : AudioState) :
    (audio_buffer s).1.hw = (start_if_ready s).hw
    ∧ (audio_buffer s).1.running = (start_if_ready s).running := by
  unfold audio_buffer
  simp only
  split
  · exact ⟨rfl, rfl⟩
  · split <;> exact ⟨rfl, rfl⟩

/-- The call of `audio_buffer` starts channel A exactly when `running` is
false and both buffers are READY, and then sets `running`. -/
theorem audio_buffer_start (s : AudioState) :
    (audio_buffer s).1.hw = s.hw ++
        (if s.running = false ∧ s.abufst = .READY ∧ s.bbufst = .READY
          then [HwEvent.dma_channel_start SOUND_DMA_CHA] else [])
    ∧ (audio_buffer s).1.running =
        (if s.running = false ∧ s.abufst = .READY ∧ s.bbufst = .READY then true
          else s.running) := by
  rw [(audio_buffer_hw s).1, (audio_buffer_hw s).2]
  exact start_if_ready_hw s

/-- Only `audio_buffer` touches `running` and the hardware, and `running` never drops. -/
theorem step_running (s s2 : AudioState) (op : Op) (h : step op s = some s2) :
    (s.running = true → s2.running = true)
    ∧ (op ≠ .audio_buffer → s2.hw = s.hw ∧ s2.running = s.running) := by
  cases op with
  | audio_buffer =>
    cases Option.some.inj h
    refine ⟨?_, fun hn => absurd rfl hn⟩
    intro hr
    rw [(audio_buffer_start s).2]
    split
    · rfl
    · exact hr
  | audio_buffer_filled =>
    cases Option.some.inj h
    obtain ⟨_, _, _, _, _, _, _, hr, hh⟩ := audio_buffer_filled_frame s
    exact ⟨fun h1 => by rw [hr]; exact h1, fun _ => ⟨hh, hr⟩⟩
  | snd_process_a =>
    obtain ⟨s3, h3, hr, hh, _⟩ := job_step s .snd_process_a (Or.inl rfl)
    rw [h] at h3
    cases Option.some.inj h3
    exact ⟨fun h1 => by rw [hr]; exact h1, fun _ => ⟨hh, hr⟩⟩
  | snd_process_b =>
    obtain ⟨s3, h3, hr, hh, _⟩ := job_step s .snd_process_b (Or.inr rfl)
    rw [h] at h3
    cases Option.some.inj h3
    exact ⟨fun h1 => by rw [hr]; exact h1, fun _ => ⟨hh, hr⟩⟩

theorem step_hw_inv (s s2 : AudioState) (op : Op) (h : step op s = some s2)
    (hi : s.hw = if s.running then [HwEvent.dma_channel_start SOUND_DMA_CHA] else []) :
    s2.hw = if s2.running then [HwEvent.dma_channel_start SOUND_DMA_CHA] else [] := by
  by_cases hop : op = .audio_buffer
  · subst hop
    cases Option.some.inj h
    obtain ⟨h1, h2⟩ := audio_buffer_start s
    rw [h1, h2]
    by_cases hc : s.running = false ∧ s.abufst = .READY ∧ s.bbufst = .READY
    · rw [if_pos hc, if_pos hc, hi, hc.1]
      rfl
    · rw [if_neg hc, if_neg hc, List.append_nil]
      exact hi
  · obtain ⟨h1, h2⟩ := (step_running s s2 op h).2 hop
    rw [h1, h2]
    exact hi

theorem run_hw_inv (ops : List Op) :
    ∀ (s s2 : AudioState), run_ops ops s = some s2 →
      (s.hw = if s.running then [HwEvent.dma_channel_start SOUND_DMA_CHA] else []) →
      s2.hw = if s2.running then [HwEvent.dma_channel_start SOUND_DMA_CHA] else [] := by
  induction ops with
  | nil =>
    intro s s2 h hi
    cases Option.some.inj h
    exact hi
  | cons op ops ih =>
    intro s s2 h hi
    rw [run_ops_cons] at h
    cases hst : step op s with
    | none => rw [hst] at h; cases h
    | some s1 =>
      rw [hst, Option.some_bind] at h
      exact ih s1 s2 h (step_hw_inv s s1 op hst hi)

theorem run_history (ops : List Op) :
    ∀ (s s2 : AudioState), run_ops ops s = some s2 → s.running = false → s2.running = true →
      ∃ pre post sm, ops = pre ++ post ∧ run_ops pre s = some sm
        ∧ sm.abufst = .READY ∧ sm.bbufst = .READY := by
  induction ops with
  | nil =>
    intro s s2 h h0 h1
    cases Option.some.inj h
    rw [h0] at h1
    cases h1
  | cons op ops ih =>
    intro s s2 h h0 h1
    rw [run_ops_cons] at h
    cases hst : step op s with
    | none => rw [hst] at h; cases h
    | some s1 =>
      rw [hst, Option.some_bind] at h
      by_cases hr : s1.running = true
      · by_cases hop : op = .audio_buffer
        · subst hop
          cases Option.some.inj hst
          rw [(audio_buffer_start s).2] at hr
          by_cases hc : s.running = false ∧ s.abufst = .READY ∧ s.bbufst = .READY
          · exact ⟨[], _, s, rfl, rfl, hc.2.1, hc.2.2⟩
          · rw [if_neg hc, h0] at hr
            cases hr
        · have := ((step_running s s1 op hst).2 hop).2
          rw [this, h0] at hr
          cases hr
      · have hr0 : s1.running = false := by
          cases hv : s1.running
          · rfl
          · exact absurd hv hr
        obtain ⟨pre, post, sm, he, hrun, ha, hb⟩ := ih s1 s2 h hr0 h1
        refine ⟨op :: pre, post, sm, by rw [he]; rfl, ?_, ha, hb⟩
        rw [run_ops_cons, hst, Option.some_bind]
        exact hrun

/-- Claim C18 (transmission starts only on two READY buffers).  A call of
`audio_buffer` starts a channel exactly when `running` is false and both
buffers are READY at entry; the channel is `SOUND_DMA_CHA`; that call sets
`running`; no operation clears `running`, and no other operation touches the
hardware.  So in every state reached from the initial state channel A has
been started once if `running` holds and never otherwise, channel B is never
started, and `running` implies that an earlier state of the run had both
buffers READY. -/
theorem transmission_start :
    (∀ s : AudioState,
      (audio_buffer s).1.hw = s.hw ++
          (if s.running = false ∧ s.abufst = .READY ∧ s.bbufst = .READY
            then [HwEvent.dma_channel_start SOUND_DMA_CHA] else [])
      ∧ (audio_buffer s).1.running =
          (if s.running = false ∧ s.abufst = .READY ∧ s.bbufst = .READY then true
            else s.running))
    ∧ (∀ (s s2 : AudioState) (op : Op), step op s = some s2 →
      (s.running = true → s2.running = true)
      ∧ (op ≠ .audio_buffer → s2.hw = s.hw ∧ s2.running = s.running))
    ∧ (∀ (ops : List Op) (s : AudioState), run_ops ops init_state = some s →
      (s.hw = if s.running then [HwEvent.dma_channel_start SOUND_DMA_CHA] else [])
      ∧ s.hw.count (HwEvent.dma_channel_start SOUND_DMA_CHA) ≤ 1
      ∧ HwEvent.dma_channel_start SOUND_DMA_CHB ∉ s.hw
      ∧ (s.running = true →
          ∃ pre post sm, ops = pre ++ post ∧ run_ops pre init_state = some sm
            ∧ sm.abufst = .READY ∧ sm.bbufst = .READY)) := by
  refine ⟨audio_buffer_start, fun s s2 op h => step_running s s2 op h, ?_⟩
  intro ops s h
  have hi := run_hw_inv ops init_state s h rfl
  refine ⟨hi, ?_, ?_, fun hr => run_history ops init_state s h rfl hr⟩
  · rw [hi]
    cases s.running <;> decide
  · rw [hi]
    cases s.running <;> decide

/-- Claim C19 (write set of the fill side).  The functions `audio_buffer` and
`audio_buffer_filled` leave the counter, the flag, the selector, the cursor
and both wire buffers unchanged and never move a buffer to STALE; an
operation that changes one of those fields or moves a buffer to STALE is one
of the encode jobs. -/
theorem fill_side_write_set :
    (∀ s : AudioState,
      (audio_buffer s).1.enc = s.enc ∧ (audio_buffer s).1.sbufsel = s.sbufsel
      ∧ (audio_buffer s).1.sbufpos = s.sbufpos
      ∧ (audio_buffer s).1.wire_buf_a = s.wire_buf_a
      ∧ (audio_buffer s).1.wire_buf_b = s.wire_buf_b
      ∧ ∀ b, buf_state (audio_buffer s).1 b = .STALE → buf_state s b = .STALE)
    ∧ (∀ s : AudioState,
      (audio_buffer_filled s).enc = s.enc ∧ (audio_buffer_filled s).sbufsel = s.sbufsel
      ∧ (audio_buffer_filled s).sbufpos = s.sbufpos
      ∧ (audio_buffer_filled s).wire_buf_a = s.wire_buf_a
      ∧ (audio_buffer_filled s).wire_buf_b = s.wire_buf_b
      ∧ ∀ b, buf_state (audio_buffer_filled s) b = .STALE → buf_state s b = .STALE)
    ∧ (∀ (s s2 : AudioState) (op : Op), step op s = some s2 →
      (s2.enc ≠ s.enc ∨ s2.sbufsel ≠ s.sbufsel ∨ s2.sbufpos ≠ s.sbufpos
        ∨ s2.wire_buf_a ≠ s.wire_buf_a ∨ s2.wire_buf_b ≠ s.wire_buf_b
        ∨ ∃ b, buf_state s2 b = .STALE ∧ buf_state s b ≠ .STALE) →
      is_job op) := by
  have h1 : ∀ s : AudioState,
      (audio_buffer s).1.enc = s.enc ∧ (audio_buffer s).1.sbufsel = s.sbufsel
      ∧ (audio_buffer s).1.sbufpos = s.sbufpos
      ∧ (audio_buffer s).1.wire_buf_a = s.wire_buf_a
      ∧ (audio_buffer s).1.wire_buf_b = s.wire_buf_b
      ∧ ∀ b, buf_state (audio_buffer s).1 b = .STALE → buf_state s b = .STALE := by
    intro s
    obtain ⟨a, b, c, d, e, _, _⟩ := audio_buffer_frame s
    refine ⟨c, a, b, d, e, ?_⟩
    intro bb hb
    rcases buf_state_audio_buffer s bb with m | ⟨_, m⟩
    · rw [← m]; exact hb
    · rw [m] at hb; cases hb
  have h2 : ∀ s : AudioState,
      (audio_buffer_filled s).enc = s.enc ∧ (audio_buffer_filled s).sbufsel = s.sbufsel
      ∧ (audio_buffer_filled s).sbufpos = s.sbufpos
      ∧ (audio_buffer_filled s).wire_buf_a = s.wire_buf_a
      ∧ (audio_buffer_filled s).wire_buf_b = s.wire_buf_b
      ∧ ∀ b, buf_state (audio_buffer_filled s) b = .STALE → buf_state s b = .STALE := by
    intro s
    obtain ⟨a, b, c, d, e, _, _, _, _⟩ := audio_buffer_filled_frame s
    refine ⟨c, a, b, d, e, ?_⟩
    intro bb hb
    rcases buf_state_audio_buffer_filled s bb with m | ⟨_, m⟩
    · rw [← m]; exact hb
    · rw [m] at hb; cases hb
  refine ⟨h1, h2, ?_⟩
  intro s s2 op h hch
  cases op with
  | audio_buffer =>
    cases Option.some.inj h
    obtain ⟨a, b, c, d, e, f⟩ := h1 s
    rcases hch with x | x | x | x | x | ⟨bb, x, y⟩
    · exact absurd a x
    · exact absurd b x
    · exact absurd c x
    · exact absurd d x
    · exact absurd e x
    · exact absurd (f bb x) y
  | audio_buffer_filled =>
    cases Option.some.inj h
    obtain ⟨a, b, c, d, e, f⟩ := h2 s
    rcases hch with x | x | x | x | x | ⟨bb, x, y⟩
    · exact absurd a x
    · exact absurd b x
    · exact absurd c x
    · exact absurd d x
    · exact absurd e x
    · exact absurd (f bb x) y
  | snd_process_a => exact Or.inl rfl
  | snd_process_b => exact Or.inr rfl

/-- Claim C20 (stop then start), against the specification's description of
`audio_stop` and `audio_play`. -/
theorem stop_then_start (s : AudioState) :
    (audio_stop s).abufst = .STALE ∧ (audio_stop s).bbufst = .STALE
    ∧ (audio_play (audio_stop s)).enc = { sfcnt := 0, invert := 0 }
    ∧ (audio_play (audio_stop s)).sbufsel = .A
    ∧ (audio_play (audio_stop s)).sbufpos = 0
    ∧ (audio_play (audio_stop s)).enc = (audio_play init_state).enc
    ∧ (audio_play (audio_stop s)).sbufsel = (audio_play init_state).sbufsel
    ∧ (audio_play (audio_stop s)).sbufpos = (audio_play init_state).sbufpos :=
  ⟨rfl, rfl, rfl, rfl, rfl, rfl, rfl, rfl⟩

/-! ## Properties of the tables and of the line code -/

set_option maxRecDepth 1000000 in
theorem biphase_first_half : ∀ v < 256, halfBit (biphase v) 0 = true := by decide

set_option maxRecDepth 1000000 in
theorem biphase_cell_start : ∀ v < 256, ∀ k < 8, 1 ≤ k →
    halfBit (biphase v) (2 * k) ≠ halfBit (biphase v) (2 * k - 1) := by decide

set_option maxRecDepth 1000000 in
theorem biphase_last_half : ∀ v < 256,
    halfBit (biphase v) 15 = decide (ones8 v % 2 = 1) := by decide

set_option maxRecDepth 1000000 in
theorem snd_parity_ones8 : ∀ v < 256, snd_parity v = ones8 v := by decide

/-- Claim C24 (the biphase table is the biphase-mark code of its index).  For
every index `v` below 256, reading `biphase[v]` as 16 half-bits MSB first: the
first half-bit is 1; the two half-bits of cell `k` differ exactly when bit `k`
of `v` is set; every cell after the first starts with the opposite of the
half-bit before it; and the last half-bit is the parity of the number of
one-bits of `v`. -/
theorem biphase_table_is_bmc (v : Nat) (hv : v < 256) :
    halfBit (biphase v) 0 = true
    ∧ (∀ k < 8, (halfBit (biphase v) (2 * k) != halfBit (biphase v) (2 * k + 1)) = v.testBit k)
    ∧ (∀ k, 1 ≤ k → k < 8 → halfBit (biphase v) (2 * k) ≠ halfBit (biphase v) (2 * k - 1))
    ∧ halfBit (biphase v) 15 = decide (ones8 v % 2 = 1) :=
  ⟨biphase_first_half v hv, fun k hk => cellOf_biphase v hv k hk,
    fun k h1 h8 => biphase_cell_start v hv k h8 h1, biphase_last_half v hv⟩

/-- Instance of C24 at the index `0xA5`. -/
theorem biphase_table_is_bmc_witness :
    (0xA5 < 256)
    ∧ halfBit (biphase 0xA5) 0 = true
    ∧ (∀ k < 8, (halfBit (biphase 0xA5) (2 * k) != halfBit (biphase 0xA5) (2 * k + 1))
        = (0xA5 : Nat).testBit k)
    ∧ (∀ k, 1 ≤ k → k < 8 →
        halfBit (biphase 0xA5) (2 * k) ≠ halfBit (biphase 0xA5) (2 * k - 1))
    ∧ halfBit (biphase 0xA5) 15 = decide (ones8 0xA5 % 2 = 1) :=
  ⟨by decide, biphase_table_is_bmc 0xA5 (by decide)⟩

theorem parity_index_eq (b0 b1 : Nat) (h0 : b0 < 256) (h1 : b1 < 256) :
    ((sample16 b0 b1 >>> 8) ^^^ sample16 b0 b1) % 256 = b1 ^^^ b0 := by
  apply Nat.eq_of_testBit_eq
  intro i
  rw [show (256 : Nat) = 2 ^ 8 from by norm_num, Nat.testBit_mod_two_pow, Nat.testBit_xor,
    Nat.testBit_xor, Nat.testBit_shiftRight]
  have hs : sample16 b0 b1 = b0 + 2 ^ 8 * b1 := by unfold sample16; norm_num
  by_cases hi : i < 8
  · have e1 : (sample16 b0 b1).testBit (8 + i) = b1.testBit i := by
      rw [hs, Nat.add_comm b0, Nat.testBit_mul_pow_two_add b1 (show b0 < 2 ^ 8 from h0)]
      simp
    have e2 : (sample16 b0 b1).testBit i = b0.testBit i := by
      rw [hs, Nat.add_comm b0, Nat.testBit_mul_pow_two_add b1 (show b0 < 2 ^ 8 from h0)]
      simp [hi]
    simp [hi, e1, e2]
  · have e1 : b1.testBit i = false :=
      Nat.testBit_lt_two_pow (lt_of_lt_of_le h1 (by
        have : 2 ^ 8 ≤ 2 ^ i := Nat.pow_le_pow_right (by norm_num) (by omega)
        omega))
    have e2 : b0.testBit i = false :=
      Nat.testBit_lt_two_pow (lt_of_lt_of_le h0 (by
        have : 2 ^ 8 ≤ 2 ^ i := Nat.pow_le_pow_right (by norm_num) (by omega)
        omega))
    simp [hi, e1, e2]

theorem snd_parity_mod_two (b0 b1 : Nat) :
    snd_parity (((sample16 b0 b1 >>> 8) ^^^ sample16 b0 b1) % 256) % 2
      = ones16 (sample16 b0 b1) % 2 := by
  have h := parity_bit_spec b0 b1
  unfold parity_bit at h
  have h2 := decide_eq_decide.mp h
  generalize snd_parity (((sample16 b0 b1 >>> 8) ^^^ sample16 b0 b1) % 256) = x at h2 ⊢
  generalize ones16 (sample16 b0 b1) = y at h2 ⊢
  generalize (sample16 b0 b1).testBit 15 = b at h2
  cases b
  · have e1 : (if false = true then 1 else 0) = 0 := rfl
    have e2 : false.toNat = 0 := rfl
    rw [e1, e2] at h2
    omega
  · have e1 : (if true = true then 1 else 0) = 1 := rfl
    have e2 : true.toNat = 1 := rfl
    rw [e1, e2] at h2
    omega

/-- Claim C25 (the parity table is the population count).  For every index
`i` below 256, `snd_parity[i]` is the number of one-bits of `i`; and for a
sample with low byte `b0` and high byte `b1` the index computed at line 150 is
`b1 XOR b0`, whose table entry has the parity of the number of one-bits among
all 16 bits of the sample. -/
theorem parity_table_is_popcount (i b0 b1 : Nat) (hi : i < 256) (h0 : b0 < 256)
    (h1 : b1 < 256) :
    snd_parity i = ones8 i
    ∧ ((sample16 b0 b1 >>> 8) ^^^ sample16 b0 b1) % 256 = b1 ^^^ b0
    ∧ snd_parity (b1 ^^^ b0) % 2 = ones16 (sample16 b0 b1) % 2 := by
  refine ⟨snd_parity_ones8 i hi, parity_index_eq b0 b1 h0 h1, ?_⟩
  rw [← parity_index_eq b0 b1 h0 h1]
  exact snd_parity_mod_two b0 b1

/-- Instance of C25 at index `0xA5` and sample `0x9234`. -/
theorem parity_table_is_popcount_witness :
    (0xA5 < 256 ∧ 0x34 < 256 ∧ 0x92 < 256)
    ∧ snd_parity 0xA5 = ones8 0xA5
    ∧ ((sample16 0x34 0x92 >>> 8) ^^^ sample16 0x34 0x92) % 256 = 0x92 ^^^ 0x34
    ∧ snd_parity (0x92 ^^^ 0x34) % 2 = ones16 (sample16 0x34 0x92) % 2 :=
  ⟨⟨by decide, by decide, by decide⟩,
    parity_table_is_popcount 0xA5 0x34 0x92 (by decide) (by decide) (by decide)⟩

set_option maxRecDepth 1000000 in
theorem biphase_lsb : ∀ v < 256, biphase v % 2 = ones8 v % 2 := by decide

theorem preamble_lsb (sfcnt : Nat) : preamble sfcnt % 2 = 0 := by
  unfold preamble z_preamble y_preamble x_preamble
  split
  · rfl
  · split <;> rfl

theorem ones8_byte (x j : Nat) :
    ones8 ((x >>> j) % 256) =
      (x.testBit (j + 0)).toNat + (x.testBit (j + 1)).toNat + (x.testBit (j + 2)).toNat
      + (x.testBit (j + 3)).toNat + (x.testBit (j + 4)).toNat + (x.testBit (j + 5)).toNat
      + (x.testBit (j + 6)).toNat + (x.testBit (j + 7)).toNat := by
  have e : ∀ c, c < 8 → ((x >>> j) % 256).testBit c = x.testBit (j + c) := by
    intro c hc
    rw [show (256 : Nat) = 2 ^ 8 from by norm_num, Nat.testBit_mod_two_pow,
      Nat.testBit_shiftRight]
    simp [hc]
  simp only [ones8, range8, List.map, List.sum_cons, List.sum_nil]
  rw [e 0 (by norm_num), e 1 (by norm_num), e 2 (by norm_num), e 3 (by norm_num),
    e 4 (by norm_num), e 5 (by norm_num), e 6 (by norm_num), e 7 (by norm_num)]
  omega

theorem subframe_bit (b0 b1 t : Nat) (h0 : b0 < 256) (h1 : b1 < 256) (h8 : 8 ≤ t)
    (h32 : t < 32) :
    (subframe b0 b1).testBit t =
      if t < 11 then false
      else if t < 27 then (sample16 b0 b1).testBit (t - 11)
      else if t = 27 then (sample16 b0 b1).testBit 15
      else if t = 31 then parity_bit b0 b1
      else false := by
  rw [testBit_subframe b0 b1 t h0 h1]
  by_cases a : t < 11
  · have x1 : ¬ 11 ≤ t := by omega
    have x2 : ¬ t = 27 := by omega
    have x3 : ¬ t = 31 := by omega
    simp [a, x1, x2, x3]
  · by_cases b : t < 27
    · have x1 : 11 ≤ t := by omega
      have x2 : ¬ t = 27 := by omega
      have x3 : ¬ t = 31 := by omega
      simp [a, b, x1, x2, x3]
    · have hh := testBit_sample16_high b0 b1 (t - 11) h0 h1 (by omega)
      by_cases c : t = 27
      · subst c
        simp [hh]
      · by_cases d : t = 31
        · subst d
          simp [hh]
        · have x1 : 11 ≤ t := by omega
          simp [a, b, c, d, x1, hh]

theorem subframe_ones (b0 b1 : Nat) (h0 : b0 < 256) (h1 : b1 < 256) :
    ones8 ((subframe b0 b1 >>> 8) % 256) + ones8 ((subframe b0 b1 >>> 16) % 256)
      + ones8 ((subframe b0 b1 >>> 24) % 256)
      = ones16 (sample16 b0 b1) + ((sample16 b0 b1).testBit 15).toNat
        + (parity_bit b0 b1).toNat := by
  have e : ∀ t, 8 ≤ t → t < 32 → (subframe b0 b1).testBit t =
      if t < 11 then false
      else if t < 27 then (sample16 b0 b1).testBit (t - 11)
      else if t = 27 then (sample16 b0 b1).testBit 15
      else if t = 31 then parity_bit b0 b1
      else false := fun t a b => subframe_bit b0 b1 t h0 h1 a b
  rw [ones8_byte, ones8_byte, ones8_byte]
  rw [e (8 + 0) (by norm_num) (by norm_num), e (8 + 1) (by norm_num) (by norm_num),
    e (8 + 2) (by norm_num) (by norm_num), e (8 + 3) (by norm_num) (by norm_num),
    e (8 + 4) (by norm_num) (by norm_num), e (8 + 5) (by norm_num) (by norm_num),
    e (8 + 6) (by norm_num) (by norm_num), e (8 + 7) (by norm_num) (by norm_num),
    e (16 + 0) (by norm_num) (by norm_num), e (16 + 1) (by norm_num) (by norm_num),
    e (16 + 2) (by norm_num) (by norm_num), e (16 + 3) (by norm_num) (by norm_num),
    e (16 + 4) (by norm_num) (by norm_num), e (16 + 5) (by norm_num) (by norm_num),
    e (16 + 6) (by norm_num) (by norm_num), e (16 + 7) (by norm_num) (by norm_num),
    e (24 + 0) (by norm_num) (by norm_num), e (24 + 1) (by norm_num) (by norm_num),
    e (24 + 2) (by norm_num) (by norm_num), e (24 + 3) (by norm_num) (by norm_num),
    e (24 + 4) (by norm_num) (by norm_num), e (24 + 5) (by norm_num) (by norm_num),
    e (24 + 6) (by norm_num) (by norm_num), e (24 + 7) (by norm_num) (by norm_num)]
  simp only [ones16, range16, List.map, List.sum_cons, List.sum_nil]
  norm_num
  omega

/-- The last bits of the four table values of a sample add up to an even number. -/
theorem table_words_lsb_even (sfcnt b0 b1 : Nat) (h0 : b0 < 256) (h1 : b1 < 256) :
    count_last_one (table_words sfcnt b0 b1) % 2 = 0 := by
  simp only [table_words, count_last_one_cons]
  have c0 : count_last_one [] = 0 := rfl
  rw [c0, preamble_lsb, biphase_lsb _ (Nat.mod_lt _ (by norm_num)),
    biphase_lsb _ (Nat.mod_lt _ (by norm_num)), biphase_lsb _ (Nat.mod_lt _ (by norm_num))]
  have hs := subframe_ones b0 b1 h0 h1
  have hp := parity_bit_spec b0 b1
  cases hP : parity_bit b0 b1
  · rw [hP] at hp hs
    have hp2 := of_decide_eq_false hp.symm
    simp only [Bool.toNat_false] at hs
    omega
  · rw [hP] at hp hs
    have hp2 := of_decide_eq_true hp.symm
    simp only [Bool.toNat_true] at hs
    omega

/-- One sample leaves the flag as it found it. -/
theorem sample_keeps_flag (ctx : EncCtx) (b0 b1 : Nat) (h0 : b0 < 256) (h1 : b1 < 256)
    (hi : ctx.invert ≤ 1) :
    (snd_encode_sample ctx b0 b1).ctx.invert = ctx.invert := by
  rw [sample_invert_parity ctx b0 b1 hi]
  have := table_words_lsb_even ctx.sfcnt b0 b1 h0 h1
  omega

theorem stream_preamble_mod (n : Nat) : stream_preamble (n % 384) = stream_preamble n := by
  unfold stream_preamble
  rw [Nat.mod_mod]

theorem stream_preamble_values (n : Nat) :
    stream_preamble n = 0xE8CC ∨ stream_preamble n = 0xE4CC ∨ stream_preamble n = 0xE2CC := by
  unfold stream_preamble
  split
  · exact Or.inl rfl
  · split
    · exact Or.inr (Or.inl rfl)
    · exact Or.inr (Or.inr rfl)

theorem run_samples_flag_zero (samples : List (Nat × Nat)) :
    ∀ sfcnt, (∀ p ∈ samples, p.1 < 256 ∧ p.2 < 256) → sfcnt < 384 →
      (run_samples ⟨sfcnt, 0⟩ samples).2.invert = 0
      ∧ ∀ k < samples.length,
          (run_samples ⟨sfcnt, 0⟩ samples).1.getD (4 * k) 0 = stream_preamble (sfcnt + k) := by
  induction samples with
  | nil =>
    intro sfcnt _ _
    exact ⟨rfl, fun k hk => absurd hk (Nat.not_lt_zero k)⟩
  | cons p rest ih =>
    intro sfcnt hall hc
    obtain ⟨hp0, hp1⟩ := hall p (List.mem_cons_self _ _)
    have hflag : (snd_encode_sample ⟨sfcnt, 0⟩ p.1 p.2).ctx.invert = 0 :=
      sample_keeps_flag ⟨sfcnt, 0⟩ p.1 p.2 hp0 hp1 (by norm_num)
    have hcnt : (snd_encode_sample ⟨sfcnt, 0⟩ p.1 p.2).ctx.sfcnt = (sfcnt + 1) % 384 :=
      next_sfcnt_mod sfcnt hc
    have hctx : (snd_encode_sample ⟨sfcnt, 0⟩ p.1 p.2).ctx = ⟨(sfcnt + 1) % 384, 0⟩ := by
      cases hr : (snd_encode_sample ⟨sfcnt, 0⟩ p.1 p.2).ctx with
      | mk a b =>
        rw [hr] at hflag hcnt
        simp only at hflag hcnt
        rw [hflag, hcnt]
    obtain ⟨ih1, ih2⟩ := ih ((sfcnt + 1) % 384) (fun q hq => hall q (List.mem_cons_of_mem _ hq))
      (Nat.mod_lt _ (by norm_num))
    have hrun : run_samples ⟨sfcnt, 0⟩ (p :: rest) =
        ((snd_encode_sample ⟨sfcnt, 0⟩ p.1 p.2).words
            ++ (run_samples ⟨(sfcnt + 1) % 384, 0⟩ rest).1,
          (run_samples ⟨(sfcnt + 1) % 384, 0⟩ rest).2) := by
      show ((snd_encode_sample ⟨sfcnt, 0⟩ p.1 p.2).words
          ++ (run_samples (snd_encode_sample ⟨sfcnt, 0⟩ p.1 p.2).ctx rest).1,
        (run_samples (snd_encode_sample ⟨sfcnt, 0⟩ p.1 p.2).ctx rest).2) = _
      rw [hctx]
    rw [hrun]
    refine ⟨ih1, ?_⟩
    intro k hk
    have hlen : (snd_encode_sample ⟨sfcnt, 0⟩ p.1 p.2).words.length = 4 := rfl
    cases k with
    | zero =>
      rw [List.getD_append _ _ _ _ (by rw [hlen]; norm_num)]
      show apply_invert 0 (preamble sfcnt) = _
      have : preamble sfcnt = stream_preamble (sfcnt + 0) := by
        rw [← preamble_mod, Nat.add_zero, Nat.mod_eq_of_lt hc]
      rw [← this]
      rfl
    | succ k =>
      rw [List.getD_append_right _ _ _ _ (by rw [hlen]; omega), hlen]
      have e : 4 * (k + 1) - 4 = 4 * k := by omega
      rw [e, ih2 k (by simp only [List.length_cons] at hk; omega)]
      rw [← stream_preamble_mod ((sfcnt + 1) % 384 + k), ← stream_preamble_mod (sfcnt + (k + 1))]
      congr 1
      omega

/-- The flag is the same before every sample of a run. -/
theorem ctx_at_invert (samples : Nat → Nat) (ctx : EncCtx) (hi : ctx.invert ≤ 1) (k : Nat) :
    (ctx_at samples ctx k).invert = ctx.invert := by
  induction k with
  | zero => rfl
  | succ k ih =>
    show (snd_encode_sample (ctx_at samples ctx k) (samples (2 * k) % 256)
      (samples (2 * k + 1) % 256)).ctx.invert = _
    rw [sample_keeps_flag _ _ _ (Nat.mod_lt _ (by norm_num)) (Nat.mod_lt _ (by norm_num))
      (by rw [ih]; exact hi), ih]

theorem preamble_values (sfcnt : Nat) :
    preamble sfcnt = 0xE8CC ∨ preamble sfcnt = 0xE4CC ∨ preamble sfcnt = 0xE2CC := by
  unfold preamble z_preamble y_preamble x_preamble
  split
  · exact Or.inl rfl
  · split
    · exact Or.inr (Or.inl rfl)
    · exact Or.inr (Or.inr rfl)

/-- In a run of the loop from a clear flag every sample finds the flag clear
and stores its preamble as it stands. -/
theorem out_at_preamble (mem : Nat → Nat) (sfcnt k : Nat) :
    (ctx_at mem ⟨sfcnt, 0⟩ k).invert = 0
    ∧ (out_at mem ⟨sfcnt, 0⟩ k).w0 = preamble (ctx_at mem ⟨sfcnt, 0⟩ k).sfcnt := by
  have h := ctx_at_invert mem ⟨sfcnt, 0⟩ (by norm_num) k
  refine ⟨h, ?_⟩
  show apply_invert (ctx_at mem ⟨sfcnt, 0⟩ k).invert (preamble (ctx_at mem ⟨sfcnt, 0⟩ k).sfcnt) = _
  rw [h]
  rfl

/-- Claim C21 (polarity is restored at every sub-frame boundary).  For every
sample, counter and flag value 0 or 1, the flag after the four patterns of the
sample equals the flag before them.  Hence from flag 0 the flag is 0 after
every prefix of a stream of samples and before every pass of the loop of
`snd_encode`, and the first pattern of every sub-frame is stored as `0xE8CC`,
`0xE4CC` or `0xE2CC`, the preamble the position calls for. -/
theorem polarity_restored (ctx : EncCtx) (b0 b1 sfcnt : Nat) (samples : List (Nat × Nat))
    (h0 : b0 < 256) (h1 : b1 < 256) (hi : ctx.invert ≤ 1)
    (hs : ∀ p ∈ samples, p.1 < 256 ∧ p.2 < 256) (hc : sfcnt < 384) :
    (snd_encode_sample ctx b0 b1).ctx.invert = ctx.invert
    ∧ (∀ k ≤ samples.length, (run_samples ⟨sfcnt, 0⟩ (samples.take k)).2.invert = 0)
    ∧ (∀ k < samples.length,
        (run_samples ⟨sfcnt, 0⟩ samples).1.getD (4 * k) 0 = stream_preamble (sfcnt + k)
        ∧ ((run_samples ⟨sfcnt, 0⟩ samples).1.getD (4 * k) 0 = 0xE8CC
          ∨ (run_samples ⟨sfcnt, 0⟩ samples).1.getD (4 * k) 0 = 0xE4CC
          ∨ (run_samples ⟨sfcnt, 0⟩ samples).1.getD (4 * k) 0 = 0xE2CC))
    ∧ (∀ (mem : Nat → Nat) (k : Nat),
        (ctx_at mem ⟨sfcnt, 0⟩ k).invert = 0
        ∧ ((out_at mem ⟨sfcnt, 0⟩ k).w0 = 0xE8CC ∨ (out_at mem ⟨sfcnt, 0⟩ k).w0 = 0xE4CC
          ∨ (out_at mem ⟨sfcnt, 0⟩ k).w0 = 0xE2CC)) := by
  refine ⟨sample_keeps_flag ctx b0 b1 h0 h1 hi, ?_, ?_, ?_⟩
  · intro k _
    exact (run_samples_flag_zero (samples.take k) sfcnt
      (fun p hp => hs p (List.mem_of_mem_take hp)) hc).1
  · intro k hk
    have h := (run_samples_flag_zero samples sfcnt hs hc).2 k hk
    refine ⟨h, ?_⟩
    rw [h]
    exact stream_preamble_values _
  · intro mem k
    obtain ⟨hf, hw⟩ := out_at_preamble mem sfcnt k
    refine ⟨hf, ?_⟩
    rw [hw]
    exact preamble_values _

/-- Instance of C21: the sample `0x9234` with flag 1, and a stream of three samples. -/
theorem polarity_restored_witness :
    (0x34 < 256 ∧ 0x92 < 256 ∧ (⟨5, 1⟩ : EncCtx).invert ≤ 1
      ∧ (∀ p ∈ [((0x01 : Nat), (0x01 : Nat)), (0xFF, 0x7F), (0x00, 0x80)],
          p.1 < 256 ∧ p.2 < 256)
      ∧ 383 < 384)
    ∧ (snd_encode_sample ⟨5, 1⟩ 0x34 0x92).ctx.invert = (⟨5, 1⟩ : EncCtx).invert
    ∧ (∀ k ≤ [((0x01 : Nat), (0x01 : Nat)), (0xFF, 0x7F), (0x00, 0x80)].length,
        (run_samples ⟨383, 0⟩
          ([((0x01 : Nat), (0x01 : Nat)), (0xFF, 0x7F), (0x00, 0x80)].take k)).2.invert = 0)
    ∧ (∀ k < [((0x01 : Nat), (0x01 : Nat)), (0xFF, 0x7F), (0x00, 0x80)].length,
        (run_samples ⟨383, 0⟩ [((0x01 : Nat), (0x01 : Nat)), (0xFF, 0x7F), (0x00, 0x80)]).1.getD
            (4 * k) 0 = stream_preamble (383 + k)
        ∧ ((run_samples ⟨383, 0⟩
              [((0x01 : Nat), (0x01 : Nat)), (0xFF, 0x7F), (0x00, 0x80)]).1.getD (4 * k) 0
            = 0xE8CC
          ∨ (run_samples ⟨383, 0⟩
              [((0x01 : Nat), (0x01 : Nat)), (0xFF, 0x7F), (0x00, 0x80)]).1.getD (4 * k) 0
            = 0xE4CC
          ∨ (run_samples ⟨383, 0⟩
              [((0x01 : Nat), (0x01 : Nat)), (0xFF, 0x7F), (0x00, 0x80)]).1.getD (4 * k) 0
            = 0xE2CC))
    ∧ (∀ (mem : Nat → Nat) (k : Nat),
        (ctx_at mem ⟨383, 0⟩ k).invert = 0
        ∧ ((out_at mem ⟨383, 0⟩ k).w0 = 0xE8CC ∨ (out_at mem ⟨383, 0⟩ k).w0 = 0xE4CC
          ∨ (out_at mem ⟨383, 0⟩ k).w0 = 0xE2CC)) :=
  ⟨⟨by decide, by decide, by decide, by decide, by decide⟩,
    polarity_restored ⟨5, 1⟩ 0x34 0x92 383 [(0x01, 0x01), (0xFF, 0x7F), (0x00, 0x80)]
      (by decide) (by decide) (by decide) (by decide) (by decide)⟩

theorem halfBit_not16 (w k : Nat) (hk : k < 16) : halfBit (not16 w) k = !halfBit w k := by
  unfold halfBit
  exact testBit_not16 w (15 - k) (by omega)

theorem halfBit_apply_invert_ne (inv w k1 k2 : Nat) (h1 : k1 < 16) (h2 : k2 < 16)
    (h : halfBit w k1 ≠ halfBit w k2) :
    halfBit (apply_invert inv w) k1 ≠ halfBit (apply_invert inv w) k2 := by
  unfold apply_invert
  split
  · rw [halfBit_not16 w k1 h1, halfBit_not16 w k2 h2]
    exact fun heq => h (Bool.not_inj heq)
  · exact h

theorem halfBit_apply_invert_eq (inv w k1 k2 : Nat) (h1 : k1 < 16) (h2 : k2 < 16)
    (h : halfBit w k1 = halfBit w k2) :
    halfBit (apply_invert inv w) k1 = halfBit (apply_invert inv w) k2 := by
  unfold apply_invert
  split
  · rw [halfBit_not16 w k1 h1, halfBit_not16 w k2 h2, h]
  · exact h

/-- The low byte of every preamble starts each of its four cells with a transition. -/
theorem preamble_cell_start (sfcnt c : Nat) (h4 : 4 ≤ c) (h8 : c < 8) :
    halfBit (preamble sfcnt) (2 * c) ≠ halfBit (preamble sfcnt) (2 * c - 1) := by
  unfold preamble z_preamble y_preamble x_preamble
  split
  · interval_cases c <;> decide
  · split <;> interval_cases c <;> decide

/-- Every preamble starts with three ones. -/
theorem preamble_three_ones (sfcnt : Nat) :
    halfBit (preamble sfcnt) 0 = true ∧ halfBit (preamble sfcnt) 1 = true
      ∧ halfBit (preamble sfcnt) 2 = true := by
  unfold preamble z_preamble y_preamble x_preamble
  split
  · decide
  · split <;> decide

/-- A table value that starts with a one, stored after the pattern `p`, starts
with the opposite of the last half-bit of `p`. -/
theorem boundary_transition (p t : Nat) (ht : halfBit t 0 = true) :
    halfBit (apply_invert (p &&& 1) t) 0 ≠ halfBit p 15 := by
  have e : halfBit p 15 = decide (p % 2 = 1) := by
    unfold halfBit
    show p.testBit 0 = _
    rw [Nat.testBit_zero]
  rw [e, Nat.and_one_is_mod]
  unfold apply_invert
  by_cases h : p % 2 = 0
  · rw [if_neg (by omega), ht]
    simp [h]
  · rw [if_pos h, halfBit_not16 t 0 (by norm_num), ht]
    have : p % 2 = 1 := by omega
    simp [this]

theorem sample_half_eq (r : SampleOut) (q j m : Nat) (hq : q = 16 * j + m) (hm : m < 16) :
    sample_half r q = halfBit (r.words.getD j 0) m := by
  unfold sample_half
  have a : q / 16 = j := by omega
  have b : q % 16 = m := by omega
  rw [a, b]

theorem sample_word0 (ctx : EncCtx) (b0 b1 : Nat) :
    (snd_encode_sample ctx b0 b1).words.getD 0 0 = apply_invert ctx.invert (preamble ctx.sfcnt) :=
  rfl

theorem sample_word1 (ctx : EncCtx) (b0 b1 : Nat) :
    (snd_encode_sample ctx b0 b1).words.getD 1 0
      = apply_invert ((snd_encode_sample ctx b0 b1).words.getD 0 0 &&& 1)
          (biphase ((subframe b0 b1 >>> 8) % 256)) :=
  rfl

theorem sample_word2 (ctx : EncCtx) (b0 b1 : Nat) :
    (snd_encode_sample ctx b0 b1).words.getD 2 0
      = apply_invert ((snd_encode_sample ctx b0 b1).words.getD 1 0 &&& 1)
          (biphase ((subframe b0 b1 >>> 16) % 256)) :=
  rfl

theorem sample_word3 (ctx : EncCtx) (b0 b1 : Nat) :
    (snd_encode_sample ctx b0 b1).words.getD 3 0
      = apply_invert ((snd_encode_sample ctx b0 b1).words.getD 2 0 &&& 1)
          (biphase ((subframe b0 b1 >>> 24) % 256)) :=
  rfl

/-- Inside a data pattern every cell after the first starts with a transition. -/
theorem data_word_cell_start (inv v m : Nat) (h1 : 1 ≤ m) (h8 : m < 8) :
    halfBit (apply_invert inv (biphase (v % 256))) (2 * m)
      ≠ halfBit (apply_invert inv (biphase (v % 256))) (2 * m - 1) :=
  halfBit_apply_invert_ne inv _ _ _ (by omega) (by omega)
    (biphase_cell_start (v % 256) (Nat.mod_lt _ (by norm_num)) m h8 h1)

/-- A data pattern starts with the opposite of the last half-bit stored before it. -/
theorem data_word_first (p v : Nat) :
    halfBit (apply_invert (p &&& 1) (biphase (v % 256))) 0 ≠ halfBit p 15 :=
  boundary_transition p _ (biphase_first_half (v % 256) (Nat.mod_lt _ (by norm_num)))

/-- Every cell of time slots 4..31 of one sample starts with a transition. -/
theorem sample_cell_start (ctx : EncCtx) (b0 b1 c : Nat) (h4 : 4 ≤ c) (h32 : c < 32) :
    sample_half (snd_encode_sample ctx b0 b1) (2 * c)
      ≠ sample_half (snd_encode_sample ctx b0 b1) (2 * c - 1) := by
  by_cases hm : c % 8 = 0
  · -- the cell opens a new pattern
    have hj : 1 ≤ c / 8 := by omega
    rw [sample_half_eq _ (2 * c) (c / 8) 0 (by omega) (by norm_num),
      sample_half_eq _ (2 * c - 1) (c / 8 - 1) 15 (by omega) (by norm_num)]
    have hc : c / 8 = 1 ∨ c / 8 = 2 ∨ c / 8 = 3 := by omega
    rcases hc with e | e | e <;> rw [e]
    · rw [sample_word1]
      exact data_word_first _ _
    · rw [sample_word2]
      exact data_word_first _ _
    · rw [sample_word3]
      exact data_word_first _ _
  · rw [sample_half_eq _ (2 * c) (c / 8) (2 * (c % 8)) (by omega) (by omega),
      sample_half_eq _ (2 * c - 1) (c / 8) (2 * (c % 8) - 1) (by omega) (by omega)]
    have hc : c / 8 = 0 ∨ c / 8 = 1 ∨ c / 8 = 2 ∨ c / 8 = 3 := by omega
    rcases hc with e | e | e | e <;> rw [e]
    · rw [sample_word0]
      exact halfBit_apply_invert_ne _ _ _ _ (by omega) (by omega)
        (preamble_cell_start _ (c % 8) (by omega) (by omega))
    · rw [sample_word1]
      exact data_word_cell_start _ _ _ (by omega) (by omega)
    · rw [sample_word2]
      exact data_word_cell_start _ _ _ (by omega) (by omega)
    · rw [sample_word3]
      exact data_word_cell_start _ _ _ (by omega) (by omega)

theorem passes_even (len : Nat) (h : len % 2 = 0) : passes len = len / 2 := by
  unfold passes
  omega

/-- Half-bits of the destination memory after `n` passes are those of the samples. -/
theorem wire_half_loop (samples wire : Nat → Nat) (ctx : EncCtx) (n : Nat) (hn : n ≤ 16384)
    (k q : Nat) (hk : k < n) (hq : q < 64) :
    wire_half (loop_state samples wire ctx n).wire (64 * k + q)
      = sample_half (out_at samples ctx k) q := by
  unfold wire_half sample_half
  have a : (64 * k + q) / 16 = 4 * k + q / 16 := by omega
  have b : (64 * k + q) % 16 = q % 16 := by omega
  rw [a, b, loop_state_wire samples wire ctx n hn, if_pos (by omega)]
  have c : (4 * k + q / 16) / 4 = k := by omega
  have d : (4 * k + q / 16) % 4 = q / 16 := by omega
  rw [c, d]

/-- Claim C22 (valid biphase-mark data: every cell of time slots 4..31 starts
with a transition, also across pattern boundaries). -/
theorem cells_start_with_transition (samples wire : Nat → Nat) (len : Nat) (ctx : EncCtx)
    (b0 b1 : Nat) (heven : len % 2 = 0) (hlen : len ≤ 32768) :
    (∀ c, 4 ≤ c → c < 32 →
      sample_half (snd_encode_sample ctx b0 b1) (2 * c)
        ≠ sample_half (snd_encode_sample ctx b0 b1) (2 * c - 1))
    ∧ ∃ w2 c2, snd_encode samples wire len ctx = some (w2, c2)
      ∧ ∀ k < len / 2, ∀ c, 4 ≤ c → c < 32 →
          wire_half w2 (64 * k + 2 * c) ≠ wire_half w2 (64 * k + 2 * c - 1) := by
  refine ⟨fun c h4 h32 => sample_cell_start ctx b0 b1 c h4 h32, _, _,
    snd_encode_eq samples wire ctx len (by omega), ?_⟩
  intro k hk c h4 h32
  rw [passes_even len heven]
  have e : 64 * k + 2 * c - 1 = 64 * k + (2 * c - 1) := by omega
  rw [e, wire_half_loop samples wire ctx (len / 2) (by omega) k (2 * c) hk (by omega),
    wire_half_loop samples wire ctx (len / 2) (by omega) k (2 * c - 1) hk (by omega)]
  exact sample_cell_start _ _ _ c h4 h32

/-- Instance of C22: two samples encoded from counter 383 with the flag set. -/
theorem cells_start_with_transition_witness :
    (4 % 2 = 0 ∧ 4 ≤ 32768)
    ∧ (∀ c, 4 ≤ c → c < 32 →
      sample_half (snd_encode_sample ⟨383, 1⟩ 0x34 0x92) (2 * c)
        ≠ sample_half (snd_encode_sample ⟨383, 1⟩ 0x34 0x92) (2 * c - 1))
    ∧ ∃ w2 c2, snd_encode (mem_of [0x34, 0x92, 0x01, 0x80]) (fun _ => 0) 4 ⟨383, 1⟩
        = some (w2, c2)
      ∧ ∀ k < 4 / 2, ∀ c, 4 ≤ c → c < 32 →
          wire_half w2 (64 * k + 2 * c) ≠ wire_half w2 (64 * k + 2 * c - 1) :=
  ⟨⟨by decide, by decide⟩,
    cells_start_with_transition (mem_of [0x34, 0x92, 0x01, 0x80]) (fun _ => 0) 4 ⟨383, 1⟩
      0x34 0x92 (by decide) (by decide)⟩

/-- The first three half-bits of a sample are equal. -/
theorem sample_three_equal (ctx : EncCtx) (b0 b1 : Nat) :
    sample_half (snd_encode_sample ctx b0 b1) 0 = sample_half (snd_encode_sample ctx b0 b1) 1
    ∧ sample_half (snd_encode_sample ctx b0 b1) 1
        = sample_half (snd_encode_sample ctx b0 b1) 2 := by
  rw [sample_half_eq _ 0 0 0 (by norm_num) (by norm_num),
    sample_half_eq _ 1 0 1 (by norm_num) (by norm_num),
    sample_half_eq _ 2 0 2 (by norm_num) (by norm_num), sample_word0]
  have h := preamble_three_ones ctx.sfcnt
  exact ⟨halfBit_apply_invert_eq _ _ 0 1 (by norm_num) (by norm_num) (by rw [h.1, h.2.1]),
    halfBit_apply_invert_eq _ _ 1 2 (by norm_num) (by norm_num) (by rw [h.2.1, h.2.2])⟩

/-- With the flag clear a sample starts with a one. -/
theorem sample_first_half (ctx : EncCtx) (b0 b1 : Nat) (hi : ctx.invert = 0) :
    sample_half (snd_encode_sample ctx b0 b1) 0 = true := by
  rw [sample_half_eq _ 0 0 0 (by norm_num) (by norm_num), sample_word0, hi]
  exact (preamble_three_ones ctx.sfcnt).1

/-- With the flag clear a sample ends with a zero. -/
theorem sample_last_half (ctx : EncCtx) (b0 b1 : Nat) (h0 : b0 < 256) (h1 : b1 < 256)
    (hi : ctx.invert = 0) :
    sample_half (snd_encode_sample ctx b0 b1) 63 = false := by
  rw [sample_half_eq _ 63 3 15 (by norm_num) (by norm_num)]
  have hk := sample_keeps_flag ctx b0 b1 h0 h1 (by omega)
  have e : (snd_encode_sample ctx b0 b1).ctx.invert
      = (snd_encode_sample ctx b0 b1).words.getD 3 0 &&& 1 := rfl
  rw [e, hi, Nat.and_one_is_mod] at hk
  unfold halfBit
  show ((snd_encode_sample ctx b0 b1).words.getD 3 0).testBit 0 = false
  rw [Nat.testBit_zero, hk]
  rfl

/-- In a run from a clear flag, three equal half-bits in a row end no later than
position 7 of their sub-frame. -/
theorem three_equal_position (samples wire : Nat → Nat) (sfcnt n : Nat) (hn : n ≤ 16384)
    (q : Nat) (hq : q + 2 < 64 * n)
    (e1 : wire_half (loop_state samples wire ⟨sfcnt, 0⟩ n).wire q
      = wire_half (loop_state samples wire ⟨sfcnt, 0⟩ n).wire (q + 1))
    (e2 : wire_half (loop_state samples wire ⟨sfcnt, 0⟩ n).wire (q + 1)
      = wire_half (loop_state samples wire ⟨sfcnt, 0⟩ n).wire (q + 2)) :
    q % 64 + 2 ≤ 7 := by
  by_contra hcon
  have hp : 6 ≤ q % 64 := by omega
  have hflag : ∀ k, (ctx_at samples ⟨sfcnt, 0⟩ k).invert = 0 := fun k =>
    ctx_at_invert samples ⟨sfcnt, 0⟩ (by norm_num) k
  have hlast : ∀ k, sample_half (out_at samples ⟨sfcnt, 0⟩ k) 63 = false := fun k =>
    sample_last_half _ _ _ (Nat.mod_lt _ (by norm_num)) (Nat.mod_lt _ (by norm_num)) (hflag k)
  have hfirst : ∀ k, sample_half (out_at samples ⟨sfcnt, 0⟩ k) 0 = true := fun k =>
    sample_first_half _ _ _ (hflag k)
  have hcell : ∀ k c, 4 ≤ c → c < 32 →
      sample_half (out_at samples ⟨sfcnt, 0⟩ k) (2 * c)
        ≠ sample_half (out_at samples ⟨sfcnt, 0⟩ k) (2 * c - 1) := fun k c h4 h32 =>
    sample_cell_start _ _ _ c h4 h32
  have hw : ∀ k p, k < n → p < 64 →
      wire_half (loop_state samples wire ⟨sfcnt, 0⟩ n).wire (64 * k + p)
        = sample_half (out_at samples ⟨sfcnt, 0⟩ k) p := fun k p hk hp =>
    wire_half_loop samples wire ⟨sfcnt, 0⟩ n hn k p hk hp
  have hk : q / 64 < n := by omega
  have hq0 : q = 64 * (q / 64) + q % 64 := by omega
  have hp64 : q % 64 < 64 := Nat.mod_lt _ (by norm_num)
  generalize q / 64 = k at hk hq0
  generalize q % 64 = p at hp hq0 hp64
  subst hq0
  by_cases c62 : p = 62
  · subst c62
    have a : 64 * k + 62 + 1 = 64 * k + 63 := by omega
    have b : 64 * k + 62 + 2 = 64 * (k + 1) + 0 := by omega
    rw [a, b, hw k 63 hk (by norm_num), hw (k + 1) 0 (by omega) (by norm_num), hlast,
      hfirst] at e2
    exact Bool.noConfusion e2
  · by_cases c63 : p = 63
    · subst c63
      have a : 64 * k + 63 + 1 = 64 * (k + 1) + 0 := by omega
      rw [a, hw k 63 hk (by norm_num), hw (k + 1) 0 (by omega) (by norm_num), hlast,
        hfirst] at e1
      exact Bool.noConfusion e1
    · by_cases hev : p % 2 = 0
      · have a : 64 * k + p + 1 = 64 * k + (2 * ((p + 2) / 2) - 1) := by omega
        have b : 64 * k + p + 2 = 64 * k + 2 * ((p + 2) / 2) := by omega
        rw [a, b, hw k _ hk (by omega), hw k _ hk (by omega)] at e2
        exact hcell k ((p + 2) / 2) (by omega) (by omega) e2.symm
      · have a : 64 * k + p = 64 * k + (2 * ((p + 1) / 2) - 1) := by omega
        have b : 64 * k + p + 1 = 64 * k + 2 * ((p + 1) / 2) := by omega
        rw [b] at e1
        rw [a, hw k _ hk (by omega), hw k _ hk (by omega)] at e1
        exact hcell k ((p + 1) / 2) (by omega) (by omega) e1.symm

/-- Claim C23 (preambles are the only coding violations: each sub-frame starts
with three equal half-bits, and three equal half-bits in a row occur only inside
positions 0..7 of a sub-frame). -/
theorem preambles_only_violations (samples wire : Nat → Nat) (len : Nat)
    (heven : len % 2 = 0) (hlen : len ≤ 32768) :
    ∃ w2 c2, snd_encode samples wire len ⟨0, 0⟩ = some (w2, c2)
      ∧ (∀ k < len / 2, wire_half w2 (64 * k) = wire_half w2 (64 * k + 1)
          ∧ wire_half w2 (64 * k + 1) = wire_half w2 (64 * k + 2))
      ∧ (∀ q, q + 2 < 32 * len → wire_half w2 q = wire_half w2 (q + 1) →
          wire_half w2 (q + 1) = wire_half w2 (q + 2) → q % 64 + 2 ≤ 7) := by
  refine ⟨_, _, snd_encode_eq samples wire ⟨0, 0⟩ len (by omega), ?_, ?_⟩
  · intro k hk
    rw [passes_even len heven]
    have h0 := wire_half_loop samples wire ⟨0, 0⟩ (len / 2) (by omega) k 0 hk (by norm_num)
    have h1 := wire_half_loop samples wire ⟨0, 0⟩ (len / 2) (by omega) k 1 hk (by norm_num)
    have h2 := wire_half_loop samples wire ⟨0, 0⟩ (len / 2) (by omega) k 2 hk (by norm_num)
    rw [Nat.add_zero] at h0
    rw [h0, h1, h2]
    exact sample_three_equal _ _ _
  · intro q hq e1 e2
    rw [passes_even len heven] at e1 e2
    exact three_equal_position samples wire 0 (len / 2) (by omega) q (by omega) e1 e2

/-- Instance of C23: two samples encoded from the initial context. -/
theorem preambles_only_violations_witness :
    (4 % 2 = 0 ∧ 4 ≤ 32768)
    ∧ ∃ w2 c2, snd_encode (mem_of [0x34, 0x92, 0x01, 0x80]) (fun _ => 0) 4 ⟨0, 0⟩
        = some (w2, c2)
      ∧ (∀ k < 4 / 2, wire_half w2 (64 * k) = wire_half w2 (64 * k + 1)
          ∧ wire_half w2 (64 * k + 1) = wire_half w2 (64 * k + 2))
      ∧ (∀ q, q + 2 < 32 * 4 → wire_half w2 q = wire_half w2 (q + 1) →
          wire_half w2 (q + 1) = wire_half w2 (q + 2) → q % 64 + 2 ≤ 7) :=
  ⟨⟨by decide, by decide⟩,
    preambles_only_violations (mem_of [0x34, 0x92, 0x01, 0x80]) (fun _ => 0) 4
      (by decide) (by decide)⟩

/-! ## Properties of the encode jobs and of the interrupt handler -/

/-- Everything `snd_process_a` does to a state. -/
theorem snd_process_a_result (s : AudioState) :
    ∃ t, snd_process_a s = some t
      ∧ t.enc = ctx_at (fun i => selected_buf s (s.sbufpos + i)) s.enc 512
      ∧ t.wire_buf_a
          = (loop_state (fun i => selected_buf s (s.sbufpos + i)) s.wire_buf_a s.enc 512).wire
      ∧ t.wire_buf_b = s.wire_buf_b
      ∧ t.sample_buf_a = s.sample_buf_a ∧ t.sample_buf_b = s.sample_buf_b
      ∧ t.running = s.running ∧ t.hw = s.hw
      ∧ t.sbufpos
          = (if 8192 ≤ (s.sbufpos + 1024) % 65536 then 0 else (s.sbufpos + 1024) % 65536)
      ∧ t.sbufsel = (if 8192 ≤ (s.sbufpos + 1024) % 65536 then s.sbufsel.flip else s.sbufsel)
      ∧ t.abufst
          = (if 8192 ≤ (s.sbufpos + 1024) % 65536 ∧ s.sbufsel = .A then .STALE else s.abufst)
      ∧ t.bbufst
          = (if 8192 ≤ (s.sbufpos + 1024) % 65536 ∧ s.sbufsel = .B then .STALE else s.bbufst) := by
  rw [snd_process_a_eq]
  refine ⟨_, rfl, ?_⟩
  cases hsel : s.sbufsel
  · simp only [selected_buf, hsel, advance_a, SAMPLE_CHUNK_SIZE, AUDIO_BUFFER_SIZE, ge_iff_le,
      bufselect.flip]
    by_cases h : 8192 ≤ (s.sbufpos + 1024) % 65536
    · simp [h]
    · simp [h]
  · simp only [selected_buf, hsel, advance_b, SAMPLE_CHUNK_SIZE, AUDIO_BUFFER_SIZE, ge_iff_le,
      bufselect.flip]
    by_cases h : 8192 ≤ (s.sbufpos + 1024) % 65536
    · simp [h]
    · simp [h]

/-- Everything `snd_process_b` does to a state. -/
theorem snd_process_b_result (s : AudioState) :
    ∃ t, snd_process_b s = some t
      ∧ t.enc = ctx_at (fun i => selected_buf s (s.sbufpos + i)) s.enc 512
      ∧ t.wire_buf_b
          = (loop_state (fun i => selected_buf s (s.sbufpos + i)) s.wire_buf_b s.enc 512).wire
      ∧ t.wire_buf_a = s.wire_buf_a
      ∧ t.sample_buf_a = s.sample_buf_a ∧ t.sample_buf_b = s.sample_buf_b
      ∧ t.running = s.running ∧ t.hw = s.hw
      ∧ t.sbufpos
          = (if 8192 ≤ (s.sbufpos + 1024) % 65536 then 0 else (s.sbufpos + 1024) % 65536)
      ∧ t.sbufsel = (if 8192 ≤ (s.sbufpos + 1024) % 65536 then s.sbufsel.flip else s.sbufsel)
      ∧ t.abufst
          = (if 8192 ≤ (s.sbufpos + 1024) % 65536 ∧ s.sbufsel = .A then .STALE else s.abufst)
      ∧ t.bbufst
          = (if 8192 ≤ (s.sbufpos + 1024) % 65536 ∧ s.sbufsel = .B then .STALE else s.bbufst) := by
  rw [snd_process_b_eq]
  refine ⟨_, rfl, ?_⟩
  cases hsel : s.sbufsel
  · simp only [selected_buf, hsel, advance_a, SAMPLE_CHUNK_SIZE, AUDIO_BUFFER_SIZE, ge_iff_le,
      bufselect.flip]
    by_cases h : 8192 ≤ (s.sbufpos + 1024) % 65536
    · simp [h]
    · simp [h]
  · simp only [selected_buf, hsel, advance_b, SAMPLE_CHUNK_SIZE, AUDIO_BUFFER_SIZE, ge_iff_le,
      bufselect.flip]
    by_cases h : 8192 ≤ (s.sbufpos + 1024) % 65536
    · simp [h]
    · simp [h]

/-- The patterns an encode job stores do not depend on what the destination held. -/
theorem chunk_wire_eq (samples wire wire2 : Nat → Nat) (ctx : EncCtx) (j : Nat) (hj : j < 2048) :
    (loop_state samples wire ctx 512).wire j = (loop_state samples wire2 ctx 512).wire j := by
  rw [loop_state_wire samples wire ctx 512 (by norm_num) j, if_pos (by omega),
    loop_state_wire samples wire2 ctx 512 (by norm_num) j, if_pos (by omega)]

/-- Claim C28 (the two encode jobs are the same job on different wire
buffers).  From every state both jobs return; they leave the same selector,
cursor, buffer states, counter and flag; the 2048 entries `snd_process_a`
leaves in wire buffer A are those `snd_process_b` leaves in wire buffer B;
each leaves the other wire buffer unchanged, and neither changes a sample
buffer. -/
theorem jobs_differ_only_in_wire_buffer (s : AudioState) :
    ∃ ta tb, snd_process_a s = some ta ∧ snd_process_b s = some tb
      ∧ ta.sbufsel = tb.sbufsel ∧ ta.sbufpos = tb.sbufpos
      ∧ ta.abufst = tb.abufst ∧ ta.bbufst = tb.bbufst
      ∧ ta.enc.sfcnt = tb.enc.sfcnt ∧ ta.enc.invert = tb.enc.invert
      ∧ (∀ j < WIRE_BUFFER_SIZE, ta.wire_buf_a j = tb.wire_buf_b j)
      ∧ read_words ta.wire_buf_a WIRE_BUFFER_SIZE = read_words tb.wire_buf_b WIRE_BUFFER_SIZE
      ∧ ta.wire_buf_b = s.wire_buf_b ∧ tb.wire_buf_a = s.wire_buf_a
      ∧ ta.sample_buf_a = s.sample_buf_a ∧ ta.sample_buf_b = s.sample_buf_b
      ∧ tb.sample_buf_a = s.sample_buf_a ∧ tb.sample_buf_b = s.sample_buf_b := by
  obtain ⟨ta, ha, a1, a2, a3, a4, a5, _, _, a8, a9, a10, a11⟩ := snd_process_a_result s
  obtain ⟨tb, hb, b1, b2, b3, b4, b5, _, _, b8, b9, b10, b11⟩ := snd_process_b_result s
  have hw : ∀ j < WIRE_BUFFER_SIZE, ta.wire_buf_a j = tb.wire_buf_b j := by
    intro j hj
    rw [a2, b2]
    exact chunk_wire_eq _ _ _ _ j hj
  refine ⟨ta, tb, ha, hb, by rw [a9, b9], by rw [a8, b8], by rw [a10, b10], by rw [a11, b11],
    by rw [a1, b1], by rw [a1, b1], hw, ?_, a3, b3, a4, a5, b4, b5⟩
  unfold read_words
  exact List.map_congr_left fun j hj => hw j (List.mem_range.mp hj)

theorem step_cursor (op : Op) (s t : AudioState) (h : step op s = some t)
    (hi : s.sbufpos % 1024 = 0 ∧ s.sbufpos ≤ 7168) :
    t.sbufpos % 1024 = 0 ∧ t.sbufpos ≤ 7168 := by
  have hjob : ∀ p : Nat, p % 1024 = 0 ∧ p ≤ 7168 → ∀ r : Nat,
      r = (if 8192 ≤ (p + 1024) % 65536 then 0 else (p + 1024) % 65536) →
      r % 1024 = 0 ∧ r ≤ 7168 := by
    intro p hp r hr
    by_cases c : 8192 ≤ (p + 1024) % 65536
    · rw [if_pos c] at hr
      omega
    · rw [if_neg c] at hr
      omega
  cases op with
  | audio_buffer =>
    cases Option.some.inj h
    rw [(audio_buffer_frame s).2.1]
    exact hi
  | audio_buffer_filled =>
    cases Option.some.inj h
    rw [(audio_buffer_filled_frame s).2.1]
    exact hi
  | snd_process_a =>
    obtain ⟨t2, h2, _, _, _, _, _, _, _, hp, _⟩ := snd_process_a_result s
    have e : snd_process_a s = some t := h
    rw [h2] at e
    cases Option.some.inj e
    exact hjob _ hi _ hp
  | snd_process_b =>
    obtain ⟨t2, h2, _, _, _, _, _, _, _, hp, _⟩ := snd_process_b_result s
    have e : snd_process_b s = some t := h
    rw [h2] at e
    cases Option.some.inj e
    exact hjob _ hi _ hp

theorem run_cursor (ops : List Op) :
    ∀ s t : AudioState, run_ops ops s = some t → s.sbufpos % 1024 = 0 ∧ s.sbufpos ≤ 7168 →
      t.sbufpos % 1024 = 0 ∧ t.sbufpos ≤ 7168 := by
  induction ops with
  | nil =>
    intro s t h hi
    cases Option.some.inj h
    exact hi
  | cons op ops ih =>
    intro s t h hi
    rw [run_ops_cons] at h
    cases hst : step op s with
    | none => rw [hst] at h; exact Option.noConfusion h
    | some s1 =>
      rw [hst] at h
      exact ih s1 t h (step_cursor op s s1 hst hi)

/-- No sequence of operations gets stuck: every operation returns. -/
theorem run_ops_total (ops : List Op) : ∀ s : AudioState, ∃ t, run_ops ops s = some t := by
  induction ops with
  | nil => intro s; exact ⟨s, rfl⟩
  | cons op ops ih =>
    intro s
    rw [run_ops_cons]
    have hs : ∃ s1, step op s = some s1 := by
      cases op with
      | audio_buffer => exact ⟨_, rfl⟩
      | audio_buffer_filled => exact ⟨_, rfl⟩
      | snd_process_a =>
        obtain ⟨t, ht, _⟩ := snd_process_a_result s
        exact ⟨t, ht⟩
      | snd_process_b =>
        obtain ⟨t, ht, _⟩ := snd_process_b_result s
        exact ⟨t, ht⟩
    obtain ⟨s1, h1⟩ := hs
    rw [h1]
    exact ih s1

/-- The passes of a chunk read the source bytes at offsets `2 k` and `2 k + 1`. -/
theorem chunk_read_index (samples wire : Nat → Nat) (ctx : EncCtx) (k : Nat) (hk : k < 512) :
    (loop_state samples wire ctx k).i = 2 * k := by
  rw [loop_state_i]
  omega

/-- Claim C27 (cursor invariant and bounds).  In every state reached from the
initial state by any sequence of the four operations the cursor `sbufpos` is a
multiple of 1024 and at most 7168, so the 1024 bytes from the cursor on lie
inside the 8192-byte sample buffer.  Pass `k` of either job reads offsets
`sbufpos + 2 k` and `sbufpos + 2 k + 1`; both jobs return; they leave wire
entries from 2048 on as they were; and in any other state with the same
selector, cursor and context that agrees on those 1024 bytes (whatever its
wire buffers hold) the jobs produce the same context and the same entries
0..2047. -/
theorem cursor_invariant (ops : List Op) (s : AudioState)
    (hreach : run_ops ops init_state = some s) :
    (s.sbufpos % SAMPLE_CHUNK_SIZE = 0 ∧ s.sbufpos ≤ 7168)
    ∧ (∀ i < SAMPLE_CHUNK_SIZE, s.sbufpos + i < AUDIO_BUFFER_SIZE)
    ∧ (∀ k < 512, ∀ w,
        s.sbufpos + (loop_state (fun i => selected_buf s (s.sbufpos + i)) w s.enc k).i
          = s.sbufpos + 2 * k)
    ∧ ∃ ta tb, snd_process_a s = some ta ∧ snd_process_b s = some tb
      ∧ (∀ j, WIRE_BUFFER_SIZE ≤ j → ta.wire_buf_a j = s.wire_buf_a j)
      ∧ (∀ j, WIRE_BUFFER_SIZE ≤ j → tb.wire_buf_b j = s.wire_buf_b j)
      ∧ ∀ s2 : AudioState, s2.sbufsel = s.sbufsel → s2.sbufpos = s.sbufpos → s2.enc = s.enc →
          (∀ i < SAMPLE_CHUNK_SIZE,
            selected_buf s2 (s.sbufpos + i) = selected_buf s (s.sbufpos + i)) →
          ∃ ua ub, snd_process_a s2 = some ua ∧ snd_process_b s2 = some ub
            ∧ ua.enc = ta.enc ∧ ub.enc = tb.enc
            ∧ (∀ j < WIRE_BUFFER_SIZE, ua.wire_buf_a j = ta.wire_buf_a j)
            ∧ (∀ j < WIRE_BUFFER_SIZE, ub.wire_buf_b j = tb.wire_buf_b j) := by
  have hinv := run_cursor ops init_state s hreach ⟨rfl, by decide⟩
  refine ⟨hinv, ?_, ?_, ?_⟩
  · intro i hi
    simp only [SAMPLE_CHUNK_SIZE] at hi
    simp only [AUDIO_BUFFER_SIZE]
    omega
  · intro k hk w
    rw [chunk_read_index _ _ _ k hk]
  · obtain ⟨ta, ha, a1, a2, _⟩ := snd_process_a_result s
    obtain ⟨tb, hb, b1, b2, _⟩ := snd_process_b_result s
    refine ⟨ta, tb, ha, hb, ?_, ?_, ?_⟩
    · intro j hj
      rw [a2]
      exact loop_state_wire_beyond _ _ _ 512 (by norm_num) j hj
    · intro j hj
      rw [b2]
      exact loop_state_wire_beyond _ _ _ 512 (by norm_num) j hj
    · intro s2 hsel hpos henc hbytes
      obtain ⟨ua, hua, c1, c2, _⟩ := snd_process_a_result s2
      obtain ⟨ub, hub, d1, d2, _⟩ := snd_process_b_result s2
      have hsrc : ∀ i < 2 * 512, (fun i => selected_buf s2 (s2.sbufpos + i)) i
          = (fun i => selected_buf s (s.sbufpos + i)) i := by
        intro i hi
        show selected_buf s2 (s2.sbufpos + i) = selected_buf s (s.sbufpos + i)
        rw [hpos]
        exact hbytes i hi
      refine ⟨ua, ub, hua, hub, ?_, ?_, ?_, ?_⟩
      · rw [c1, a1, henc]
        exact ctx_at_congr _ _ _ 512 hsrc
      · rw [d1, b1, henc]
        exact ctx_at_congr _ _ _ 512 hsrc
      · intro j hj
        rw [c2, a2, henc, loop_state_congr _ _ _ _ 512 (by norm_num) hsrc]
        exact chunk_wire_eq _ _ _ _ j hj
      · intro j hj
        rw [d2, b2, henc, loop_state_congr _ _ _ _ 512 (by norm_num) hsrc]
        exact chunk_wire_eq _ _ _ _ j hj

/-- Instance of C27: the state after one call of `audio_buffer`. -/
theorem cursor_invariant_witness :
    run_ops [Op.audio_buffer] init_state = some (audio_buffer init_state).1
    ∧ (((audio_buffer init_state).1.sbufpos % SAMPLE_CHUNK_SIZE = 0
        ∧ (audio_buffer init_state).1.sbufpos ≤ 7168)
      ∧ (∀ i < SAMPLE_CHUNK_SIZE, (audio_buffer init_state).1.sbufpos + i < AUDIO_BUFFER_SIZE)
      ∧ (∀ k < 512, ∀ w,
          (audio_buffer init_state).1.sbufpos
            + (loop_state (fun i => selected_buf (audio_buffer init_state).1
                ((audio_buffer init_state).1.sbufpos + i)) w (audio_buffer init_state).1.enc k).i
            = (audio_buffer init_state).1.sbufpos + 2 * k)
      ∧ ∃ ta tb, snd_process_a (audio_buffer init_state).1 = some ta
        ∧ snd_process_b (audio_buffer init_state).1 = some tb
        ∧ (∀ j, WIRE_BUFFER_SIZE ≤ j →
            ta.wire_buf_a j = (audio_buffer init_state).1.wire_buf_a j)
        ∧ (∀ j, WIRE_BUFFER_SIZE ≤ j →
            tb.wire_buf_b j = (audio_buffer init_state).1.wire_buf_b j)
        ∧ ∀ s2 : AudioState, s2.sbufsel = (audio_buffer init_state).1.sbufsel →
            s2.sbufpos = (audio_buffer init_state).1.sbufpos →
            s2.enc = (audio_buffer init_state).1.enc →
            (∀ i < SAMPLE_CHUNK_SIZE,
              selected_buf s2 ((audio_buffer init_state).1.sbufpos + i)
                = selected_buf (audio_buffer init_state).1
                    ((audio_buffer init_state).1.sbufpos + i)) →
            ∃ ua ub, snd_process_a s2 = some ua ∧ snd_process_b s2 = some ub
              ∧ ua.enc = ta.enc ∧ ub.enc = tb.enc
              ∧ (∀ j < WIRE_BUFFER_SIZE, ua.wire_buf_a j = ta.wire_buf_a j)
              ∧ (∀ j < WIRE_BUFFER_SIZE, ub.wire_buf_b j = tb.wire_buf_b j)) :=
  ⟨rfl, cursor_invariant [Op.audio_buffer] (audio_buffer init_state).1 rfl⟩

theorem range_map_add (f : Nat → Nat) (a b : Nat) :
    (List.range (a + b)).map f = (List.range a).map f ++ (List.range b).map fun j => f (a + j) := by
  rw [List.range_add, List.map_append, List.map_map]
  rfl

/-- What an encode job does, for either job. -/
theorem job_result (op : Op) (hop : is_job op) (s : AudioState) :
    ∃ t, step op s = some t
      ∧ t.enc = ctx_at (fun i => selected_buf s (s.sbufpos + i)) s.enc 512
      ∧ job_output op t
          = (List.range 2048).map (fun j =>
              (out_at (fun i => selected_buf s (s.sbufpos + i)) s.enc (j / 4)).words.getD (j % 4) 0)
      ∧ t.sample_buf_a = s.sample_buf_a ∧ t.sample_buf_b = s.sample_buf_b
      ∧ t.sbufpos
          = (if 8192 ≤ (s.sbufpos + 1024) % 65536 then 0 else (s.sbufpos + 1024) % 65536)
      ∧ t.sbufsel
          = (if 8192 ≤ (s.sbufpos + 1024) % 65536 then s.sbufsel.flip else s.sbufsel) := by
  have hw : ∀ w : Nat → Nat,
      read_words (loop_state (fun i => selected_buf s (s.sbufpos + i)) w s.enc 512).wire
          WIRE_BUFFER_SIZE
        = (List.range 2048).map fun j =>
            (out_at (fun i => selected_buf s (s.sbufpos + i)) s.enc (j / 4)).words.getD
              (j % 4) 0 := by
    intro w
    exact read_words_encode _ w s.enc 512 (by norm_num)
  rcases hop with h | h <;> subst h
  · obtain ⟨t, ht, a1, a2, _, a4, a5, _, _, a8, a9, _⟩ := snd_process_a_result s
    refine ⟨t, ht, a1, ?_, a4, a5, a8, a9⟩
    show read_words t.wire_buf_a WIRE_BUFFER_SIZE = _
    rw [a2]
    exact hw _
  · obtain ⟨t, ht, a1, a2, _, a4, a5, _, _, a8, a9, _⟩ := snd_process_b_result s
    refine ⟨t, ht, a1, ?_, a4, a5, a8, a9⟩
    show read_words t.wire_buf_b WIRE_BUFFER_SIZE = _
    rw [a2]
    exact hw _

theorem run_collect_cons (op : Op) (ops : List Op) (s : AudioState) :
    run_collect (op :: ops) s
      = (step op s).bind fun s1 =>
          (run_collect ops s1).map fun r => (job_output op s1 ++ r.1, r.2) := by
  simp only [run_collect]
  cases step op s with
  | none => rfl
  | some s1 =>
    simp only [Option.some_bind]
    cases run_collect ops s1 <;> rfl

/-- The chunk the job with call index `c` (below 16) reads is bytes
`1024 c .. 1024 c + 1023` of the stream A followed by B. -/
theorem chunk_of_stream (s : AudioState) (c : Nat) (hc : c < 16)
    (hpos : s.sbufpos = 1024 * (c % 8))
    (hsel : s.sbufsel = if c < 8 then bufselect.A else bufselect.B) (i : Nat) (hi : i < 1024) :
    selected_buf s (s.sbufpos + i) = pcm_stream s (2 * (512 * c) + i) := by
  unfold selected_buf pcm_stream
  simp only [AUDIO_BUFFER_SIZE]
  rw [hsel, hpos]
  by_cases h8 : c < 8
  · rw [if_pos h8, if_pos (by omega)]
    have e : 1024 * (c % 8) + i = 2 * (512 * c) + i := by omega
    rw [e]
  · rw [if_neg h8, if_neg (by omega)]
    have e : 1024 * (c % 8) + i = 2 * (512 * c) + i - 8192 := by omega
    rw [e]

/-- Jobs number `c`, `c + 1`, ... of a run that started at the head of buffer A
produce the words of the reference encoding of A followed by B from word
`2048 c` on. -/
theorem run_collect_stream (jobs : List Op) :
    ∀ (s : AudioState) (c : Nat) (stream : Nat → Nat) (ctx0 : EncCtx),
      (∀ op ∈ jobs, is_job op) → c + jobs.length ≤ 16 →
      stream = pcm_stream s →
      s.sbufpos = 1024 * (c % 8) →
      s.sbufsel = (if c % 16 < 8 then bufselect.A else bufselect.B) →
      s.enc = ctx_at stream ctx0 (512 * c) →
      ∃ out t, run_collect jobs s = some (out, t)
        ∧ out = (List.range (2048 * jobs.length)).map (fun j =>
            (out_at stream ctx0 ((2048 * c + j) / 4)).words.getD ((2048 * c + j) % 4) 0)
        ∧ t.enc = ctx_at stream ctx0 (512 * (c + jobs.length))
        ∧ t.sample_buf_a = s.sample_buf_a ∧ t.sample_buf_b = s.sample_buf_b := by
  induction jobs with
  | nil =>
    intro s c stream ctx0 _ _ _ _ _ henc
    exact ⟨[], s, rfl, rfl, henc, rfl, rfl⟩
  | cons op ops ih =>
    intro s c stream ctx0 hall hlen hstream hpos hsel henc
    simp only [List.length_cons] at hlen
    have hc : c < 16 := by omega
    have hsel2 : s.sbufsel = if c < 8 then bufselect.A else bufselect.B := by
      rw [hsel, Nat.mod_eq_of_lt hc]
    obtain ⟨s1, h1, e1, o1, sa1, sb1, p1, l1⟩ := job_result op (hall op (List.mem_cons_self _ _)) s
    have hsrc : ∀ i < 2 * 512, (fun i => selected_buf s (s.sbufpos + i)) i
        = (fun i => stream (2 * (512 * c) + i)) i := by
      intro i hi
      show selected_buf s (s.sbufpos + i) = stream (2 * (512 * c) + i)
      rw [hstream]
      exact chunk_of_stream s c hc hpos hsel2 i (by omega)
    have hstream1 : stream = pcm_stream s1 := by
      rw [hstream]
      unfold pcm_stream
      rw [sa1, sb1]
    have hpos1 : s1.sbufpos = 1024 * ((c + 1) % 8) := by
      rw [p1, hpos]
      by_cases h : 8192 ≤ (1024 * (c % 8) + 1024) % 65536
      · rw [if_pos h]; omega
      · rw [if_neg h]; omega
    have hsel1 : s1.sbufsel = (if (c + 1) % 16 < 8 then bufselect.A else bufselect.B) := by
      rw [l1, hpos, hsel2]
      by_cases h : 8192 ≤ (1024 * (c % 8) + 1024) % 65536
      · rw [if_pos h]
        by_cases h8 : c < 8
        · rw [if_pos h8, if_neg (by omega)]
          rfl
        · rw [if_neg h8, if_pos (by omega)]
          rfl
      · rw [if_neg h]
        by_cases h8 : c < 8
        · rw [if_pos h8, if_pos (by omega)]
        · rw [if_neg h8, if_neg (by omega)]
    have henc1 : s1.enc = ctx_at stream ctx0 (512 * (c + 1)) := by
      rw [e1, henc, ctx_at_congr _ _ _ 512 hsrc, ← ctx_at_add]
      congr 1
    obtain ⟨out, t, hrun, hout, hte, hta, htb⟩ := ih s1 (c + 1) stream ctx0
      (fun o ho => hall o (List.mem_cons_of_mem _ ho)) (by omega) hstream1 hpos1 hsel1 henc1
    refine ⟨job_output op s1 ++ out, t, ?_, ?_, ?_, by rw [hta, sa1], by rw [htb, sb1]⟩
    · rw [run_collect_cons, h1, Option.some_bind, hrun]
      rfl
    · simp only [List.length_cons]
      have e : 2048 * (ops.length + 1) = 2048 + 2048 * ops.length := by ring
      rw [e, range_map_add, o1, hout]
      refine congrArg₂ (fun x y : List Nat => x ++ y) ?_ ?_
      · apply List.map_congr_left
        intro j hj
        have hj2 : j < 2048 := List.mem_range.mp hj
        have a : (2048 * c + j) / 4 = 512 * c + j / 4 := by omega
        have b : (2048 * c + j) % 4 = j % 4 := by omega
        rw [a, b, out_at_add, henc,
          out_at_congr _ _ _ (j / 4) (fun i hi => hsrc i (by omega))]
      · apply List.map_congr_left
        intro j _
        have a : 2048 * (c + 1) + j = 2048 * c + (2048 + j) := by ring
        rw [a]
    · rw [hte]
      simp only [List.length_cons]
      congr 1
      ring

/-- Claim C26 (chunks are consumed in stream order: the wire-buffer contents
of up to 16 successive jobs, in call order, are the reference encoding of
buffer A followed by buffer B). -/
theorem chunks_in_stream_order (jobs : List Op) (s : AudioState) (wire : Nat → Nat)
    (hall : ∀ op ∈ jobs, is_job op) (h1 : 1 ≤ jobs.length) (h16 : jobs.length ≤ 16)
    (hsel : s.sbufsel = .A) (hpos : s.sbufpos = 0) (henc : s.enc = ⟨0, 0⟩) :
    ∃ out t w c, run_collect jobs s = some (out, t)
      ∧ snd_encode (pcm_stream s) wire (SAMPLE_CHUNK_SIZE * jobs.length) ⟨0, 0⟩ = some (w, c)
      ∧ out = read_words w (WIRE_BUFFER_SIZE * jobs.length)
      ∧ out.length = WIRE_BUFFER_SIZE * jobs.length
      ∧ t.enc = c
      ∧ t.sample_buf_a = s.sample_buf_a ∧ t.sample_buf_b = s.sample_buf_b := by
  obtain ⟨out, t, hrun, hout, hte, hta, htb⟩ := run_collect_stream jobs s 0 (pcm_stream s) ⟨0, 0⟩
    hall (by omega) rfl (by rw [hpos]) (by rw [hsel]; rfl) (by rw [henc]; rfl)
  have hp : passes (SAMPLE_CHUNK_SIZE * jobs.length) = 512 * jobs.length := by
    unfold passes
    simp only [SAMPLE_CHUNK_SIZE]
    omega
  have hlen : SAMPLE_CHUNK_SIZE * jobs.length < 65535 := by
    simp only [SAMPLE_CHUNK_SIZE]
    omega
  have hw : WIRE_BUFFER_SIZE * jobs.length = 4 * (512 * jobs.length) := by
    simp only [WIRE_BUFFER_SIZE, SAMPLE_CHUNK_SIZE]
    omega
  refine ⟨out, t, _, _, hrun, snd_encode_eq (pcm_stream s) wire ⟨0, 0⟩ _ hlen, ?_, ?_, ?_,
    hta, htb⟩
  · rw [hp, hw, read_words_encode _ _ _ _ (by omega), hout]
    have e : 2048 * jobs.length = 4 * (512 * jobs.length) := by omega
    rw [e]
    apply List.map_congr_left
    intro j _
    rw [Nat.mul_zero, Nat.zero_add]
  · rw [hout, List.length_map, List.length_range]
    simp only [WIRE_BUFFER_SIZE, SAMPLE_CHUNK_SIZE]
  · rw [hte, hp, Nat.zero_add]

/-- Instance of C26: `snd_process_a` followed by `snd_process_b` from the
started state with a ramp in buffer A. -/
theorem chunks_in_stream_order_witness :
    ((∀ op ∈ [Op.snd_process_a, Op.snd_process_b], is_job op)
      ∧ 1 ≤ [Op.snd_process_a, Op.snd_process_b].length
      ∧ [Op.snd_process_a, Op.snd_process_b].length ≤ 16
      ∧ ({ started_state with sample_buf_a := fun i => i % 256 } : AudioState).sbufsel = .A
      ∧ ({ started_state with sample_buf_a := fun i => i % 256 } : AudioState).sbufpos = 0
      ∧ ({ started_state with sample_buf_a := fun i => i % 256 } : AudioState).enc = ⟨0, 0⟩)
    ∧ ∃ out t w c,
        run_collect [Op.snd_process_a, Op.snd_process_b]
          { started_state with sample_buf_a := fun i => i % 256 } = some (out, t)
      ∧ snd_encode (pcm_stream { started_state with sample_buf_a := fun i => i % 256 })
          (fun _ => 0) (SAMPLE_CHUNK_SIZE * [Op.snd_process_a, Op.snd_process_b].length) ⟨0, 0⟩
          = some (w, c)
      ∧ out = read_words w (WIRE_BUFFER_SIZE * [Op.snd_process_a, Op.snd_process_b].length)
      ∧ out.length = WIRE_BUFFER_SIZE * [Op.snd_process_a, Op.snd_process_b].length
      ∧ t.enc = c
      ∧ t.sample_buf_a
          = ({ started_state with sample_buf_a := fun i => i % 256 } : AudioState).sample_buf_a
      ∧ t.sample_buf_b
          = ({ started_state with sample_buf_a := fun i => i % 256 } : AudioState).sample_buf_b :=
  ⟨⟨fun op hop => by
        simp only [List.mem_cons, List.mem_singleton, List.not_mem_nil, or_false] at hop
        exact hop,
      by decide, by decide, rfl, rfl, rfl⟩,
    chunks_in_stream_order [Op.snd_process_a, Op.snd_process_b]
      { started_state with sample_buf_a := fun i => i % 256 } (fun _ => 0)
      (fun op hop => by
        simp only [List.mem_cons, List.mem_singleton, List.not_mem_nil, or_false] at hop
        exact hop)
      (by decide) (by decide) rfl rfl rfl⟩

theorem irq_mask_a (x : Nat) : (x &&& (1 <<< SOUND_DMA_CHA) ≠ 0) ↔ x.testBit 6 = true := by
  have e : (1 <<< SOUND_DMA_CHA : Nat) = 2 ^ 6 := by decide
  rw [e, Nat.and_two_pow]
  cases x.testBit 6 <;> simp

theorem irq_mask_b (x : Nat) : (x &&& (1 <<< SOUND_DMA_CHB) ≠ 0) ↔ x.testBit 7 = true := by
  have e : (1 <<< SOUND_DMA_CHB : Nat) = 2 ^ 7 := by decide
  rw [e, Nat.and_two_pow]
  cases x.testBit 7 <;> simp

/-- The handler when the first read shows the bit of channel A. -/
theorem audio_dma_irq_a (r1 r2 : Nat) (h : r1.testBit 6 = true) :
    audio_dma_irq r1 r2 =
      [IrqCall.ints0_write 64,
       IrqCall.multicore_fifo_push_blocking Op.snd_process_a,
       IrqCall.dma_channel_configure 6 bufselect.A bufselect.A 2048 false] := by
  unfold audio_dma_irq
  rw [if_pos ((irq_mask_a r1).mpr h)]
  rfl

/-- The handler when the first read does not show the bit of channel A and the
second read shows the bit of channel B. -/
theorem audio_dma_irq_b (r1 r2 : Nat) (h1 : r1.testBit 6 = false) (h2 : r2.testBit 7 = true) :
    audio_dma_irq r1 r2 =
      [IrqCall.ints0_write 128,
       IrqCall.multicore_fifo_push_blocking Op.snd_process_b,
       IrqCall.dma_channel_configure 7 bufselect.B bufselect.B 2048 false] := by
  unfold audio_dma_irq
  rw [if_neg (fun hc => by rw [(irq_mask_a r1).mp hc] at h1; exact Bool.noConfusion h1),
    if_pos ((irq_mask_b r2).mpr h2)]
  rfl

/-- The handler when neither bit shows. -/
theorem audio_dma_irq_none (r1 r2 : Nat) (h1 : r1.testBit 6 = false)
    (h2 : r2.testBit 7 = false) : audio_dma_irq r1 r2 = [] := by
  unfold audio_dma_irq
  rw [if_neg (fun hc => by rw [(irq_mask_a r1).mp hc] at h1; exact Bool.noConfusion h1),
    if_neg (fun hc => by rw [(irq_mask_b r2).mp hc] at h2; exact Bool.noConfusion h2)]

/-- Claim C29, amended (interrupt handler order and target): the handler
acknowledges the bit of the channel, then dispatches that channel's encode job,
and only then rearms the channel with its own wire buffer, 2048 transfers and no
trigger; A is tested first, one channel is handled and one job dispatched. -/
theorem irq_ack_dispatch_rearm (r1 r2 : Nat) :
    (r1.testBit 6 = true →
      audio_dma_irq r1 r2 =
        [IrqCall.ints0_write 64,
         IrqCall.multicore_fifo_push_blocking Op.snd_process_a,
         IrqCall.dma_channel_configure 6 bufselect.A bufselect.A 2048 false]
      ∧ dispatched (audio_dma_irq r1 r2) = [Op.snd_process_a])
    ∧ (r1.testBit 6 = false → r2.testBit 7 = true →
      audio_dma_irq r1 r2 =
        [IrqCall.ints0_write 128,
         IrqCall.multicore_fifo_push_blocking Op.snd_process_b,
         IrqCall.dma_channel_configure 7 bufselect.B bufselect.B 2048 false]
      ∧ dispatched (audio_dma_irq r1 r2) = [Op.snd_process_b])
    ∧ (r1.testBit 6 = false → r2.testBit 7 = false → audio_dma_irq r1 r2 = [])
    ∧ SOUND_DMA_CHA = 6 ∧ SOUND_DMA_CHB = 7 ∧ WIRE_BUFFER_SIZE = 2048 := by
  refine ⟨?_, ?_, audio_dma_irq_none r1 r2, rfl, rfl, rfl⟩
  · intro h
    rw [audio_dma_irq_a r1 r2 h]
    exact ⟨rfl, rfl⟩
  · intro h1 h2
    rw [audio_dma_irq_b r1 r2 h1 h2]
    exact ⟨rfl, rfl⟩

/-- Instance of the amended C29: both bits pending (A is handled), only the bit
of B pending, and nothing pending. -/
theorem irq_ack_dispatch_rearm_witness :
    ((192 : Nat).testBit 6 = true ∧ (128 : Nat).testBit 6 = false
      ∧ (128 : Nat).testBit 7 = true ∧ (0 : Nat).testBit 6 = false
      ∧ (0 : Nat).testBit 7 = false)
    ∧ (audio_dma_irq 192 192 =
        [IrqCall.ints0_write 64,
         IrqCall.multicore_fifo_push_blocking Op.snd_process_a,
         IrqCall.dma_channel_configure 6 bufselect.A bufselect.A 2048 false]
      ∧ dispatched (audio_dma_irq 192 192) = [Op.snd_process_a])
    ∧ (audio_dma_irq 128 128 =
        [IrqCall.ints0_write 128,
         IrqCall.multicore_fifo_push_blocking Op.snd_process_b,
         IrqCall.dma_channel_configure 7 bufselect.B bufselect.B 2048 false]
      ∧ dispatched (audio_dma_irq 128 128) = [Op.snd_process_b])
    ∧ audio_dma_irq 0 0 = [] :=
  ⟨⟨by decide, by decide, by decide, by decide, by decide⟩,
    (irq_ack_dispatch_rearm 192 192).1 (by decide),
    (irq_ack_dispatch_rearm 128 128).2.1 (by decide) (by decide),
    (irq_ack_dispatch_rearm 0 0).2.2.1 (by decide) (by decide)⟩

/-- Claim C29 fails as stated.  With the bit of channel A pending the handler
passes `snd_process_a` to the other core before it calls
`dma_channel_configure`: the job is dispatched first and the channel rearmed
afterwards, not the other way round. -/
theorem rearm_then_dispatch_counterexample :
    audio_dma_irq 64 64 =
      [IrqCall.ints0_write 64,
       IrqCall.multicore_fifo_push_blocking Op.snd_process_a,
       IrqCall.dma_channel_configure 6 bufselect.A bufselect.A 2048 false]
    ∧ audio_dma_irq 64 64 ≠
      [IrqCall.ints0_write 64,
       IrqCall.dma_channel_configure 6 bufselect.A bufselect.A 2048 false,
       IrqCall.multicore_fifo_push_blocking Op.snd_process_a]
    ∧ ¬ ∀ r1 r2 : Nat, r1.testBit 6 = true →
        audio_dma_irq r1 r2 =
          [IrqCall.ints0_write 64,
           IrqCall.dma_channel_configure 6 bufselect.A bufselect.A 2048 false,
           IrqCall.multicore_fifo_push_blocking Op.snd_process_a] := by
  have h1 := audio_dma_irq_a 64 64 (by decide)
  have h2 : audio_dma_irq 64 64 ≠
      [IrqCall.ints0_write 64,
       IrqCall.dma_channel_configure 6 bufselect.A bufselect.A 2048 false,
       IrqCall.multicore_fifo_push_blocking Op.snd_process_a] := by
    rw [h1]
    decide
  exact ⟨h1, h2, fun hall => h2 (hall 64 64 (by decide))⟩

/-! ## Properties of runs in which the producer keeps pace -/

/-- The buffer states and the cursor after an encode job, for either job. -/
theorem job_states (op : Op) (hop : is_job op) (s : AudioState) :
    ∃ t, step op s = some t
      ∧ t.sbufpos
          = (if 8192 ≤ (s.sbufpos + 1024) % 65536 then 0 else (s.sbufpos + 1024) % 65536)
      ∧ t.sbufsel = (if 8192 ≤ (s.sbufpos + 1024) % 65536 then s.sbufsel.flip else s.sbufsel)
      ∧ t.abufst
          = (if 8192 ≤ (s.sbufpos + 1024) % 65536 ∧ s.sbufsel = .A then .STALE else s.abufst)
      ∧ t.bbufst
          = (if 8192 ≤ (s.sbufpos + 1024) % 65536 ∧ s.sbufsel = .B then .STALE else s.bbufst) := by
  rcases hop with h | h <;> subst h
  · obtain ⟨t, ht, _, _, _, _, _, _, _, a8, a9, a10, a11⟩ := snd_process_a_result s
    exact ⟨t, ht, a8, a9, a10, a11⟩
  · obtain ⟨t, ht, _, _, _, _, _, _, _, a8, a9, a10, a11⟩ := snd_process_b_result s
    exact ⟨t, ht, a8, a9, a10, a11⟩

theorem pace_step_job (op : Op) (hop : is_job op) (p : Pace) :
    pace_step op p =
      if p.jobs + 1 < CHUNKS_PER_BUFFER then some { p with jobs := p.jobs + 1 }
      else if p.poll = 2 then some { jobs := 0, poll := 0 }
      else none := by
  rcases hop with h | h <;> subst h <;> rfl

theorem pace_run_cons (op : Op) (ops : List Op) (p : Pace) :
    pace_run (op :: ops) p = (pace_step op p).bind (pace_run ops) := by
  simp only [pace_run]
  cases pace_step op p <;> rfl

/-- A call of `audio_buffer` keeps the state in agreement with the order of calls. -/
theorem pace_audio_buffer (p : Pace) (s : AudioState) (h : pace_agrees p s) :
    pace_agrees { p with poll := if p.poll = 0 then 1 else p.poll } (audio_buffer s).1 := by
  obtain ⟨hj, hp, hpos, hact, hoth⟩ := h
  obtain ⟨fsel, fpos, _⟩ := audio_buffer_frame s
  have ha := audio_buffer_abufst s
  have hb := audio_buffer_bbufst s
  refine ⟨hj, ?_, by rw [fpos]; exact hpos, ?_, ?_⟩
  · show (if p.poll = 0 then 1 else p.poll) ≤ 2
    split <;> omega
  · unfold active_state at hact ⊢
    rw [fsel]
    cases hsel : s.sbufsel
    · rw [hsel] at hact
      simp only at hact ⊢
      rw [ha, hact]
      rfl
    · rw [hsel] at hact
      simp only at hact ⊢
      rw [hb, hact]
      by_cases h1 : s.abufst = .STALE
      · rw [if_pos h1]
      · rw [if_neg h1]
        rfl
  · show other_state (audio_buffer s).1 = poll_state (if p.poll = 0 then 1 else p.poll)
    unfold active_state at hact
    unfold other_state at hoth ⊢
    rw [fsel]
    cases hsel : s.sbufsel
    · rw [hsel] at hact hoth
      simp only at hact hoth ⊢
      rw [hb, hact, hoth]
      have hc : p.poll = 0 ∨ p.poll = 1 ∨ p.poll = 2 := by omega
      rcases hc with e | e | e <;> rw [e] <;> rfl
    · rw [hsel] at hact hoth
      simp only at hact hoth ⊢
      rw [ha, hoth]
      have hc : p.poll = 0 ∨ p.poll = 1 ∨ p.poll = 2 := by omega
      rcases hc with e | e | e <;> rw [e] <;> rfl

/-- A call of `audio_buffer_filled` keeps the state in agreement with the
order of calls. -/
theorem pace_audio_buffer_filled (p : Pace) (s : AudioState) (h : pace_agrees p s) :
    pace_agrees { p with poll := if p.poll = 1 then 2 else p.poll } (audio_buffer_filled s) := by
  obtain ⟨hj, hp, hpos, hact, hoth⟩ := h
  obtain ⟨fsel, fpos, _⟩ := audio_buffer_filled_frame s
  have ha := audio_buffer_filled_abufst s
  have hb := audio_buffer_filled_bbufst s
  refine ⟨hj, ?_, by rw [fpos]; exact hpos, ?_, ?_⟩
  · show (if p.poll = 1 then 2 else p.poll) ≤ 2
    split <;> omega
  · unfold active_state at hact ⊢
    rw [fsel]
    cases hsel : s.sbufsel
    · rw [hsel] at hact
      simp only at hact ⊢
      rw [ha, hact]
      rfl
    · rw [hsel] at hact
      simp only at hact ⊢
      rw [hb, hact]
      by_cases h1 : s.abufst = .FILLING
      · rw [if_pos h1]
      · rw [if_neg h1]
        rfl
  · show other_state (audio_buffer_filled s) = poll_state (if p.poll = 1 then 2 else p.poll)
    unfold active_state at hact
    unfold other_state at hoth ⊢
    rw [fsel]
    cases hsel : s.sbufsel
    · rw [hsel] at hact hoth
      simp only at hact hoth ⊢
      rw [hb, hact, hoth]
      have hc : p.poll = 0 ∨ p.poll = 1 ∨ p.poll = 2 := by omega
      rcases hc with e | e | e <;> rw [e] <;> rfl
    · rw [hsel] at hact hoth
      simp only at hact hoth ⊢
      rw [ha, hoth]
      have hc : p.poll = 0 ∨ p.poll = 1 ∨ p.poll = 2 := by omega
      rcases hc with e | e | e <;> rw [e] <;> rfl

/-- An encode job admitted by the order of calls returns and keeps the state in
agreement with it. -/
theorem pace_job (op : Op) (hop : is_job op) (p p2 : Pace) (s : AudioState)
    (h : pace_agrees p s) (hstep : pace_step op p = some p2) :
    ∃ t, step op s = some t ∧ pace_agrees p2 t := by
  obtain ⟨hj, hp, hpos, hact, hoth⟩ := h
  obtain ⟨t, ht, tpos, tsel, ta, tb⟩ := job_states op hop s
  refine ⟨t, ht, ?_⟩
  have hc8 : CHUNKS_PER_BUFFER = 8 := rfl
  have hcs : SAMPLE_CHUNK_SIZE = 1024 := rfl
  rw [hc8] at hj
  rw [hcs] at hpos
  rw [pace_step_job op hop p, hc8] at hstep
  by_cases hin : p.jobs + 1 < 8
  · rw [if_pos hin] at hstep
    cases Option.some.inj hstep
    have hno : ¬ 8192 ≤ (s.sbufpos + 1024) % 65536 := by omega
    rw [if_neg hno] at tpos tsel
    rw [if_neg (fun hx => hno hx.1)] at ta tb
    refine ⟨by rw [hc8]; exact hin, hp, ?_, ?_, ?_⟩
    · rw [tpos, hcs]
      show (s.sbufpos + 1024) % 65536 = 1024 * (p.jobs + 1)
      omega
    · unfold active_state at hact ⊢
      rw [tsel, ta, tb]
      exact hact
    · unfold other_state at hoth ⊢
      rw [tsel, ta, tb]
      exact hoth
  · rw [if_neg hin] at hstep
    by_cases h2 : p.poll = 2
    · rw [if_pos h2] at hstep
      cases Option.some.inj hstep
      have hyes : 8192 ≤ (s.sbufpos + 1024) % 65536 := by omega
      rw [if_pos hyes] at tpos tsel
      rw [h2] at hoth
      refine ⟨by rw [hc8]; norm_num, by norm_num, by rw [tpos]; rfl, ?_, ?_⟩
      · unfold active_state at hact ⊢
        unfold other_state at hoth
        rw [tsel]
        cases hsel : s.sbufsel
        · rw [hsel] at hact hoth tb
          show t.bbufst = .READY
          rw [tb, if_neg (by rintro ⟨_, hx⟩; cases hx)]
          exact hoth
        · rw [hsel] at hact hoth ta
          show t.abufst = .READY
          rw [ta, if_neg (by rintro ⟨_, hx⟩; cases hx)]
          exact hoth
      · unfold other_state
        rw [tsel]
        cases hsel : s.sbufsel
        · rw [hsel] at ta
          show t.abufst = .STALE
          rw [ta, if_pos ⟨hyes, rfl⟩]
        · rw [hsel] at tb
          show t.bbufst = .STALE
          rw [tb, if_pos ⟨hyes, rfl⟩]
    · rw [if_neg h2] at hstep
      exact Option.noConfusion hstep

/-- Any call admitted by the order of calls returns and keeps the state in
agreement with it. -/
theorem pace_step_agrees (op : Op) (p p2 : Pace) (s : AudioState)
    (h : pace_agrees p s) (hstep : pace_step op p = some p2) :
    ∃ t, step op s = some t ∧ pace_agrees p2 t := by
  cases op with
  | audio_buffer =>
    cases Option.some.inj hstep
    exact ⟨_, rfl, pace_audio_buffer p s h⟩
  | audio_buffer_filled =>
    cases Option.some.inj hstep
    exact ⟨_, rfl, pace_audio_buffer_filled p s h⟩
  | snd_process_a => exact pace_job _ (Or.inl rfl) p p2 s h hstep
  | snd_process_b => exact pace_job _ (Or.inr rfl) p p2 s h hstep

/-- Along calls the order of calls admits, every prefix returns and leaves the
state in agreement with it. -/
theorem pace_run_agrees (ops : List Op) :
    ∀ (p : Pace) (s : AudioState), pace_agrees p s → (pace_run ops p).isSome = true →
      ∀ k, ∃ t q, run_ops (ops.take k) s = some t ∧ pace_agrees q t := by
  induction ops with
  | nil =>
    intro p s h _ k
    rw [List.take_nil]
    exact ⟨s, p, rfl, h⟩
  | cons op ops ih =>
    intro p s h hrun k
    cases k with
    | zero => exact ⟨s, p, rfl, h⟩
    | succ k =>
      rw [pace_run_cons] at hrun
      cases hst : pace_step op p with
      | none =>
        rw [hst] at hrun
        exact Bool.noConfusion hrun
      | some p1 =>
        rw [hst, Option.some_bind] at hrun
        obtain ⟨s1, h1, hag⟩ := pace_step_agrees op p p1 s h hst
        obtain ⟨t, q, ht, hq⟩ := ih p1 s1 hag hrun k
        refine ⟨t, q, ?_, hq⟩
        rw [List.take_succ_cons, run_ops_cons, h1, Option.some_bind]
        exact ht

/-- Claim C17, amended.  From a state in which transmission has just started
(both buffers READY, cursor 0), along any interleaving of `audio_buffer`,
`audio_buffer_filled` and the encode jobs in which the producer keeps pace
(between any two flips of the selector `audio_buffer` is called and then
`audio_buffer_filled`, before the job that completes the buffer), every call
returns and after every prefix of the calls the buffer the selector
designates is READY, hence never FILLING. -/
theorem active_buffer_never_filling (s0 : AudioState) (ops : List Op)
    (ha : s0.abufst = .READY) (hb : s0.bbufst = .READY) (hpos : s0.sbufpos = 0)
    (hp : keeps_pace ops = true) :
    ∀ k, ∃ s, run_ops (ops.take k) s0 = some s
      ∧ active_state s = .READY ∧ active_state s ≠ .FILLING := by
  have h0 : pace_agrees pace_start s0 := by
    refine ⟨by decide, by decide, by rw [hpos]; rfl, ?_, ?_⟩
    · unfold active_state
      cases s0.sbufsel
      · exact ha
      · exact hb
    · unfold other_state
      cases s0.sbufsel
      · exact hb
      · exact ha
  intro k
  obtain ⟨t, q, ht, hq⟩ := pace_run_agrees ops pace_start s0 h0 hp k
  exact ⟨t, ht, hq.2.2.2.1, by rw [hq.2.2.2.1]; decide⟩

/-- Instance of amended C17: from the started state eight jobs exhaust A, one
refill (`audio_buffer`, `audio_buffer_filled`) follows, eight more jobs
exhaust B and flip back to the refilled A, and `audio_buffer` is called again. -/
theorem active_buffer_never_filling_witness :
    (started_state.abufst = .READY ∧ started_state.bbufst = .READY
      ∧ started_state.sbufpos = 0
      ∧ keeps_pace (List.replicate 8 Op.snd_process_a ++ [Op.audio_buffer, Op.audio_buffer_filled]
          ++ List.replicate 8 Op.snd_process_b ++ [Op.audio_buffer]) = true)
    ∧ ∀ k, ∃ s,
        run_ops ((List.replicate 8 Op.snd_process_a ++ [Op.audio_buffer, Op.audio_buffer_filled]
          ++ List.replicate 8 Op.snd_process_b ++ [Op.audio_buffer]).take k) started_state = some s
      ∧ active_state s = .READY ∧ active_state s ≠ .FILLING :=
  ⟨⟨rfl, rfl, rfl, by decide⟩,
    active_buffer_never_filling started_state
      (List.replicate 8 Op.snd_process_a ++ [Op.audio_buffer, Op.audio_buffer_filled]
        ++ List.replicate 8 Op.snd_process_b ++ [Op.audio_buffer])
      rfl rfl rfl (by decide)⟩

end ZuluAudio
